import Mathlib

/-!
# Handle allocation module (`h.c`)

A shallow embedding of `hAlloc`, `hFree` and `hAllocEntry`.

The C code keeps one block of words `mp`: `mp[H_LEN]` is the length of the list,
`mp[H_USED]` the number of used handles, and the handle slots start at
`mp[H_OFFSET]`.  The caller's `*map` points at the first slot and is `NULL` when
there is no block.

Modelling conventions:

The block is read in two ways.

* The record `HTable` (first part of the definitions): the `used` word and the
  list of the `int` words `mp[H_OFFSET + i]`, `0 ≤ i < mp[H_LEN]`, that `hAlloc`
  and `hFree` index.  The `H_LEN` word is the number of these words, so it is
  read off the list (`HTable.len`).  This reading covers the calls whose handle
  is a slot of the block, `0 ≤ handle < mp[H_LEN]`, and a store
  `(*map)[id] = v` that writes the word `mp[H_OFFSET + id]`, which is what the
  store does where `int` and `void*` have the same width.  A call outside this
  reading (a handle that is no slot of the block, a `NULL` map for `hFree`) has
  no result in it: the operation returns `none`.
* The words of the allocation (namespace `Mem`): every `int` word of the block,
  the head `mp[H_LEN]`, `mp[H_USED]` included, a pointer taking `pw` words.
  `hFree` has no comparison of `handle` with `mp[H_LEN]`, so here a handle of
  `-1` or `-2` reaches the head; the store of a pointer goes through a `void**`,
  so here it goes to the words `mp[H_OFFSET + id * pw]` onwards.  An access
  outside the allocation has no result (`none`).

The section "The two readings of the block agree" proves that the two coincide
for `pw = 1` and handles inside the block; the section "The block at any pointer
width" follows the head of the block for every `pw ≥ 1`.

Further conventions:

* `*map` is `none` for the `NULL` map.
* `int` and pointer values are mathematical integers; `0` is `NULL` / an empty
  slot.  A block of `len` slots occupies `(len + H_OFFSET) * sizeof(void**)`
  bytes computed in an `int`, so `len + H_INCR` and `used + 1` stay far inside
  the `int` range for every block that can exist; no wrap-around is modelled.
* `balloc` / `brealloc` are external: whether the request made by a call is
  granted is an input (`ok` on the record; `mem` on the words, which also gives
  the content of the fresh words), and `brealloc` keeps the old words on success
  and leaves the old block untouched on failure.
-/

namespace GoAhead

/-! ## Constants -/

/-- Grow handle list in chunks this size (`#define H_INCR 16`). -/
def H_INCR : Nat := 16

/-! ## Data model -/

/-- The handle block behind a non-`NULL` map: the `H_USED` word and the slot words
`mp[H_OFFSET], mp[H_OFFSET + 1], ...`. -/
structure HTable where
  /-- The word `mp[H_USED]`. -/
  used : Int
  /-- The words `mp[H_OFFSET + i]`, for `0 ≤ i < mp[H_LEN]`. -/
  slots : List Int
  deriving DecidableEq

/-- The word `mp[H_LEN]`: the number of slots of the block. -/
def HTable.len (t : HTable) : Int := (t.slots.length : Int)

/-- The conditions that `hFree` checks with `a_assert`. -/
inductive Check where
  /-- The check `a_assert(mp[H_LEN] >= H_INCR)`. -/
  | lenAtLeastIncr
  /-- The check `a_assert(mp[handle + H_OFFSET])`. -/
  | slotInUse
  /-- The check `a_assert(mp[H_USED])`. -/
  | usedNonZero
  deriving DecidableEq

/-- Modelled from the spec: the macro `a_assert` is defined in `uemf.h`, which is not
among the sources.  The spec calls these checks diagnostic assertions; the code
after each of them runs unconditionally.  A check whose condition is false is
appended to the log of reported checks, and execution continues. -/
def a_assert (c : Bool) (k : Check) (log : List Check) : List Check :=
  if c then log else log ++ [k]

/-- What `hFree` leaves behind: the map, the returned value and the reported checks. -/
structure FreeResult where
  /-- The value of `*map` after the call. -/
  map : Option HTable
  /-- The returned `int`. -/
  ret : Int
  /-- The `a_assert` checks that were reported, in program order. -/
  failed : List Check
  deriving DecidableEq

/-- What `hAllocEntry` leaves behind. -/
structure EntryResult where
  /-- The value of `*list` after the call. -/
  list : Option HTable
  /-- The value of `*max` after the call. -/
  max : Int
  /-- The returned `int`. -/
  ret : Int
  /-- The `a_assert` checks reported by the `hFree` of the roll-back. -/
  failed : List Check
  deriving DecidableEq

/-! ## `hAlloc` -/

/-- The loop `for (handle = 0; handle < len; handle++) if (mp[handle+H_OFFSET] == 0) ...`
of `hAlloc`, run over the slot words that are still ahead, `handle` being the index
of the first of them: the first index whose word is `0`, if the loop finds one. -/
def findNull : List Int → Nat → Option Nat
  | [], _ => none
  | w :: ws, handle => if w = 0 then some handle else findNull ws (handle + 1)

/-- The block `hAlloc` sets up when `*map == NULL`: `H_INCR` zeroed slots,
`mp[H_USED] = 0`. -/
def firstChunk : HTable := ⟨0, List.replicate H_INCR 0⟩

/-- The part of `hAlloc` from `len = mp[H_LEN]` on (lines 50-78), on the block `t`
that `*map` points to at that point.  When `mp[H_USED] < mp[H_LEN]` and the loop
finds a null slot, `mp[H_USED]++` and that index is returned.  Otherwise
`handle == len` (set by the `else`, or left so by the loop), and the list grows by
`H_INCR` zeroed slots; when `brealloc` fails, `-1` is returned and nothing has
been written. -/
def hAllocFrom (t : HTable) (ok : Bool) : Option HTable × Int :=
  match (if t.used < t.len then findNull t.slots 0 else none) with
  | some handle => (some ⟨t.used + 1, t.slots⟩, (handle : Int))
  | none =>
    if ok then
      (some ⟨t.used + 1, t.slots ++ List.replicate H_INCR 0⟩, t.len)
    else
      (some t, -1)

/-- Allocate a new handle: `int hAlloc(void ***map)`.  The result is the new value
of `*map` and the returned `int`.  `ok` tells whether the memory request of this
call (`balloc` for a `NULL` map, `brealloc` for growing) is granted.  The check
`a_assert(map)` is on the address of the caller's variable, which the model
always has. -/
def hAlloc (map : Option HTable) (ok : Bool) : Option HTable × Int :=
  match map with
  | none => if ok then hAllocFrom firstChunk ok else (none, -1)
  | some t => hAllocFrom t ok

/-! ## `hFree` -/

/-- The loop `for (handle = len - 1; handle >= 0; handle--) if (mp[handle + H_OFFSET]) break;`
of `hFree`; `n` is `handle + 1`.  The result is the value of `handle` after the
loop: the greatest index below `n` whose word is not `0`, or `-1`. -/
def scanDown (slots : List Int) : Nat → Int
  | 0 => -1
  | n + 1 => if slots.getD n 0 ≠ 0 then (n : Int) else scanDown slots n

/-- Free a handle: `int hFree(void ***map, int handle)`.  The three checks on the
block are logged, the slot is zeroed and `mp[H_USED]` decremented; the block is
freed and `*map` set to `NULL` when the decremented `mp[H_USED]` is `0`; the
returned value is the final `handle + 1`.  The code has no check of `handle`
against `mp[H_LEN]`: a `handle` that is not a slot of the block makes it read and
write outside the slot words, which the record does not hold, so there is no
result here (`none`), as for a `NULL` `*map`; `Mem.hFree` follows the code on
such a handle. -/
def hFree (map : Option HTable) (handle : Int) : Option FreeResult :=
  match map with
  | none => none
  | some t =>
    if 0 ≤ handle ∧ handle < t.len then
      let log := a_assert (decide (t.len ≥ (H_INCR : Int))) Check.lenAtLeastIncr []
      let log := a_assert (decide (t.slots.getD handle.toNat 0 ≠ 0)) Check.slotInUse log
      let log := a_assert (decide (t.used ≠ 0)) Check.usedNonZero log
      let slots := t.slots.set handle.toNat 0
      let used := t.used - 1
      if used = 0 then
        some ⟨none, -1 + 1, log⟩
      else
        let t1 : HTable := ⟨used, slots⟩
        let last : Int := if t1.used < t1.len then scanDown t1.slots t1.slots.length else t1.len
        some ⟨some t1, last + 1, log⟩
    else none

/-! ## `hAllocEntry` -/

/-- The assignment `(*list)[id] = (void*) cp`, as a write of the slot word
`mp[H_OFFSET + id]` that `hAlloc` and `hFree` read: that is the word the code
writes where `int` and `void*` have the same width.  `Mem.store` is the
assignment for a pointer of any width. -/
def setSlot (map : Option HTable) (id : Int) (cp : Int) : Option (Option HTable) :=
  match map with
  | none => none
  | some t =>
    if 0 ≤ id ∧ id < t.len then some (some ⟨t.used, t.slots.set id.toNat cp⟩) else none

/-- Allocate an entry: `int hAllocEntry(void ***list, int *max, int size)`.
`ok` is the answer to the memory request of the inner `hAlloc`, and `cp` is the
pointer `balloc(B_L, size)` returns when it is called (`0` for `NULL`).  The
value returned by the `hFree` of the roll-back is dropped, as in the code; the
checks it reports are kept in the result. -/
def hAllocEntry (list : Option HTable) (max : Int) (size : Int) (ok : Bool) (cp : Int) :
    Option EntryResult :=
  let a := hAlloc list ok
  let id := a.2
  if id < 0 then
    some ⟨a.1, max, -1, []⟩
  else if 0 < size ∧ cp = 0 then
    match hFree a.1 id with
    | none => none
    | some r => some ⟨r.map, max, -1, r.failed⟩
  else
    match (if 0 < size then setSlot a.1 id cp else some a.1) with
    | none => none
    | some l => some ⟨l, if id ≥ max then id + 1 else max, id, []⟩

/-! ## Vocabulary of the claims -/

/-- The word of slot `i` of a map, when `i` is a slot of its block. -/
def slotAt (map : Option HTable) (i : Int) : Option Int :=
  match map with
  | none => none
  | some t => if 0 ≤ i ∧ i < t.len then t.slots[i.toNat]? else none

/-- Slot `i` of the map is occupied: it is a slot of the block and its word is not `0`. -/
def Occupied (map : Option HTable) (i : Int) : Prop :=
  ∃ w, slotAt map i = some w ∧ w ≠ 0

/-- The number of occupied (non-zero) slots. -/
def occupiedCount (slots : List Int) : Nat := slots.countP (fun w => decide (w ≠ 0))

/-- The caller's step after `hAlloc`, as lines 132 and 143 of `hAllocEntry` do it:
a successful `hAlloc`, then the non-empty value `v` is stored in the slot of the
returned handle.  The result is the new map and the handle. -/
def hAllocStore (map : Option HTable) (v : Int) : Option (Option HTable × Int) :=
  let a := hAlloc map true
  match setSlot a.1 a.2 v with
  | none => none
  | some m => some (m, a.2)

/-- Consecutive allocations with no `hFree` in between: each is a successful `hAlloc`
whose slot the caller fills with the next value of `vs` before the next call.  The
result is the final map and the handles in the order they were returned. -/
def hAllocStoreRun : Option HTable → List Int → Option (Option HTable × List Int)
  | map, [] => some (map, [])
  | map, v :: vs =>
    match hAllocStore map v with
    | none => none
    | some (m, id) =>
      match hAllocStoreRun m vs with
      | none => none
      | some (m2, ids) => some (m2, id :: ids)

/-- The maps a caller can reach from the `NULL` map: by a successful `hAlloc` whose
slot the caller fills with a non-empty value, by an `hAlloc` that fails, and by
`hFree` of a handle that is in range and whose slot is occupied. -/
inductive Reachable : Option HTable → Prop
  | absent : Reachable none
  | alloc {m m1 : Option HTable} {v id : Int} :
      Reachable m → v ≠ 0 → hAllocStore m v = some (m1, id) → Reachable m1
  | allocFailed {m : Option HTable} :
      Reachable m → (hAlloc m false).2 = -1 → Reachable (hAlloc m false).1
  | free {m : Option HTable} {h : Int} {r : FreeResult} :
      Reachable m → Occupied m h → hFree m h = some r → Reachable r.map

/-- The capacity of a map: `mp[H_LEN]` of its block; `0` for the `NULL` map, which
has no slot. -/
def capacity (map : Option HTable) : Int :=
  match map with
  | none => 0
  | some t => t.len

/-- One step a caller can take on a map: a call of `hAlloc`, a call of `hFree` with a
handle in `[0, capacity)`, a call of `hAllocEntry`, or the caller writing any
value into any slot word of the block. -/
inductive ApiStep : Option HTable → Option HTable → Prop
  | alloc (m : Option HTable) (ok : Bool) : ApiStep m (hAlloc m ok).1
  | free {m : Option HTable} {h : Int} {r : FreeResult} :
      0 ≤ h → h < capacity m → hFree m h = some r → ApiStep m r.map
  | entry {m : Option HTable} {max size : Int} {ok : Bool} {cp : Int} {r : EntryResult} :
      hAllocEntry m max size ok cp = some r → ApiStep m r.list
  | store {m m1 : Option HTable} {id v : Int} :
      setSlot m id v = some m1 → ApiStep m m1

/-- The maps reachable from the `NULL` map by any number of `ApiStep`s. -/
inductive ApiReachable : Option HTable → Prop
  | absent : ApiReachable none
  | step {m m1 : Option HTable} : ApiReachable m → ApiStep m m1 → ApiReachable m1

/-- Consecutive calls of `hAllocEntry` with no `hFree` in between, every memory
request of `hAlloc` granted; each element of the list is the `size` of a call and
the pointer its `balloc` returns.  The result is the final map, the final `*max`,
and for each call the returned value with the capacity after the call. -/
def hAllocEntryRun : Option HTable → Int → List (Int × Int) →
    Option (Option HTable × Int × List (Int × Int))
  | list, max, [] => some (list, max, [])
  | list, max, p :: ps =>
    match hAllocEntry list max p.1 true p.2 with
    | none => none
    | some r =>
      match hAllocEntryRun r.list r.max ps with
      | none => none
      | some (l, m, out) => some (l, m, (r.ret, capacity r.list) :: out)

/-- The reference for `hFree` in the words of the spec: the slot is marked empty and
`used` decremented, the table becomes absent when `used` becomes 0 and the mark
is then 0, and otherwise the mark is always found by the reverse linear scan,
with no shortcut. -/
def hFreeRef (map : Option HTable) (handle : Int) : Option FreeResult :=
  match map with
  | none => none
  | some t =>
    if 0 ≤ handle ∧ handle < t.len then
      let log := a_assert (decide (t.len ≥ (H_INCR : Int))) Check.lenAtLeastIncr []
      let log := a_assert (decide (t.slots.getD handle.toNat 0 ≠ 0)) Check.slotInUse log
      let log := a_assert (decide (t.used ≠ 0)) Check.usedNonZero log
      let slots := t.slots.set handle.toNat 0
      let used := t.used - 1
      if used = 0 then
        some ⟨none, 0, log⟩
      else
        some ⟨some ⟨used, slots⟩, scanDown slots slots.length + 1, log⟩
    else none

/-- The maps reachable from the `NULL` map through the entry layer: by a successful
`hAllocEntry` with `size > 0`, and by `hFree` of a handle that is in range and
whose slot is occupied. -/
inductive EntryReachable : Option HTable → Prop
  | absent : EntryReachable none
  | entry {m : Option HTable} {max size : Int} {ok : Bool} {cp : Int} {r : EntryResult} :
      EntryReachable m → 0 < size → hAllocEntry m max size ok cp = some r → 0 ≤ r.ret →
      EntryReachable r.list
  | free {m : Option HTable} {h : Int} {r : FreeResult} :
      EntryReachable m → Occupied m h → hFree m h = some r → EntryReachable r.map

/-- Whether a call of `hFree` on the block `t` runs the `else` of line 113
(`handle = len`): the block is kept (`--mp[H_USED]` is not `0`) and the
decremented `mp[H_USED]` is not below `mp[H_LEN]`. -/
def hFreeTakesShortcut (t : HTable) : Bool :=
  decide (t.used - 1 ≠ 0 ∧ ¬ (t.used - 1 < t.len))

/-- The bounds kept along `ApiStep`s: a present table has `1 ≤ used ≤ capacity` and
its capacity is a positive multiple of 16. -/
def ApiInv (map : Option HTable) : Prop :=
  ∀ t, map = some t → 1 ≤ t.used ∧ t.used ≤ t.len ∧ ∃ k : Int, 1 ≤ k ∧ t.len = 16 * k

/-- The invariant of the entry layer: a present table has `used` equal to the number
of occupied slots, and `1 ≤ used ≤ capacity`. -/
def EntryInv (map : Option HTable) : Prop :=
  ∀ t, map = some t →
    t.used = (occupiedCount t.slots : Int) ∧ 1 ≤ t.used ∧ t.used ≤ t.len

/-- The number of empty slots at the end of a block whose handles fill a prefix,
after `n` further filled allocations, `z` being that number before them: the
block grows by 16 when none is left. -/
def packedFree : Nat → Nat → Nat
  | z, 0 => z
  | 0, n + 1 => packedFree 15 n
  | z + 1, n + 1 => packedFree z n

/-- The handles and capacities of `n` further filled allocations on such a block
with `k` handles in use and `z` empty slots at the end. -/
def packedOut : Nat → Nat → Nat → List (Int × Int)
  | _, _, 0 => []
  | k, 0, n + 1 => ((k : Int), ((k + 16 : Nat) : Int)) :: packedOut (k + 1) 15 n
  | k, z + 1, n + 1 => ((k : Int), ((k + 1 + z : Nat) : Int)) :: packedOut (k + 1) z n

/-! ## The block as the code lays it out

The definitions above read the block as the `int` words that `hAlloc` and `hFree`
index, and take a handle to be a slot of the block.  The definitions of this
section follow the code on the block as it lies in memory: all the `int` words
of the allocation, the two words of the head included, and a pointer taking
`pw` of them (`pw = sizeof(void*) / sizeof(int)`: 1 where both have the same
width, 2 on an LP64 build, whose byte order is taken to be little-endian).  Every
access is by its `int` index; an access outside the allocation has no result. -/

/-- First entry holds length of list (`#define H_LEN 0`). -/
def H_LEN : Int := 0

/-- Second entry holds number of used (`#define H_USED 1`). -/
def H_USED : Int := 1

/-- Offset to real start of list (`#define H_OFFSET 2`). -/
def H_OFFSET : Int := 2

namespace Mem

/-- The read `mp[i]` of an `int` word; `none` outside the allocation. -/
def rd (mp : List Int) (i : Int) : Option Int :=
  if 0 ≤ i then mp[i.toNat]? else none

/-- The write `mp[i] = v` of an `int` word; `none` outside the allocation. -/
def wr (mp : List Int) (i : Int) (v : Int) : Option (List Int) :=
  if 0 ≤ i ∧ i < (mp.length : Int) then some (mp.set i.toNat v) else none

/-- A `memset(&mp[i], 0, ...)` over `n` `int` words. -/
def zeroWords (mp : List Int) (i : Int) : Nat → Option (List Int)
  | 0 => some mp
  | n + 1 =>
    match wr mp i 0 with
    | none => none
    | some mp1 => zeroWords mp1 (i + 1) n

/-- The block `brealloc` returns for a request of `n` words: the old words as far as
they fit, and then words that were never written, whose content is `junk` (`0`
where `junk` ends). -/
def resize (mp : List Int) (n : Nat) (junk : List Int) : List Int :=
  (List.range n).map (fun i => if i < mp.length then mp.getD i 0 else junk.getD (i - mp.length) 0)

/-- The `int` words a pointer `cp` takes in memory, lowest first: the pointer itself
where it is one word wide, and its 32-bit parts otherwise. -/
def ptrWords : Nat → Int → List Int
  | 0, _ => []
  | 1, cp => [cp]
  | n + 2, cp => (cp % 2 ^ 32) :: ptrWords (n + 1) (cp / 2 ^ 32)

/-- The writes of consecutive `int` words from `mp[i]` on. -/
def wrWords (mp : List Int) (i : Int) : List Int → Option (List Int)
  | [] => some mp
  | w :: ws =>
    match wr mp i w with
    | none => none
    | some mp1 => wrWords mp1 (i + 1) ws

/-- The assignment `(*list)[id] = (void*) cp`: `*list` is `&mp[H_OFFSET]` taken as a
`void**`, so the pointer goes to the `pw` words from `mp[H_OFFSET + id * pw]`. -/
def store (pw : Nat) (mp : List Int) (id : Int) (cp : Int) : Option (List Int) :=
  wrWords mp (H_OFFSET + id * pw) (ptrWords pw cp)

/-- The loop `for (handle = 0; handle < len; handle++) if (mp[handle+H_OFFSET] == 0) ...`
of `hAlloc`, with `n` rounds left: the handle it stops at, or `none` when it runs
to the end. -/
def findNull (mp : List Int) : Nat → Int → Option (Option Int)
  | 0, _ => some none
  | n + 1, handle =>
    match rd mp (handle + H_OFFSET) with
    | none => none
    | some w => if w = 0 then some (some handle) else findNull mp n (handle + 1)

/-- The end of `hAlloc` (lines 66-78): grow the list by `H_INCR` and return `handle`.
`mem` is the answer of `brealloc`: `none` when it fails, and otherwise the
content of the words it adds. -/
def grow (pw : Nat) (mp : List Int) (len handle : Int) (mem : Option (List Int)) :
    Option (Option (List Int) × Int) :=
  match mem with
  | none => some (some mp, -1)
  | some junk => do
    let len1 := len + H_INCR
    let mp1 ← wr (resize mp ((len1 + H_OFFSET) * pw).toNat junk) H_LEN len1
    let mp2 ← zeroWords mp1 (H_OFFSET + len1 - H_INCR) (pw * H_INCR)
    let u ← rd mp2 H_USED
    let mp3 ← wr mp2 H_USED (u + 1)
    some (some mp3, handle)

/-- The part of `hAlloc` from `len = mp[H_LEN]` on (lines 50-78). -/
def hAllocFrom (pw : Nat) (mp : List Int) (mem : Option (List Int)) :
    Option (Option (List Int) × Int) := do
  let len ← rd mp H_LEN
  let used ← rd mp H_USED
  if used < len then
    match (← findNull mp len.toNat 0) with
    | some handle => do
      let mp1 ← wr mp H_USED (used + 1)
      some (some mp1, handle)
    | none => grow pw mp len len mem
  else
    grow pw mp len len mem

/-- Allocate a new handle: `int hAlloc(void ***map)`, on the words of the block.
For a `NULL` map the first chunk of `(H_INCR + H_OFFSET) * pw` words is zeroed and
`mp[H_LEN] = H_INCR`, `mp[H_USED] = 0` are written. -/
def hAlloc (pw : Nat) (map : Option (List Int)) (mem : Option (List Int)) :
    Option (Option (List Int) × Int) :=
  match map with
  | none =>
    match mem with
    | none => some (none, -1)
    | some _ => do
      let mp0 := List.replicate (((H_INCR : Int) + H_OFFSET) * pw).toNat (0 : Int)
      let mp1 ← wr mp0 H_LEN H_INCR
      let mp2 ← wr mp1 H_USED 0
      hAllocFrom pw mp2 mem
  | some mp => hAllocFrom pw mp mem

/-- The loop `for (handle = len - 1; handle >= 0; handle--) if (mp[handle + H_OFFSET]) break;`
of `hFree`, with `n` rounds left: the value of `handle` after the loop. -/
def scanDown (mp : List Int) : Nat → Int → Option Int
  | 0, handle => some handle
  | n + 1, handle =>
    if handle ≥ 0 then
      match rd mp (handle + H_OFFSET) with
      | none => none
      | some w => if w ≠ 0 then some handle else scanDown mp n (handle - 1)
    else some handle

/-- What `hFree` leaves behind, on the words of the block. -/
structure FreeResult where
  /-- The words of the block `*map` points into after the call; `none` for `NULL`. -/
  map : Option (List Int)
  /-- The returned `int`. -/
  ret : Int
  /-- The `a_assert` checks that were reported, in program order. -/
  failed : List Check
  deriving DecidableEq

/-- Free a handle: `int hFree(void ***map, int handle)`, on the words of the block.
There is no comparison of `handle` with `mp[H_LEN]` in the code, and none here:
`mp[handle + H_OFFSET]` is read, checked and zeroed wherever it lies in the
allocation, the head included. -/
def hFree (map : Option (List Int)) (handle : Int) : Option FreeResult := do
  let mp ← map
  let len0 ← rd mp H_LEN
  let log := a_assert (decide (len0 ≥ (H_INCR : Int))) Check.lenAtLeastIncr []
  let w ← rd mp (handle + H_OFFSET)
  let log := a_assert (decide (w ≠ 0)) Check.slotInUse log
  let u0 ← rd mp H_USED
  let log := a_assert (decide (u0 ≠ 0)) Check.usedNonZero log
  let mp1 ← wr mp (handle + H_OFFSET) 0
  let u ← rd mp1 H_USED
  let mp2 ← wr mp1 H_USED (u - 1)
  if u - 1 = 0 then
    some ⟨none, -1 + 1, log⟩
  else
    let len ← rd mp2 H_LEN
    let used ← rd mp2 H_USED
    let last ← if used < len then scanDown mp2 len.toNat (len - 1) else some len
    some ⟨some mp2, last + 1, log⟩

/-- What `hAllocEntry` leaves behind, on the words of the block. -/
structure EntryResult where
  /-- The words of the block `*list` points into after the call; `none` for `NULL`. -/
  list : Option (List Int)
  /-- The value of `*max` after the call. -/
  max : Int
  /-- The returned `int`. -/
  ret : Int
  deriving DecidableEq

/-- Allocate an entry: `int hAllocEntry(void ***list, int *max, int size)`, on the
words of the block.  `mem` is the answer to the memory request of the inner
`hAlloc`, `cp` the pointer `balloc(B_L, size)` returns (`0` for `NULL`). -/
def hAllocEntry (pw : Nat) (list : Option (List Int)) (max : Int) (size : Int)
    (mem : Option (List Int)) (cp : Int) : Option EntryResult := do
  let a ← hAlloc pw list mem
  let id := a.2
  if id < 0 then
    some ⟨a.1, max, -1⟩
  else if 0 < size then
    if cp = 0 then
      let r ← hFree a.1 id
      some ⟨r.map, max, -1⟩
    else
      let mp ← a.1
      let mp1 ← store pw mp id cp
      some ⟨some mp1, if id ≥ max then id + 1 else max, id⟩
  else
    some ⟨a.1, if id ≥ max then id + 1 else max, id⟩

/-- Consecutive calls of `hAllocEntry` with `size = 8`, every memory request granted
with zeroed fresh words, and the payload pointers `cps`: the final block and the
returned values in order. -/
def entryRun (pw : Nat) : Option (List Int) → Int → List Int →
    Option (Option (List Int) × List Int)
  | list, _, [] => some (list, [])
  | list, max, cp :: cps =>
    match hAllocEntry pw list max 8 (some []) cp with
    | none => none
    | some r =>
      match entryRun pw r.list r.max cps with
      | none => none
      | some (l, ids) => some (l, r.ret :: ids)

/-- The words of a block whose allocation is exactly its head and its slot words:
the view of the record `HTable` in memory where a pointer is one word wide. -/
def encode (t : HTable) : List Int := t.len :: t.used :: t.slots

/-- The result of `hFree` on an `HTable`, seen on the words of the block. -/
def encodeFree (r : GoAhead.FreeResult) : FreeResult :=
  ⟨r.map.map encode, r.ret, r.failed⟩

/-- The result of `hAllocEntry` on an `HTable`, seen on the words of the block. -/
def encodeEntry (r : GoAhead.EntryResult) : EntryResult :=
  ⟨r.list.map encode, r.max, r.ret⟩

/-- The caller's step after `hAlloc`, on the words of the block: a successful
`hAlloc` (the request granted, `junk` in the words it adds), then the caller's
assignment `(*map)[handle] = (void*) v`.  The result is the new block and the
handle. -/
def hAllocStore (pw : Nat) (map : Option (List Int)) (junk : List Int) (v : Int) :
    Option (Option (List Int) × Int) := do
  let a ← hAlloc pw map (some junk)
  let mp ← a.1
  let mp1 ← store pw mp a.2 v
  some (some mp1, a.2)

/-- Consecutive allocations with no `hFree` in between, on the words of the block:
each is the caller's step `hAllocStore` with the next value of `vs`.  The result
is the final block and the handles in the order they were returned. -/
def storeRun (pw : Nat) : Option (List Int) → List Int → Option (Option (List Int) × List Int)
  | map, [] => some (map, [])
  | map, v :: vs =>
    match hAllocStore pw map [] v with
    | none => none
    | some (m, id) =>
      match storeRun pw m vs with
      | none => none
      | some (m2, ids) => some (m2, id :: ids)

/-- What a caller sees of the run `scenario`. -/
structure Trace where
  /-- The handles of the first allocations, in order. -/
  handles : List Int
  /-- The value returned by `hFree(map, 2)`. -/
  free2 : Int
  /-- The checks reported by `hFree(map, 2)`. -/
  failed2 : List Check
  /-- The value returned by `hFree(map, 16)`. -/
  free16 : Int
  /-- The checks reported by `hFree(map, 16)`. -/
  failed16 : List Check
  /-- The handle of the last allocation. -/
  last : Int
  deriving DecidableEq

/-- A caller's run on the words of the block: from the `NULL` map, one allocation
`hAllocStore` for each value of `vs`, then `hFree(map, 2)`, `hFree(map, 16)` and
one more allocation storing `v`. -/
def scenario (pw : Nat) (vs : List Int) (v : Int) : Option Trace := do
  let x ← storeRun pw none vs
  let r1 ← hFree x.1 2
  let r2 ← hFree r1.map 16
  let y ← hAllocStore pw r2.map [] v
  some ⟨x.2, r1.ret, r1.failed, r2.ret, r2.failed, y.2⟩

/-- The blocks a caller can reach from the `NULL` map, on the words of the block: by
a successful `hAlloc` after which the caller stores a non-empty value in the
returned slot, by an `hAlloc` that fails, and by `hFree` of a handle below
`mp[H_LEN]` whose slot word is not zero. -/
inductive Reachable (pw : Nat) : Option (List Int) → Prop
  | absent : Reachable pw none
  | alloc {m m1 : Option (List Int)} {junk : List Int} {v id : Int} :
      Reachable pw m → v ≠ 0 → hAllocStore pw m junk v = some (m1, id) → Reachable pw m1
  | allocFailed {m : Option (List Int)} {r : Option (List Int) × Int} :
      Reachable pw m → hAlloc pw m none = some r → r.2 = -1 → Reachable pw r.1
  | free {m : Option (List Int)} {mp : List Int} {h len w : Int} {r : FreeResult} :
      Reachable pw m → m = some mp → rd mp H_LEN = some len → 0 ≤ h → h < len →
      rd mp (h + H_OFFSET) = some w → w ≠ 0 → hFree m h = some r → Reachable pw r.map

/-- The block has the head and the size of a list of `len` slots with `used` handles
in use: `mp[H_LEN] = len`, `mp[H_USED] = used`, and `(len + H_OFFSET) * pw` words in
all, which is the size `hAlloc` requests for it. -/
def Shaped (pw : Nat) (mp : List Int) (len used : Int) : Prop :=
  rd mp H_LEN = some len ∧ rd mp H_USED = some used ∧
    (mp.length : Int) = (len + H_OFFSET) * (pw : Int)

/-- The capacity of a map, on the words of the block: the word `mp[H_LEN]`; `0` for
the `NULL` map, which has no slot. -/
def capacity (m : Option (List Int)) : Int :=
  match m with
  | none => 0
  | some mp => (rd mp H_LEN).getD 0

/-- One step a caller can take, on the words of the block: a call of `hAlloc`, a call
of `hFree` with a handle in `[0, mp[H_LEN])`, a call of `hAllocEntry`, or the
store `(*map)[id] = v` of any pointer with `id` in `[0, mp[H_LEN])`. -/
inductive ApiStep (pw : Nat) : Option (List Int) → Option (List Int) → Prop
  | alloc {m mem : Option (List Int)} {r : Option (List Int) × Int} :
      hAlloc pw m mem = some r → ApiStep pw m r.1
  | free {mp : List Int} {h len : Int} {r : FreeResult} :
      rd mp H_LEN = some len → 0 ≤ h → h < len → hFree (some mp) h = some r →
      ApiStep pw (some mp) r.map
  | entry {m mem : Option (List Int)} {max size cp : Int} {r : EntryResult} :
      hAllocEntry pw m max size mem cp = some r → ApiStep pw m r.list
  | store {mp mp1 : List Int} {len id v : Int} :
      rd mp H_LEN = some len → 0 ≤ id → id < len → store pw mp id v = some mp1 →
      ApiStep pw (some mp) (some mp1)

/-- The blocks reachable from the `NULL` map by the steps of `ApiStep`. -/
inductive ApiReachable (pw : Nat) : Option (List Int) → Prop
  | absent : ApiReachable pw none
  | step {m m1 : Option (List Int)} : ApiReachable pw m → ApiStep pw m m1 → ApiReachable pw m1

/-- What holds of every reachable block: it has the size of its length, `mp[H_USED]`
lies between 1 and `mp[H_LEN]`, and `mp[H_LEN]` is a positive multiple of 16. -/
def ApiInv (pw : Nat) (m : Option (List Int)) : Prop :=
  ∀ mp, m = some mp → ∃ len used : Int, Shaped pw mp len used ∧ 1 ≤ used ∧ used ≤ len ∧
    ∃ k : Int, 1 ≤ k ∧ len = 16 * k

/-- What a step leaves: a block with the properties of `ApiInv` whose length, if the
map is not `NULL`, is the capacity before the step or 16 more. -/
def Post (pw : Nat) (m m1 : Option (List Int)) : Prop :=
  ApiInv pw m1 ∧
    ∀ mp1, m1 = some mp1 → capacity m1 = capacity m ∨ capacity m1 = capacity m + 16

end Mem

/-! ## Lemmas on the two loops -/

theorem findNull_some {ws : List Int} {k i : Nat} (h : findNull ws k = some i) :
    ∃ j, i = k + j ∧ ws[j]? = some 0 ∧ ∀ j2, j2 < j → ∀ w, ws[j2]? = some w → w ≠ 0 := by
  induction ws generalizing k with
  | nil => simp [findNull] at h
  | cons w ws ih =>
    unfold findNull at h
    split at h
    · rename_i hw
      refine ⟨0, ?_, ?_, ?_⟩
      · simpa using (Option.some.inj h).symm
      · simp [hw]
      · intro j2 hj2; omega
    · rename_i hw
      obtain ⟨j, hj, hz, hlow⟩ := ih h
      refine ⟨j + 1, by omega, by simpa using hz, ?_⟩
      intro j2 hj2 v hv
      cases j2 with
      | zero => simp at hv; rw [← hv]; exact hw
      | succ j3 => exact hlow j3 (by omega) v (by simpa using hv)

theorem findNull_none {ws : List Int} {k : Nat} (h : findNull ws k = none) :
    ∀ w ∈ ws, w ≠ 0 := by
  induction ws generalizing k with
  | nil => simp
  | cons w ws ih =>
    unfold findNull at h
    split at h
    · simp at h
    · rename_i hw
      intro v hv
      rcases List.mem_cons.mp hv with rfl | hv
      · exact hw
      · exact ih h v hv

theorem findNull_isSome_of_zero {ws : List Int} {k j : Nat} (hz : ws[j]? = some 0) :
    ∃ i, findNull ws k = some i := by
  cases hf : findNull ws k with
  | some i => exact ⟨i, rfl⟩
  | none =>
    exfalso
    have hmem : (0 : Int) ∈ ws := List.mem_iff_getElem?.mpr ⟨j, hz⟩
    exact findNull_none hf 0 hmem rfl

theorem scanDown_spec (slots : List Int) (n : Nat) :
    (scanDown slots n = -1 ∧ ∀ j, j < n → slots.getD j 0 = 0) ∨
    (∃ g : Nat, g < n ∧ scanDown slots n = (g : Int) ∧ slots.getD g 0 ≠ 0 ∧
      ∀ j, g < j → j < n → slots.getD j 0 = 0) := by
  induction n with
  | zero => left; exact ⟨rfl, fun j hj => absurd hj (Nat.not_lt_zero j)⟩
  | succ n ih =>
    unfold scanDown
    by_cases hn : slots.getD n 0 ≠ 0
    · right
      refine ⟨n, Nat.lt_succ_self n, by rw [if_pos hn], hn, ?_⟩
      intro j h1 h2; omega
    · rw [if_neg hn]
      have hn0 : slots.getD n 0 = 0 := not_not.mp hn
      rcases ih with ⟨h1, h2⟩ | ⟨g, hg, h1, h2, h3⟩
      · left
        refine ⟨h1, ?_⟩
        intro j hj
        rcases Nat.lt_succ_iff_lt_or_eq.mp hj with hlt | heq
        · exact h2 j hlt
        · rw [heq]; exact hn0
      · right
        refine ⟨g, by omega, h1, h2, ?_⟩
        intro j hj1 hj2
        rcases Nat.lt_succ_iff_lt_or_eq.mp hj2 with hlt | heq
        · exact h3 j hj1 hlt
        · rw [heq]; exact hn0

/-! ## Lemmas on the number of occupied slots -/

theorem occupiedCount_le_length (ws : List Int) : occupiedCount ws ≤ ws.length :=
  List.countP_le_length _

theorem occupiedCount_append_zeros (ws : List Int) (n : Nat) :
    occupiedCount (ws ++ List.replicate n 0) = occupiedCount ws := by
  unfold occupiedCount
  rw [List.countP_append]
  have : List.countP (fun w : Int => decide (w ≠ 0)) (List.replicate n 0) = 0 := by
    rw [List.countP_eq_zero]
    intro a ha
    have := List.eq_of_mem_replicate ha
    simp [this]
  omega

theorem occupiedCount_set_zero {ws : List Int} {i : Nat} {w : Int}
    (hw : ws[i]? = some w) (hne : w ≠ 0) :
    occupiedCount (ws.set i 0) + 1 = occupiedCount ws := by
  induction ws generalizing i with
  | nil => simp at hw
  | cons x xs ih =>
    cases i with
    | zero =>
      simp at hw
      subst hw
      simp [occupiedCount, List.countP_cons, hne]
    | succ i =>
      have hw2 : xs[i]? = some w := by simpa using hw
      have := ih hw2
      simp only [occupiedCount, List.set_cons_succ, List.countP_cons] at this ⊢
      omega

theorem occupiedCount_set_nonzero {ws : List Int} {i : Nat} {v : Int}
    (hw : ws[i]? = some 0) (hne : v ≠ 0) :
    occupiedCount (ws.set i v) = occupiedCount ws + 1 := by
  induction ws generalizing i with
  | nil => simp at hw
  | cons x xs ih =>
    cases i with
    | zero =>
      simp at hw
      subst hw
      simp [occupiedCount, List.countP_cons, hne]
    | succ i =>
      have hw2 : xs[i]? = some 0 := by simpa using hw
      have := ih hw2
      simp only [occupiedCount, List.set_cons_succ, List.countP_cons] at this ⊢
      omega

theorem occupiedCount_eq_zero {ws : List Int} (h : occupiedCount ws = 0) :
    ∀ w ∈ ws, w = 0 := by
  unfold occupiedCount at h
  rw [List.countP_eq_zero] at h
  intro w hw
  simpa using h w hw

theorem occupiedCount_lt_length_of_zero {ws : List Int} {i : Nat} (hz : ws[i]? = some 0) :
    occupiedCount ws < ws.length := by
  induction ws generalizing i with
  | nil => simp at hz
  | cons x xs ih =>
    cases i with
    | zero =>
      simp at hz
      subst hz
      have := occupiedCount_le_length xs
      simp only [occupiedCount, List.countP_cons, List.length_cons] at this ⊢
      rw [if_neg (by simp)]
      omega
    | succ i =>
      have hz2 : xs[i]? = some 0 := by simpa using hz
      have := ih hz2
      simp only [occupiedCount, List.countP_cons, List.length_cons] at this ⊢
      split <;> omega

/-! ## Lemmas on slots -/

theorem slotAt_some (t : HTable) (i : Int) :
    slotAt (some t) i = if 0 ≤ i ∧ i < t.len then t.slots[i.toNat]? else none := rfl

theorem slotAt_some_iff {t : HTable} {i w : Int} :
    slotAt (some t) i = some w ↔ ∃ n : Nat, i = (n : Int) ∧ t.slots[n]? = some w := by
  rw [slotAt_some]
  unfold HTable.len
  constructor
  · intro h
    split at h
    · rename_i hi
      exact ⟨i.toNat, (Int.toNat_of_nonneg hi.1).symm, h⟩
    · simp at h
  · rintro ⟨n, rfl, hn⟩
    have hlt : n < t.slots.length := by
      rcases List.getElem?_eq_some_iff.mp hn with ⟨hlt, _⟩
      exact hlt
    rw [if_pos ⟨by omega, by omega⟩]
    simpa using hn

theorem occupied_iff {t : HTable} {i : Int} :
    Occupied (some t) i ↔ ∃ (n : Nat) (w : Int), i = (n : Int) ∧ t.slots[n]? = some w ∧ w ≠ 0 := by
  unfold Occupied
  constructor
  · rintro ⟨w, hw, hne⟩
    obtain ⟨n, hn, hs⟩ := slotAt_some_iff.mp hw
    exact ⟨n, w, hn, hs, hne⟩
  · rintro ⟨n, w, hn, hs, hne⟩
    exact ⟨w, slotAt_some_iff.mpr ⟨n, hn, hs⟩, hne⟩

theorem not_occupied_none (i : Int) : ¬ Occupied none i := by
  rintro ⟨w, hw, _⟩
  simp [slotAt] at hw

theorem getD_of_getElem? {ws : List Int} {n : Nat} {w : Int} (h : ws[n]? = some w) :
    ws.getD n 0 = w := by
  simp [List.getD, h]

/-- The shape of the result of `hFree` on a handle that is a slot of the block. -/
theorem hFree_in_range (t : HTable) (n : Nat) (hn : n < t.slots.length) :
    ∃ log, hFree (some t) (n : Int) = some
      (if t.used - 1 = 0 then ⟨none, 0, log⟩
       else ⟨some ⟨t.used - 1, t.slots.set n 0⟩,
         (if t.used - 1 < t.len then scanDown (t.slots.set n 0) t.slots.length else t.len) + 1,
         log⟩) := by
  refine ⟨a_assert (decide (t.used ≠ 0)) Check.usedNonZero
    (a_assert (decide (t.slots.getD n 0 ≠ 0)) Check.slotInUse
      (a_assert (decide (t.len ≥ (H_INCR : Int))) Check.lenAtLeastIncr [])), ?_⟩
  have hr : (0 : Int) ≤ (n : Int) ∧ (n : Int) < t.len := by
    unfold HTable.len; omega
  unfold hFree
  simp only [hr, and_self, if_true, Int.toNat_ofNat]
  by_cases h0 : t.used - 1 = 0
  · simp [h0]
  · simp [h0, HTable.len]

/-- The three ways `hAllocFrom` can end: the memory request is refused and nothing
changes; the loop finds the lowest null slot; or the list grows by `H_INCR`
zeroed slots and the old length is the handle. -/
theorem hAllocFrom_cases (t : HTable) (ok : Bool) :
    (hAllocFrom t ok = (some t, -1) ∧ ok = false) ∨
    (∃ n : Nat, hAllocFrom t ok = (some ⟨t.used + 1, t.slots⟩, (n : Int)) ∧
      t.slots[n]? = some 0 ∧ (∀ j, j < n → ∀ w, t.slots[j]? = some w → w ≠ 0) ∧
      t.used < t.len) ∨
    (hAllocFrom t ok =
        (some ⟨t.used + 1, t.slots ++ List.replicate H_INCR 0⟩, (t.slots.length : Int)) ∧
      ok = true ∧ (t.used < t.len → ∀ w ∈ t.slots, w ≠ 0)) := by
  unfold hAllocFrom
  by_cases hu : t.used < t.len
  · rw [if_pos hu]
    cases hf : findNull t.slots 0 with
    | some i =>
      right; left
      obtain ⟨j, hj, hz, hlow⟩ := findNull_some hf
      have hij : i = j := by omega
      subst hij
      exact ⟨i, rfl, hz, hlow, hu⟩
    | none =>
      cases ok with
      | false => left; exact ⟨rfl, rfl⟩
      | true => right; right; exact ⟨rfl, rfl, fun _ => findNull_none hf⟩
  · rw [if_neg hu]
    cases ok with
    | false => left; exact ⟨rfl, rfl⟩
    | true => right; right; exact ⟨rfl, rfl, fun h => absurd h hu⟩

/-- Writing `0` into a slot that holds `0` changes nothing. -/
theorem set_zero_of_zero {ws : List Int} {n : Nat} (hz : ws[n]? = some 0) :
    ws.set n 0 = ws := by
  induction ws generalizing n with
  | nil => rfl
  | cons x xs ih =>
    cases n with
    | zero =>
      simp at hz
      subst hz
      rfl
    | succ n =>
      have hz2 : xs[n]? = some 0 := by simpa using hz
      simp [ih hz2]

/-- `hFree` of a handle whose slot is empty, on a block that stays in use: only
`mp[H_USED]` changes. -/
theorem hFree_empty_slot (u : Int) (ws : List Int) (n : Nat) (hz : ws[n]? = some 0)
    (hu : u ≠ 0) :
    ∃ r, hFree (some ⟨u + 1, ws⟩) (n : Int) = some r ∧ r.map = some ⟨u, ws⟩ := by
  have hn : n < ws.length := (List.getElem?_eq_some_iff.mp hz).1
  obtain ⟨log, hfree⟩ := hFree_in_range ⟨u + 1, ws⟩ n hn
  have h1 : u + 1 - 1 = u := by omega
  simp only [h1, if_neg hu, set_zero_of_zero hz] at hfree
  exact ⟨_, hfree, rfl⟩

/-- The slot `hAlloc` grows into: the first of the `H_INCR` added words. -/
theorem getElem?_append_zeros (ws : List Int) :
    (ws ++ List.replicate H_INCR 0)[ws.length]? = some 0 := by
  rw [List.getElem?_append_right (le_refl _)]
  simp [H_INCR]

/-- Growing a list keeps every occupied slot occupied. -/
theorem occupied_append {u u2 : Int} {ws zs : List Int} {i : Int}
    (h : Occupied (some ⟨u, ws⟩) i) : Occupied (some ⟨u2, ws ++ zs⟩) i := by
  obtain ⟨n, w, hn, hw, hne⟩ := occupied_iff.mp h
  have hlt : n < ws.length := (List.getElem?_eq_some_iff.mp hw).1
  refine occupied_iff.mpr ⟨n, w, hn, ?_, hne⟩
  show (ws ++ zs)[n]? = some w
  rw [List.getElem?_append_left hlt]
  exact hw

/-- Occupancy does not depend on `mp[H_USED]`. -/
theorem occupied_used {u u2 : Int} {ws : List Int} {i : Int}
    (h : Occupied (some ⟨u, ws⟩) i) : Occupied (some ⟨u2, ws⟩) i := by
  obtain ⟨n, w, hn, hw, hne⟩ := occupied_iff.mp h
  exact occupied_iff.mpr ⟨n, w, hn, hw, hne⟩

/-- The two ways `hAlloc` can end: refused, with nothing changed; or a handle whose
slot is null in the new block, every occupied slot still occupied, and one more
handle counted. -/
theorem hAlloc_cases (map : Option HTable) (ok : Bool) :
    (hAlloc map ok = (map, -1) ∧ ok = false) ∨
    (∃ (t1 : HTable) (n : Nat), hAlloc map ok = (some t1, (n : Int)) ∧
      t1.slots[n]? = some 0 ∧
      (∀ i, Occupied map i → Occupied (some t1) i) ∧
      (map = none → t1.used = 1 ∧ occupiedCount t1.slots = 0) ∧
      (∀ t, map = some t →
        t1.used = t.used + 1 ∧ occupiedCount t1.slots = occupiedCount t.slots)) := by
  cases map with
  | none =>
    cases ok with
    | false => left; exact ⟨rfl, rfl⟩
    | true =>
      right
      refine ⟨⟨1, List.replicate 16 0⟩, 0, rfl, rfl, ?_, fun _ => ⟨rfl, rfl⟩, ?_⟩
      · intro i hi; exact absurd hi (not_occupied_none i)
      · intro t ht; cases ht
  | some t =>
    have hA : hAlloc (some t) ok = hAllocFrom t ok := rfl
    rw [hA]
    rcases hAllocFrom_cases t ok with h | ⟨n, h1, hz, _, _⟩ | ⟨h1, _, _⟩
    · exact Or.inl h
    · right
      refine ⟨_, n, h1, hz, fun i hi => occupied_used hi, (fun h => by cases h), ?_⟩
      intro t2 ht; cases ht; exact ⟨rfl, rfl⟩
    · right
      refine ⟨_, t.slots.length, h1, getElem?_append_zeros t.slots,
        fun i hi => occupied_append hi, (fun h => by cases h), ?_⟩
      intro t2 ht; cases ht
      exact ⟨rfl, occupiedCount_append_zeros t.slots H_INCR⟩

/-- The caller's step: `hAlloc` succeeds and the slot of the new handle is filled.
The handle was not occupied and is now, the other occupied slots stay occupied, and
`used` and the number of occupied slots both grow by one. -/
theorem hAllocStore_spec (map : Option HTable) (v : Int) (hv : v ≠ 0) :
    ∃ (t2 : HTable) (n : Nat), hAllocStore map v = some (some t2, (n : Int)) ∧
      ¬ Occupied map (n : Int) ∧ Occupied (some t2) (n : Int) ∧
      (∀ i, Occupied map i → Occupied (some t2) i) ∧
      (map = none → t2.used = 1 ∧ occupiedCount t2.slots = 1) ∧
      (∀ t, map = some t →
        t2.used = t.used + 1 ∧ occupiedCount t2.slots = occupiedCount t.slots + 1) := by
  rcases hAlloc_cases map true with ⟨_, h⟩ | ⟨t1, n, hA, hz, hmono, hnone, hsome⟩
  · cases h
  · have hn : n < t1.slots.length := (List.getElem?_eq_some_iff.mp hz).1
    have hcnt := occupiedCount_set_nonzero hz hv
    have hnot : ¬ Occupied (some t1) (n : Int) := by
      intro hocc
      obtain ⟨m, w, hm, hw, hne⟩ := occupied_iff.mp hocc
      have hmn : n = m := by omega
      subst hmn
      rw [hz] at hw
      exact hne (Option.some.inj hw).symm
    refine ⟨⟨t1.used, t1.slots.set n v⟩, n, ?_, fun h => hnot (hmono _ h), ?_, ?_, ?_, ?_⟩
    · have hr : (0 : Int) ≤ (n : Int) ∧ (n : Int) < t1.len := by
        unfold HTable.len; omega
      simp only [hAllocStore, hA, setSlot, hr, and_self, if_true, Int.toNat_ofNat]
    · refine occupied_iff.mpr ⟨n, v, rfl, ?_, hv⟩
      show (t1.slots.set n v)[n]? = some v
      simp [List.getElem?_set, hn]
    · intro i hi
      obtain ⟨m, w, hm, hw, hne⟩ := occupied_iff.mp (hmono i hi)
      by_cases hmn : m = n
      · subst hmn
        rw [hz] at hw
        exact absurd (Option.some.inj hw).symm hne
      · refine occupied_iff.mpr ⟨m, w, hm, ?_, hne⟩
        show (t1.slots.set n v)[m]? = some w
        rw [List.getElem?_set_ne (Ne.symm hmn)]
        exact hw
    · intro h
      obtain ⟨h1, h2⟩ := hnone h
      exact ⟨h1, by show occupiedCount (t1.slots.set n v) = 1; omega⟩
    · intro t ht
      obtain ⟨h1, h2⟩ := hsome t ht
      exact ⟨h1, by show occupiedCount (t1.slots.set n v) = occupiedCount t.slots + 1; omega⟩

/-- Handles returned by a run of filled allocations are pairwise distinct and none
of them was occupied at the start. -/
theorem hAllocStoreRun_spec (vs : List Int) (hvs : ∀ v ∈ vs, v ≠ 0) (map : Option HTable) :
    ∃ (m : Option HTable) (ids : List Int), hAllocStoreRun map vs = some (m, ids) ∧
      ids.length = vs.length ∧ ids.Nodup ∧ ∀ id ∈ ids, ¬ Occupied map id := by
  induction vs generalizing map with
  | nil => exact ⟨map, [], rfl, rfl, List.nodup_nil, fun id hid => by cases hid⟩
  | cons v vs ih =>
    obtain ⟨t2, n, hstore, hnot, hocc, hmono, -, -⟩ :=
      hAllocStore_spec map v (hvs v (List.mem_cons_self v vs))
    obtain ⟨m, ids, hrun, hlen, hnd, hfresh⟩ :=
      ih (fun w hw => hvs w (List.mem_cons_of_mem v hw)) (some t2)
    refine ⟨m, (n : Int) :: ids, ?_, ?_, ?_, ?_⟩
    · simp only [hAllocStoreRun, hstore, hrun]
    · simp [hlen]
    · refine List.nodup_cons.mpr ⟨fun hmem => hfresh _ hmem hocc, hnd⟩
    · intro id hid
      rcases List.mem_cons.mp hid with rfl | hid
      · exact hnot
      · exact fun h => hfresh id hid (hmono id h)

/-- The word written by `set` is the word read back. -/
theorem slotAt_set_same {u : Int} {ws : List Int} {n : Nat} {v : Int} (hn : n < ws.length) :
    slotAt (some ⟨u, ws.set n v⟩) (n : Int) = some v := by
  refine slotAt_some_iff.mpr ⟨n, rfl, ?_⟩
  show (ws.set n v)[n]? = some v
  simp [List.getElem?_set, hn]

/-- Writing slot `n` leaves every other slot as it was. -/
theorem slotAt_set_ne {u u2 : Int} {ws : List Int} {n : Nat} {v i : Int} (hi : i ≠ (n : Int)) :
    slotAt (some ⟨u, ws.set n v⟩) i = slotAt (some ⟨u2, ws⟩) i := by
  rw [slotAt_some, slotAt_some]
  simp only [HTable.len, List.length_set]
  by_cases hr : 0 ≤ i ∧ i < (ws.length : Int)
  · rw [if_pos hr, if_pos hr]
    have hne : n ≠ i.toNat := by omega
    exact List.getElem?_set_ne hne
  · rw [if_neg hr, if_neg hr]

/-- Growing the list leaves every old slot as it was. -/
theorem slotAt_append_left {u u2 : Int} {ws zs : List Int} {i : Int}
    (h0 : 0 ≤ i) (h1 : i < (ws.length : Int)) :
    slotAt (some ⟨u, ws ++ zs⟩) i = slotAt (some ⟨u2, ws⟩) i := by
  rw [slotAt_some, slotAt_some]
  simp only [HTable.len, List.length_append]
  rw [if_pos ⟨h0, by push_cast; omega⟩, if_pos ⟨h0, h1⟩]
  exact List.getElem?_append_left (by omega)

/-- The value of `scanDown` is `-1` or an index below `n`. -/
theorem scanDown_bounds (slots : List Int) (n : Nat) :
    -1 ≤ scanDown slots n ∧ scanDown slots n < (n : Int) := by
  rcases scanDown_spec slots n with ⟨h, _⟩ | ⟨g, hg, h, _⟩
  · rw [h]; omega
  · rw [h]; omega

/-- The map `hAlloc` leaves: the map it was given (the request was refused), the
block with one more handle counted, that block with `H_INCR` zeroed slots added,
or the first chunk with one handle counted. -/
theorem hAlloc_shape (map : Option HTable) (ok : Bool) :
    ((hAlloc map ok).1 = map ∧ (hAlloc map ok).2 = -1) ∨
    (∃ t, map = some t ∧ (hAlloc map ok).1 = some ⟨t.used + 1, t.slots⟩ ∧ t.used < t.len ∧
      0 ≤ (hAlloc map ok).2 ∧ (hAlloc map ok).2 < t.len) ∨
    (∃ t, map = some t ∧
      (hAlloc map ok).1 = some ⟨t.used + 1, t.slots ++ List.replicate H_INCR 0⟩ ∧
      (hAlloc map ok).2 = t.len) ∨
    (map = none ∧ (hAlloc map ok).1 = some ⟨1, List.replicate 16 0⟩ ∧ (hAlloc map ok).2 = 0) := by
  cases map with
  | none =>
    cases ok with
    | false => left; exact ⟨rfl, rfl⟩
    | true => right; right; right; exact ⟨rfl, rfl, rfl⟩
  | some t =>
    have hA : hAlloc (some t) ok = hAllocFrom t ok := rfl
    rw [hA]
    rcases hAllocFrom_cases t ok with ⟨h1, _⟩ | ⟨n, h1, hz, _, hlt⟩ | ⟨h1, _, _⟩
    · left; rw [h1]; exact ⟨rfl, rfl⟩
    · right; left
      have hn : n < t.slots.length := (List.getElem?_eq_some_iff.mp hz).1
      refine ⟨t, rfl, by rw [h1], hlt, by rw [h1]; exact Int.ofNat_nonneg n, ?_⟩
      rw [h1]
      show (n : Int) < t.len
      unfold HTable.len; omega
    · right; right; left
      exact ⟨t, rfl, by rw [h1], by rw [h1]; rfl⟩

/-- The map `hFree` leaves when it has a result: the handle is a slot of the block;
the block is released when the decremented `used` is 0, and otherwise it is the
block with the slot zeroed and `used` decremented.  The check of `mp[H_LEN]` is
reported exactly when the capacity is below `H_INCR`. -/
theorem hFree_shape {map : Option HTable} {h : Int} {r : FreeResult}
    (hfree : hFree map h = some r) :
    ∃ (t : HTable) (n : Nat), map = some t ∧ h = (n : Int) ∧ n < t.slots.length ∧
      ((t.used - 1 = 0 ∧ r.map = none) ∨
       (t.used - 1 ≠ 0 ∧ r.map = some ⟨t.used - 1, t.slots.set n 0⟩)) ∧
      (Check.lenAtLeastIncr ∈ r.failed ↔ ¬ (16 ≤ t.len)) := by
  cases map with
  | none => simp [hFree] at hfree
  | some t =>
    by_cases hr : 0 ≤ h ∧ h < t.len
    · obtain ⟨n, rfl⟩ : ∃ n : Nat, h = (n : Int) :=
        ⟨h.toNat, (Int.toNat_of_nonneg hr.1).symm⟩
      have hn : n < t.slots.length := by
        have := hr.2
        unfold HTable.len at this; omega
      have hlog : ∀ (b2 b3 : Bool), Check.lenAtLeastIncr ∈
          a_assert b3 Check.usedNonZero (a_assert b2 Check.slotInUse
            (a_assert (decide (t.len ≥ (H_INCR : Int))) Check.lenAtLeastIncr [])) ↔
          ¬ (16 ≤ t.len) := by
        intro b2 b3
        unfold a_assert
        by_cases c1 : 16 ≤ t.len <;> cases b2 <;> cases b3 <;> simp [c1, H_INCR]
      refine ⟨t, n, rfl, rfl, hn, ?_⟩
      unfold hFree at hfree
      simp only [hr, and_self, if_true, Int.toNat_ofNat] at hfree
      by_cases hz : t.used - 1 = 0
      · simp only [hz, if_true] at hfree
        rw [← Option.some.inj hfree]
        exact ⟨Or.inl ⟨hz, rfl⟩, hlog _ _⟩
      · simp only [hz, if_false] at hfree
        rw [← Option.some.inj hfree]
        exact ⟨Or.inr ⟨hz, rfl⟩, hlog _ _⟩
    · unfold hFree at hfree
      simp only [hr, if_false] at hfree
      cases hfree

/-- The map a store leaves: the block with that slot written. -/
theorem setSlot_shape {map m1 : Option HTable} {id v : Int} (hset : setSlot map id v = some m1) :
    ∃ (t : HTable) (n : Nat), map = some t ∧ id = (n : Int) ∧ n < t.slots.length ∧
      m1 = some ⟨t.used, t.slots.set n v⟩ := by
  cases map with
  | none => simp [setSlot] at hset
  | some t =>
    unfold setSlot at hset
    by_cases hr : 0 ≤ id ∧ id < t.len
    · obtain ⟨n, rfl⟩ : ∃ n : Nat, id = (n : Int) :=
        ⟨id.toNat, (Int.toNat_of_nonneg hr.1).symm⟩
      have hn : n < t.slots.length := by
        have := hr.2
        unfold HTable.len at this; omega
      simp only [hr, and_self, if_true, Int.toNat_ofNat] at hset
      exact ⟨t, n, rfl, rfl, hn, (Option.some.inj hset).symm⟩
    · simp only [hr, if_false] at hset
      cases hset

/-- The map `hAllocEntry` leaves is the one `hAlloc` leaves, or that one after the
`hFree` of the roll-back, or that one after the payload pointer is stored. -/
theorem hAllocEntry_shape {list : Option HTable} {max size : Int} {ok : Bool} {cp : Int}
    {r : EntryResult} (hent : hAllocEntry list max size ok cp = some r) :
    (r.list = (hAlloc list ok).1 ∧ (r.ret = -1 ∨ (r.ret = (hAlloc list ok).2 ∧ ¬ 0 < size))) ∨
    (∃ r2, hFree (hAlloc list ok).1 (hAlloc list ok).2 = some r2 ∧ r.list = r2.map ∧
      r.ret = -1) ∨
    (setSlot (hAlloc list ok).1 (hAlloc list ok).2 cp = some r.list ∧
      r.ret = (hAlloc list ok).2 ∧ 0 < size ∧ cp ≠ 0 ∧ 0 ≤ (hAlloc list ok).2) := by
  unfold hAllocEntry at hent
  simp only at hent
  by_cases h1 : (hAlloc list ok).2 < 0
  · rw [if_pos h1] at hent
    rw [← Option.some.inj hent]
    exact Or.inl ⟨rfl, Or.inl rfl⟩
  · rw [if_neg h1] at hent
    by_cases h2 : 0 < size ∧ cp = 0
    · rw [if_pos h2] at hent
      cases hf : hFree (hAlloc list ok).1 (hAlloc list ok).2 with
      | none => rw [hf] at hent; cases hent
      | some r2 =>
        rw [hf] at hent
        rw [← Option.some.inj hent]
        exact Or.inr (Or.inl ⟨r2, rfl, rfl, rfl⟩)
    · rw [if_neg h2] at hent
      by_cases h3 : 0 < size
      · rw [if_pos h3] at hent
        cases hs : setSlot (hAlloc list ok).1 (hAlloc list ok).2 cp with
        | none => rw [hs] at hent; cases hent
        | some l =>
          rw [hs] at hent
          rw [← Option.some.inj hent]
          exact Or.inr (Or.inr ⟨rfl, rfl, h3, fun hc => h2 ⟨h3, hc⟩, by omega⟩)
      · rw [if_neg h3] at hent
        rw [← Option.some.inj hent]
        exact Or.inl ⟨rfl, Or.inr ⟨rfl, h3⟩⟩

/-- The capacity after `hAlloc` is the capacity before, or 16 more. -/
theorem hAlloc_capacity {map : Option HTable} {ok : Bool} {t1 : HTable}
    (h : (hAlloc map ok).1 = some t1) :
    t1.len = capacity map ∨ t1.len = capacity map + 16 := by
  rcases hAlloc_shape map ok with ⟨h1, _⟩ | ⟨t, rfl, h1, _⟩ | ⟨t, rfl, h1, _⟩ | ⟨rfl, h1, _⟩
  · rw [h1] at h
    subst h
    exact Or.inl rfl
  · rw [h1] at h
    rw [← Option.some.inj h]
    exact Or.inl rfl
  · rw [h1] at h
    rw [← Option.some.inj h]
    right
    simp [HTable.len, capacity, H_INCR]
  · rw [h1] at h
    rw [← Option.some.inj h]
    right
    simp [HTable.len, capacity]

/-- The block `hFree` leaves has the capacity it had. -/
theorem hFree_capacity {map : Option HTable} {h : Int} {r : FreeResult} {t1 : HTable}
    (hfree : hFree map h = some r) (hmap : r.map = some t1) : t1.len = capacity map := by
  obtain ⟨t, n, rfl, -, -, hcase, -⟩ := hFree_shape hfree
  rcases hcase with ⟨_, h1⟩ | ⟨_, h1⟩
  · rw [h1] at hmap; cases hmap
  · rw [h1] at hmap
    rw [← Option.some.inj hmap]
    simp [HTable.len, capacity]

/-- A store leaves the capacity as it was. -/
theorem setSlot_capacity {map m1 : Option HTable} {id v : Int} {t1 : HTable}
    (hset : setSlot map id v = some m1) (hmap : m1 = some t1) : t1.len = capacity map := by
  obtain ⟨t, n, rfl, -, -, h1⟩ := setSlot_shape hset
  rw [h1] at hmap
  rw [← Option.some.inj hmap]
  simp [HTable.len, capacity]

/-- The capacity after any step that leaves a block is the capacity before, or 16
more. -/
theorem apiStep_capacity {m m1 : Option HTable} (hstep : ApiStep m m1) {t1 : HTable}
    (hmap : m1 = some t1) : t1.len = capacity m ∨ t1.len = capacity m + 16 := by
  cases hstep with
  | alloc ok => exact hAlloc_capacity hmap
  | free _ _ hfree => exact Or.inl (hFree_capacity hfree hmap)
  | @entry mx size ok cp r hent =>
    rcases hAllocEntry_shape hent with ⟨h1, _⟩ | ⟨r2, hf, h1, _⟩ | ⟨hs, _⟩
    · rw [h1] at hmap
      exact hAlloc_capacity hmap
    · rw [h1] at hmap
      obtain ⟨t, n, ht, -, -, -, -⟩ := hFree_shape hf
      have := hFree_capacity hf hmap
      rw [ht] at this
      rw [this]
      exact hAlloc_capacity ht
    · obtain ⟨t, n, ht, -, -, -⟩ := setSlot_shape hs
      have := setSlot_capacity hs hmap
      rw [ht] at this
      rw [this]
      exact hAlloc_capacity ht
  | store hset => exact Or.inl (setSlot_capacity hset hmap)

/-- The bounds `ApiInv` hold after `hAlloc`. -/
theorem hAlloc_apiInv {map : Option HTable} (ok : Bool) (hinv : ApiInv map) :
    ApiInv (hAlloc map ok).1 := by
  intro t1 ht1
  rcases hAlloc_shape map ok with ⟨h1, _⟩ | ⟨t, rfl, h1, hlt, _⟩ | ⟨t, rfl, h1, _⟩ | ⟨rfl, h1, _⟩
  · rw [h1] at ht1
    exact hinv t1 ht1
  · rw [h1] at ht1
    obtain ⟨hlo, hhi, k, hk, hlen⟩ := hinv t rfl
    rw [← Option.some.inj ht1]
    refine ⟨?_, ?_, k, hk, ?_⟩
    · show 1 ≤ t.used + 1
      omega
    · show t.used + 1 ≤ t.len
      omega
    · exact hlen
  · rw [h1] at ht1
    obtain ⟨hlo, hhi, k, hk, hlen⟩ := hinv t rfl
    rw [← Option.some.inj ht1]
    have hl : (HTable.mk (t.used + 1) (t.slots ++ List.replicate H_INCR 0)).len = t.len + 16 := by
      simp [HTable.len, H_INCR]
    refine ⟨?_, ?_, k + 1, by omega, ?_⟩
    · show 1 ≤ t.used + 1
      omega
    · rw [hl]
      show t.used + 1 ≤ t.len + 16
      omega
    · rw [hl]; omega
  · rw [h1] at ht1
    rw [← Option.some.inj ht1]
    exact ⟨le_refl _, by decide, 1, le_refl _, by decide⟩

/-- The bounds `ApiInv` hold after `hFree`. -/
theorem hFree_apiInv {map : Option HTable} {h : Int} {r : FreeResult} (hinv : ApiInv map)
    (hfree : hFree map h = some r) : ApiInv r.map := by
  intro t1 ht1
  obtain ⟨t, n, rfl, -, -, hcase, -⟩ := hFree_shape hfree
  obtain ⟨hlo, hhi, k, hk, hlen⟩ := hinv t rfl
  rcases hcase with ⟨_, h1⟩ | ⟨hne, h1⟩
  · rw [h1] at ht1; cases ht1
  · rw [h1] at ht1
    rw [← Option.some.inj ht1]
    have hl : (HTable.mk (t.used - 1) (t.slots.set n 0)).len = t.len := by
      simp [HTable.len]
    refine ⟨?_, ?_, k, hk, ?_⟩
    · show 1 ≤ t.used - 1
      omega
    · rw [hl]
      show t.used - 1 ≤ t.len
      omega
    · rw [hl]; exact hlen

/-- The bounds `ApiInv` hold after a store. -/
theorem setSlot_apiInv {map m1 : Option HTable} {id v : Int} (hinv : ApiInv map)
    (hset : setSlot map id v = some m1) : ApiInv m1 := by
  intro t1 ht1
  obtain ⟨t, n, rfl, -, -, h1⟩ := setSlot_shape hset
  obtain ⟨hlo, hhi, k, hk, hlen⟩ := hinv t rfl
  rw [h1] at ht1
  rw [← Option.some.inj ht1]
  have hl : (HTable.mk t.used (t.slots.set n v)).len = t.len := by
    simp [HTable.len]
  exact ⟨hlo, by rw [hl]; exact hhi, k, hk, by rw [hl]; exact hlen⟩

/-- The bounds `ApiInv` hold after every step. -/
theorem apiStep_apiInv {m m1 : Option HTable} (hstep : ApiStep m m1) (hinv : ApiInv m) :
    ApiInv m1 := by
  cases hstep with
  | alloc ok => exact hAlloc_apiInv ok hinv
  | free _ _ hfree => exact hFree_apiInv hinv hfree
  | @entry mx size ok cp r hent =>
    rcases hAllocEntry_shape hent with ⟨h1, _⟩ | ⟨r2, hf, h1, _⟩ | ⟨hs, _⟩
    · rw [h1]; exact hAlloc_apiInv ok hinv
    · rw [h1]; exact hFree_apiInv (hAlloc_apiInv ok hinv) hf
    · exact setSlot_apiInv (hAlloc_apiInv ok hinv) hs
  | store hset => exact setSlot_apiInv hinv hset

/-- The bounds `ApiInv` hold in every reachable map. -/
theorem apiReachable_apiInv {m : Option HTable} (hm : ApiReachable m) : ApiInv m := by
  induction hm with
  | absent => intro t ht; cases ht
  | step _ hstep ih => exact apiStep_apiInv hstep ih

/-- A successful `hAlloc` does not depend on the answer of the allocator that was
not asked, so it is the call with the request granted. -/
theorem hAlloc_eq_of_success {map : Option HTable} {ok : Bool}
    (h : 0 ≤ (hAlloc map ok).2) : hAlloc map ok = hAlloc map true := by
  cases ok with
  | true => rfl
  | false =>
    cases map with
    | none =>
      have : (0 : Int) ≤ -1 := h
      omega
    | some t =>
      have hA : ∀ b, hAlloc (some t) b = hAllocFrom t b := fun _ => rfl
      rw [hA] at h ⊢
      rw [hA]
      unfold hAllocFrom at h ⊢
      cases hf : (if t.used < t.len then findNull t.slots 0 else none) with
      | some i => rfl
      | none =>
        rw [hf] at h
        have : (0 : Int) ≤ -1 := h
        omega

/-- A successful `hAllocEntry` with `size > 0` is a successful `hAlloc` followed by the
store of the non-null payload pointer. -/
theorem hAllocEntry_success {list : Option HTable} {max size : Int} {ok : Bool} {cp : Int}
    {r : EntryResult} (hsize : 0 < size) (hent : hAllocEntry list max size ok cp = some r)
    (hret : 0 ≤ r.ret) : cp ≠ 0 ∧ hAllocStore list cp = some (r.list, r.ret) := by
  rcases hAllocEntry_shape hent with ⟨_, h1 | ⟨_, h1⟩⟩ | ⟨r2, _, _, h1⟩ | ⟨hs, h1, _, hcp, h0⟩
  · rw [h1] at hret
    have : (0 : Int) ≤ -1 := hret
    omega
  · exact absurd hsize h1
  · rw [h1] at hret
    have : (0 : Int) ≤ -1 := hret
    omega
  · refine ⟨hcp, ?_⟩
    unfold hAllocStore
    simp only
    rw [← hAlloc_eq_of_success h0, hs, h1]

/-- A non-zero word of a list grown by zeros is a word of the list. -/
theorem getElem?_append_zeros_ne {ws : List Int} {k j : Nat} {w : Int}
    (h : (ws ++ List.replicate k 0)[j]? = some w) (hne : w ≠ 0) : ws[j]? = some w := by
  by_cases hj : j < ws.length
  · rw [List.getElem?_append_left hj] at h
    exact h
  · exfalso
    rw [List.getElem?_append_right (by omega), List.getElem?_replicate] at h
    split at h
    · exact hne (Option.some.inj h).symm
    · cases h

/-- The frame of the caller's step: every slot other than the new handle keeps its
value, and no other slot becomes occupied. -/
theorem hAllocStore_frame {map m1 : Option HTable} {v id : Int}
    (hstore : hAllocStore map v = some (m1, id)) :
    (∀ i w, i ≠ id → slotAt map i = some w → slotAt m1 i = some w) ∧
    (∀ i, i ≠ id → Occupied m1 i → Occupied map i) := by
  unfold hAllocStore at hstore
  simp only at hstore
  cases hs : setSlot (hAlloc map true).1 (hAlloc map true).2 v with
  | none => rw [hs] at hstore; cases hstore
  | some m2 =>
    rw [hs] at hstore
    have hpair := Option.some.inj hstore
    have hm : m2 = m1 := congrArg Prod.fst hpair
    have hid : (hAlloc map true).2 = id := congrArg Prod.snd hpair
    subst hm
    obtain ⟨t1, n, ht1, hn, hnlt, hm2⟩ := setSlot_shape hs
    rw [hid] at hn
    subst hn
    subst hm2
    rcases hAlloc_shape map true with ⟨_, h2⟩ | ⟨t, rfl, h1, _⟩ | ⟨t, rfl, h1, _⟩ | ⟨rfl, h1, _⟩
    · rw [hid] at h2
      omega
    · rw [h1] at ht1
      have ht : t1.slots = t.slots := by rw [← Option.some.inj ht1]
      rw [ht]
      refine ⟨?_, ?_⟩
      · intro i w hi hw
        rw [@slotAt_set_ne t1.used t.used t.slots n v i hi]
        exact hw
      · rintro i hi ⟨w, hw, hne⟩
        rw [@slotAt_set_ne t1.used t.used t.slots n v i hi] at hw
        exact ⟨w, hw, hne⟩
    · rw [h1] at ht1
      have ht : t1.slots = t.slots ++ List.replicate H_INCR 0 := by
        rw [← Option.some.inj ht1]
      rw [ht]
      refine ⟨?_, ?_⟩
      · intro i w hi hw
        rw [@slotAt_set_ne t1.used t.used (t.slots ++ List.replicate H_INCR 0) n v i hi]
        obtain ⟨j, rfl, hj⟩ := slotAt_some_iff.mp hw
        have hjl : j < t.slots.length := (List.getElem?_eq_some_iff.mp hj).1
        rw [@slotAt_append_left t.used t.used t.slots (List.replicate H_INCR 0) (j : Int)
          (Int.ofNat_nonneg j) (by omega)]
        exact hw
      · rintro i hi ⟨w, hw, hne⟩
        rw [@slotAt_set_ne t1.used t.used (t.slots ++ List.replicate H_INCR 0) n v i hi] at hw
        obtain ⟨j, rfl, hj⟩ := slotAt_some_iff.mp hw
        have hj2 : (t.slots ++ List.replicate H_INCR 0)[j]? = some w := hj
        exact ⟨w, slotAt_some_iff.mpr ⟨j, rfl, getElem?_append_zeros_ne hj2 hne⟩, hne⟩
    · rw [h1] at ht1
      have ht : t1.slots = [] ++ List.replicate 16 0 := by
        rw [← Option.some.inj ht1]; rfl
      rw [ht]
      refine ⟨?_, ?_⟩
      · intro i w hi hw
        simp [slotAt] at hw
      · rintro i hi ⟨w, hw, hne⟩
        rw [@slotAt_set_ne t1.used 0 ([] ++ List.replicate 16 0) n v i hi] at hw
        obtain ⟨j, rfl, hj⟩ := slotAt_some_iff.mp hw
        have hj2 : (([] : List Int) ++ List.replicate 16 0)[j]? = some w := hj
        have := getElem?_append_zeros_ne hj2 hne
        simp at this

/-- The invariant of the entry layer holds after the caller's step. -/
theorem hAllocStore_entryInv {map m1 : Option HTable} {v id : Int} (hv : v ≠ 0)
    (hinv : EntryInv map) (hstore : hAllocStore map v = some (m1, id)) : EntryInv m1 := by
  obtain ⟨t2, n, hstore2, -, -, -, hnone, hsome⟩ := hAllocStore_spec map v hv
  rw [hstore2] at hstore
  have h1 : some t2 = m1 := congrArg Prod.fst (Option.some.inj hstore)
  intro t ht
  rw [← h1] at ht
  cases ht
  have hle := occupiedCount_le_length t2.slots
  cases map with
  | none =>
    obtain ⟨h2, h3⟩ := hnone rfl
    refine ⟨by rw [h2, h3]; rfl, by omega, ?_⟩
    unfold HTable.len
    omega
  | some t0 =>
    obtain ⟨h2, h3⟩ := hsome t0 rfl
    obtain ⟨h4, h5, -⟩ := hinv t0 rfl
    refine ⟨by omega, by omega, ?_⟩
    unfold HTable.len
    omega

/-- The invariant of the entry layer holds after `hFree` of an occupied handle. -/
theorem hFree_entryInv {map : Option HTable} {h : Int} {r : FreeResult}
    (hinv : EntryInv map) (hocc : Occupied map h) (hfree : hFree map h = some r) :
    EntryInv r.map := by
  intro t1 ht1
  obtain ⟨t, n, rfl, rfl, hn, hcase, -⟩ := hFree_shape hfree
  obtain ⟨m, w, hm, hw, hne⟩ := occupied_iff.mp hocc
  have hmn : n = m := by omega
  subst hmn
  have hcnt := occupiedCount_set_zero hw hne
  obtain ⟨h4, h5, -⟩ := hinv t rfl
  rcases hcase with ⟨_, h1⟩ | ⟨hnz, h1⟩
  · rw [h1] at ht1; cases ht1
  · rw [h1] at ht1
    rw [← Option.some.inj ht1]
    have hle := occupiedCount_le_length (t.slots.set n 0)
    refine ⟨?_, ?_, ?_⟩
    · show t.used - 1 = (occupiedCount (t.slots.set n 0) : Int)
      omega
    · show 1 ≤ t.used - 1
      omega
    · show t.used - 1 ≤ ((t.slots.set n 0).length : Int)
      omega

/-! ## Lemmas on packed tables -/

/-- The loop of `hAlloc` stops at the first zero word after a prefix of non-zero
words. -/
theorem findNull_after_nonzero {vs : List Int} (hvs : ∀ w ∈ vs, w ≠ 0) (rest : List Int) (k : Nat) :
    findNull (vs ++ 0 :: rest) k = some (k + vs.length) := by
  induction vs generalizing k with
  | nil => simp [findNull]
  | cons x xs ih =>
    have hx : x ≠ 0 := hvs x (List.mem_cons_self x xs)
    have hxs : ∀ w ∈ xs, w ≠ 0 := fun w hw => hvs w (List.mem_cons_of_mem x hw)
    show findNull (x :: (xs ++ 0 :: rest)) k = some (k + (x :: xs).length)
    unfold findNull
    rw [if_neg hx, ih hxs (k + 1)]
    simp only [List.length_cons]
    congr 1
    omega

/-- Writing the word right after a prefix. -/
theorem set_after_head (vs : List Int) (x v : Int) (rest : List Int) :
    (vs ++ x :: rest).set vs.length v = vs ++ v :: rest := by
  induction vs with
  | nil => rfl
  | cons y ys ih =>
    show (y :: (ys ++ x :: rest)).set (ys.length + 1) v = y :: (ys ++ v :: rest)
    rw [List.set_cons_succ, ih]

/-- The caller's step on a block whose first zero slot comes after the non-zero
words `vs`, with `used` below the capacity: the handle is the index of that slot
and the value is stored there. -/
theorem hAllocStore_room (u : Int) {vs : List Int} (hvs : ∀ w ∈ vs, w ≠ 0) (rest : List Int)
    (v : Int) (hu : u < ((vs ++ 0 :: rest).length : Int)) :
    hAllocStore (some ⟨u, vs ++ 0 :: rest⟩) v =
      some (some ⟨u + 1, vs ++ v :: rest⟩, (vs.length : Int)) := by
  have hu2 : u < (HTable.mk u (vs ++ 0 :: rest)).len := hu
  have hA : hAlloc (some ⟨u, vs ++ 0 :: rest⟩) true =
      (some ⟨u + 1, vs ++ 0 :: rest⟩, (vs.length : Int)) := by
    show hAllocFrom ⟨u, vs ++ 0 :: rest⟩ true = _
    unfold hAllocFrom
    rw [if_pos hu2]
    simp only [findNull_after_nonzero hvs rest 0]
    simp
  have hr : (0 : Int) ≤ (vs.length : Int) ∧
      (vs.length : Int) < (HTable.mk (u + 1) (vs ++ 0 :: rest)).len := by
    simp only [HTable.len, List.length_append, List.length_cons]
    push_cast
    omega
  unfold hAllocStore
  simp only [hA, setSlot, hr, and_self, if_true, Int.toNat_ofNat, set_after_head]

/-- The caller's step on a block with `used` not below the capacity: the list grows
by 16 slots, the handle is the old capacity and the value is stored there. -/
theorem hAllocStore_full (u : Int) (ws : List Int) (v : Int) (hu : ¬ u < (ws.length : Int)) :
    hAllocStore (some ⟨u, ws⟩) v =
      some (some ⟨u + 1, ws ++ v :: List.replicate 15 0⟩, (ws.length : Int)) := by
  have hu2 : ¬ u < (HTable.mk u ws).len := hu
  have hA : hAlloc (some ⟨u, ws⟩) true =
      (some ⟨u + 1, ws ++ 0 :: List.replicate 15 0⟩, (ws.length : Int)) := by
    show hAllocFrom ⟨u, ws⟩ true = _
    unfold hAllocFrom
    rw [if_neg hu2]
    rfl
  have hr : (0 : Int) ≤ (ws.length : Int) ∧
      (ws.length : Int) < (HTable.mk (u + 1) (ws ++ 0 :: List.replicate 15 0)).len := by
    simp only [HTable.len, List.length_append, List.length_cons]
    push_cast
    omega
  unfold hAllocStore
  simp only [hA, setSlot, hr, and_self, if_true, Int.toNat_ofNat, set_after_head]

/-- The caller's step on the absent table: the first chunk, handle 0. -/
theorem hAllocStore_absent (v : Int) :
    hAllocStore none v = some (some ⟨1, v :: List.replicate 15 0⟩, 0) := by
  rfl

/-- A call of `hAllocEntry` with `size > 0`, the memory request granted and a
non-null payload pointer is the caller's step, with `*max` brought up to date. -/
theorem hAllocEntry_of_store {list m : Option HTable} {max size cp id : Int}
    (hsize : 0 < size) (hcp : cp ≠ 0) (hstore : hAllocStore list cp = some (m, id)) :
    hAllocEntry list max size true cp =
      some ⟨m, if id ≥ max then id + 1 else max, id, []⟩ := by
  unfold hAllocStore at hstore
  simp only at hstore
  cases hs : setSlot (hAlloc list true).1 (hAlloc list true).2 cp with
  | none => rw [hs] at hstore; cases hstore
  | some m2 =>
    rw [hs] at hstore
    have hpair := Option.some.inj hstore
    have hm : m2 = m := congrArg Prod.fst hpair
    have hid : (hAlloc list true).2 = id := congrArg Prod.snd hpair
    obtain ⟨t1, n, -, hn, -, -⟩ := setSlot_shape hs
    have hnn : ¬ id < 0 := by omega
    rw [hid] at hs
    unfold hAllocEntry
    simp only [hid, hnn, if_false, hsize, if_true, hs, hm, hcp, and_false]

/-- One filled allocation on a packed block: the handle is the number of handles in
use, and the block stays packed. -/
theorem hAllocStore_packed {vs : List Int} (hvs : ∀ w ∈ vs, w ≠ 0) (z : Nat) (v : Int) :
    hAllocStore (some ⟨(vs.length : Int), vs ++ List.replicate z 0⟩) v =
      some (some ⟨((vs ++ [v]).length : Int),
        (vs ++ [v]) ++ List.replicate (packedFree z 1) 0⟩, (vs.length : Int)) ∧
    packedOut vs.length z 1 =
      [((vs.length : Int),
        ((((vs ++ [v]) ++ List.replicate (packedFree z 1) 0).length : Nat) : Int))] := by
  cases z with
  | zero =>
    have h := hAllocStore_full (vs.length : Int) vs v (lt_irrefl _)
    refine ⟨?_, ?_⟩
    · simp only [List.replicate_zero, List.append_nil, packedFree]
      rw [h]
      simp
    · simp [packedFree, packedOut]
  | succ z =>
    have h := hAllocStore_room (vs.length : Int) hvs (List.replicate z 0) v
      (by simp only [List.length_append, List.length_cons]; push_cast; omega)
    refine ⟨?_, ?_⟩
    · simp only [List.replicate_succ, packedFree]
      rw [h]
      simp
    · simp [packedFree, packedOut]
      omega

/-- The empty slots after `n + 1` allocations are those after `n` allocations that
follow the first one. -/
theorem packedFree_succ (z n : Nat) : packedFree z (n + 1) = packedFree (packedFree z 1) n := by
  cases z <;> simp [packedFree]

/-- The handles and capacities of `n + 1` allocations: the first one, then `n` more. -/
theorem packedOut_succ (k z n : Nat) :
    packedOut k z (n + 1) = packedOut k z 1 ++ packedOut (k + 1) (packedFree z 1) n := by
  cases z <;> simp [packedFree, packedOut]

/-- A run of filled allocations on a packed block: the handles count up from the
number of handles in use, and the block stays packed. -/
theorem hAllocStoreRun_packed (ps : List Int) :
    ∀ (vs : List Int) (z : Nat), (∀ w ∈ vs, w ≠ 0) → (∀ w ∈ ps, w ≠ 0) →
      hAllocStoreRun (some ⟨(vs.length : Int), vs ++ List.replicate z 0⟩) ps =
        some (some ⟨((vs ++ ps).length : Int),
          (vs ++ ps) ++ List.replicate (packedFree z ps.length) 0⟩,
          (packedOut vs.length z ps.length).map Prod.fst) := by
  induction ps with
  | nil =>
    intro vs z _ _
    simp [hAllocStoreRun, packedFree, packedOut]
  | cons p ps ih =>
    intro vs z hvs hps
    have hp : p ≠ 0 := hps p (List.mem_cons_self p ps)
    have hps2 : ∀ w ∈ ps, w ≠ 0 := fun w hw => hps w (List.mem_cons_of_mem p hw)
    have hvs2 : ∀ w ∈ vs ++ [p], w ≠ 0 := by
      intro w hw
      rcases List.mem_append.mp hw with h | h
      · exact hvs w h
      · rw [List.mem_singleton.mp h]; exact hp
    obtain ⟨h1, h2⟩ := hAllocStore_packed hvs z p
    have h3 := ih (vs ++ [p]) (packedFree z 1) hvs2 hps2
    have hlen : (vs ++ [p]).length = vs.length + 1 := by simp
    simp only [hAllocStoreRun, h1, h3]
    rw [List.length_cons, packedFree_succ z ps.length, packedOut_succ vs.length z ps.length, h2,
      hlen]
    simp

/-- A run of `hAllocEntry` calls with `size > 0` and non-null payload pointers on a
packed block: the handles count up from the number of handles in use, and the
block stays packed. -/
theorem hAllocEntryRun_packed (ps : List (Int × Int)) :
    ∀ (vs : List Int) (z : Nat) (max : Int), (∀ w ∈ vs, w ≠ 0) →
      (∀ q ∈ ps, 0 < q.1 ∧ q.2 ≠ 0) →
      ∃ mx, hAllocEntryRun (some ⟨(vs.length : Int), vs ++ List.replicate z 0⟩) max ps =
        some (some ⟨((vs ++ ps.map Prod.snd).length : Int),
          (vs ++ ps.map Prod.snd) ++ List.replicate (packedFree z ps.length) 0⟩, mx,
          packedOut vs.length z ps.length) := by
  induction ps with
  | nil =>
    intro vs z max _ _
    exact ⟨max, by simp [hAllocEntryRun, packedFree, packedOut]⟩
  | cons q ps ih =>
    intro vs z max hvs hps
    obtain ⟨hq1, hq2⟩ := hps q (List.mem_cons_self q ps)
    have hps2 : ∀ w ∈ ps, 0 < w.1 ∧ w.2 ≠ 0 := fun w hw => hps w (List.mem_cons_of_mem q hw)
    have hvs2 : ∀ w ∈ vs ++ [q.2], w ≠ 0 := by
      intro w hw
      rcases List.mem_append.mp hw with h | h
      · exact hvs w h
      · rw [List.mem_singleton.mp h]; exact hq2
    obtain ⟨h1, h2⟩ := hAllocStore_packed hvs z q.2
    have hent := @hAllocEntry_of_store _ _ max q.1 q.2 _ hq1 hq2 h1
    obtain ⟨mx, h3⟩ := ih (vs ++ [q.2]) (packedFree z 1)
      (if (vs.length : Int) ≥ max then (vs.length : Int) + 1 else max) hvs2 hps2
    have hlen : (vs ++ [q.2]).length = vs.length + 1 := by simp
    refine ⟨mx, ?_⟩
    simp only [hAllocEntryRun, hent, h3]
    rw [List.length_cons, packedFree_succ z ps.length, packedOut_succ vs.length z ps.length, h2,
      hlen]
    simp [capacity, HTable.len]

/-- A run of filled allocations from the absent table. -/
theorem hAllocStoreRun_absent (q : Int) (rest : List Int) (hq : q ≠ 0)
    (hrest : ∀ w ∈ rest, w ≠ 0) :
    hAllocStoreRun none (q :: rest) =
      some (some ⟨((q :: rest).length : Int),
        (q :: rest) ++ List.replicate (packedFree 15 rest.length) 0⟩,
        0 :: (packedOut 1 15 rest.length).map Prod.fst) := by
  have hvs : ∀ w ∈ [q], w ≠ 0 := by
    intro w hw
    rw [List.mem_singleton.mp hw]; exact hq
  have h1 := hAllocStoreRun_packed rest [q] 15 hvs hrest
  have hst : (HTable.mk 1 (q :: List.replicate 15 0)) =
      ⟨(([q] : List Int).length : Int), [q] ++ List.replicate 15 0⟩ := by
    simp
  simp only [hAllocStoreRun, hAllocStore_absent, hst, h1]
  simp

/-- A run of `hAllocEntry` calls with `size > 0` and non-null payload pointers from
the absent table. -/
theorem hAllocEntryRun_absent (q : Int × Int) (rest : List (Int × Int)) (max : Int)
    (hq : 0 < q.1 ∧ q.2 ≠ 0) (hrest : ∀ w ∈ rest, 0 < w.1 ∧ w.2 ≠ 0) :
    ∃ mx, hAllocEntryRun none max (q :: rest) =
      some (some ⟨((q :: rest).length : Int),
        (q :: rest).map Prod.snd ++ List.replicate (packedFree 15 rest.length) 0⟩, mx,
        (0, 16) :: packedOut 1 15 rest.length) := by
  have hvs : ∀ w ∈ [q.2], w ≠ 0 := by
    intro w hw
    rw [List.mem_singleton.mp hw]; exact hq.2
  have hent := @hAllocEntry_of_store none _ max q.1 q.2 _ hq.1 hq.2 (hAllocStore_absent q.2)
  obtain ⟨mx, h1⟩ := hAllocEntryRun_packed rest [q.2] 15
    (if (0 : Int) ≥ max then 0 + 1 else max) hvs hrest
  have hst : (HTable.mk 1 (q.2 :: List.replicate 15 0)) =
      ⟨(([q.2] : List Int).length : Int), [q.2] ++ List.replicate 15 0⟩ := by
    simp
  refine ⟨mx, ?_⟩
  simp only [hAllocEntryRun, hent, hst, h1]
  simp [capacity, HTable.len]

/-- The reverse scan returns the greatest index below `n` whose word is not zero. -/
theorem scanDown_eq {slots : List Int} {n g : Nat} (hg : g < n) (hne : slots.getD g 0 ≠ 0)
    (hz : ∀ j, g < j → j < n → slots.getD j 0 = 0) : scanDown slots n = (g : Int) := by
  rcases scanDown_spec slots n with ⟨_, h2⟩ | ⟨g2, hg2, h1, h2, h3⟩
  · exact absurd (h2 g hg) hne
  · rw [h1]
    have h4 : ¬ g < g2 := fun hc => h2 (hz g2 hc hg2)
    have h5 : ¬ g2 < g := fun hc => hne (h3 g hc hg)
    have : g2 = g := by omega
    rw [this]

/-- The caller's step on a block with `used` below the capacity whose lowest zero
slot is slot `n`: the handle is `n` and the value is stored there. -/
theorem hAllocStore_lowest {u : Int} {ws : List Int} {n : Nat} (v : Int)
    (hu : u < (ws.length : Int)) (hz : ws[n]? = some 0)
    (hlow : ∀ j, j < n → ∀ w, ws[j]? = some w → w ≠ 0) :
    hAllocStore (some ⟨u, ws⟩) v = some (some ⟨u + 1, ws.set n v⟩, (n : Int)) := by
  have hA : hAlloc (some ⟨u, ws⟩) true = (some ⟨u + 1, ws⟩, (n : Int)) := by
    show hAllocFrom ⟨u, ws⟩ true = _
    rcases hAllocFrom_cases ⟨u, ws⟩ true with ⟨_, h1⟩ | ⟨m, h1, hmz, hmlow, _⟩ | ⟨_, _, hall⟩
    · cases h1
    · have h4 : ¬ n < m := fun hc => hmlow n hc 0 hz rfl
      have h5 : ¬ m < n := fun hc => hlow m hc 0 hmz rfl
      have : m = n := by omega
      rw [h1, this]
    · exact absurd rfl (hall hu 0 (List.mem_iff_getElem?.mpr ⟨n, hz⟩))
  have hn : n < ws.length := (List.getElem?_eq_some_iff.mp hz).1
  have hr : (0 : Int) ≤ (n : Int) ∧ (n : Int) < (HTable.mk (u + 1) ws).len := by
    simp only [HTable.len]
    omega
  unfold hAllocStore
  simp only [hA, setSlot, hr, and_self, if_true, Int.toNat_ofNat]

/-! ## The two readings of the block agree

Where a pointer is one word wide (`pw = 1`) and the handle is a slot of the block,
the code on the words of the block does what the definitions on `HTable` say. -/

theorem rd_encode_len (t : HTable) : Mem.rd (Mem.encode t) H_LEN = some t.len := rfl

theorem rd_encode_used (t : HTable) : Mem.rd (Mem.encode t) H_USED = some t.used := by
  simp [Mem.rd, Mem.encode, H_USED]

theorem rd_cons_cons (a b : Int) (ws : List Int) (n : Nat) :
    Mem.rd (a :: b :: ws) ((n : Int) + H_OFFSET) = ws[n]? := by
  unfold Mem.rd H_OFFSET
  rw [if_pos (by omega)]
  have : ((n : Int) + 2).toNat = n + 2 := by omega
  rw [this]
  simp

theorem rd_encode_slot (t : HTable) (n : Nat) :
    Mem.rd (Mem.encode t) ((n : Int) + H_OFFSET) = t.slots[n]? :=
  rd_cons_cons _ _ _ n

theorem wr_encode_used (t : HTable) (v : Int) :
    Mem.wr (Mem.encode t) H_USED v = some (Mem.encode ⟨v, t.slots⟩) := by
  unfold Mem.wr H_USED Mem.encode
  rw [if_pos ⟨by omega, by simp only [List.length_cons]; push_cast; omega⟩]
  rfl

theorem wr_encode_slot (t : HTable) (n : Nat) (v : Int) (hn : n < t.slots.length) :
    Mem.wr (Mem.encode t) ((n : Int) + H_OFFSET) v =
      some (Mem.encode ⟨t.used, t.slots.set n v⟩) := by
  unfold Mem.wr H_OFFSET Mem.encode
  rw [if_pos ⟨by omega, by simp only [List.length_cons]; push_cast; omega⟩]
  have : ((n : Int) + 2).toNat = n + 2 := by omega
  rw [this]
  simp [HTable.len]

/-- The loop of `hAlloc` on the words of the block is the loop on the slot words. -/
theorem findNull_agree (a b : Int) (ws : List Int) :
    ∀ pre : List Int, Mem.findNull (a :: b :: (pre ++ ws)) ws.length (pre.length : Int) =
      some ((findNull ws pre.length).map (fun i : Nat => (i : Int))) := by
  induction ws with
  | nil => intro pre; rfl
  | cons w ws ih =>
    intro pre
    have hrd : Mem.rd (a :: b :: (pre ++ w :: ws)) ((pre.length : Int) + H_OFFSET) = some w := by
      rw [rd_cons_cons, List.getElem?_append_right (le_refl _)]
      simp
    show Mem.findNull (a :: b :: (pre ++ w :: ws)) (ws.length + 1) (pre.length : Int) = _
    unfold Mem.findNull findNull
    rw [hrd]
    by_cases hw : w = 0
    · simp [hw]
    · have h2 := ih (pre ++ [w])
      simp only [List.append_assoc, List.singleton_append, List.length_append,
        List.length_singleton] at h2
      simp only [hw, if_false]
      push_cast at h2
      exact h2

/-- The loop of `hFree` on the words of the block is the loop on the slot words. -/
theorem scanDown_agree (a b : Int) (ws : List Int) (n : Nat) (hn : n ≤ ws.length) :
    Mem.scanDown (a :: b :: ws) n ((n : Int) - 1) = some (scanDown ws n) := by
  induction n with
  | zero => rfl
  | succ n ih =>
    have hlt : n < ws.length := by omega
    have hrd : Mem.rd (a :: b :: ws) ((n : Int) + H_OFFSET) = some ws[n] := by
      rw [rd_cons_cons]
      exact List.getElem?_eq_getElem hlt
    have hcast : ((n + 1 : Nat) : Int) - 1 = (n : Int) := by push_cast; omega
    rw [hcast]
    unfold Mem.scanDown scanDown
    rw [if_pos (Int.ofNat_nonneg n), hrd]
    have hgetD : ws.getD n 0 = ws[n] := getD_of_getElem? (List.getElem?_eq_getElem hlt)
    rw [hgetD]
    by_cases hw : ws[n] ≠ 0
    · simp [hw]
    · simp only [hw, if_false]
      exact ih (by omega)

/-- On a handle that is a slot of the block, `hFree` on the words of the block is
`hFree` on the `HTable`. -/
theorem hFree_agree (t : HTable) (n : Nat) (hn : n < t.slots.length) :
    Mem.hFree (some (Mem.encode t)) (n : Int) =
      (hFree (some t) (n : Int)).map Mem.encodeFree := by
  have hr : (0 : Int) ≤ (n : Int) ∧ (n : Int) < t.len := by
    unfold HTable.len; omega
  have hslot : Mem.rd (Mem.encode t) ((n : Int) + H_OFFSET) = some t.slots[n] := by
    rw [rd_encode_slot]
    exact List.getElem?_eq_getElem hn
  have hgetD : t.slots.getD n 0 = t.slots[n] := getD_of_getElem? (List.getElem?_eq_getElem hn)
  have hscan : ∀ u : Int, Mem.scanDown (Mem.encode ⟨u, t.slots.set n 0⟩)
      (HTable.mk u (t.slots.set n 0)).len.toNat ((HTable.mk u (t.slots.set n 0)).len - 1) =
      some (scanDown (t.slots.set n 0) (t.slots.set n 0).length) := by
    intro u
    have := scanDown_agree (HTable.mk u (t.slots.set n 0)).len u (t.slots.set n 0)
      (t.slots.set n 0).length (le_refl _)
    simpa [Mem.encode, HTable.len] using this
  unfold Mem.hFree hFree
  simp only [Option.bind_eq_bind, Option.some_bind, rd_encode_len, hslot, rd_encode_used,
    wr_encode_slot t n 0 hn, wr_encode_used, hr, and_self, if_true, Int.toNat_ofNat, hgetD]
  by_cases h0 : t.used - 1 = 0
  · simp [h0, Mem.encodeFree]
  · simp only [h0, if_false, Option.map_some', Mem.encodeFree]
    by_cases h1 : t.used - 1 < (HTable.mk (t.used - 1) (t.slots.set n 0)).len
    · simp only [h1, if_true, hscan, Option.some_bind]
    · simp only [h1, if_false, Option.some_bind]

/-- A request for `k` more words keeps the old words and adds `k` words of `junk`. -/
theorem resize_add (mp : List Int) (k : Nat) (junk : List Int) :
    Mem.resize mp (mp.length + k) junk = mp ++ (List.range k).map (fun i => junk.getD i 0) := by
  unfold Mem.resize
  apply List.ext_getElem
  · simp
  · intro i h1 h2
    simp only [List.getElem_map, List.getElem_range]
    by_cases hi : i < mp.length
    · rw [if_pos hi, List.getElem_append_left hi]
      exact getD_of_getElem? (List.getElem?_eq_getElem hi)
    · rw [if_neg hi, List.getElem_append_right (by omega)]
      simp

/-- Zeroing the words `xs` that follow the words `pre`. -/
theorem zeroWords_middle (xs : List Int) :
    ∀ (pre post : List Int), Mem.zeroWords (pre ++ xs ++ post) (pre.length : Int) xs.length =
      some (pre ++ List.replicate xs.length 0 ++ post) := by
  induction xs with
  | nil => intro pre post; rfl
  | cons x xs ih =>
    intro pre post
    have hlt : (pre.length : Int) < ((pre ++ x :: xs ++ post).length : Int) := by
      simp only [List.length_append, List.length_cons]
      push_cast
      omega
    have hwr : Mem.wr (pre ++ x :: xs ++ post) (pre.length : Int) 0 =
        some ((pre ++ [0]) ++ xs ++ post) := by
      unfold Mem.wr
      rw [if_pos ⟨Int.ofNat_nonneg _, hlt⟩]
      have h := set_after_head pre x 0 (xs ++ post)
      simp only [Int.toNat_ofNat, List.append_assoc, List.cons_append, List.nil_append] at h ⊢
      rw [h]
    have h2 := ih (pre ++ [0]) post
    simp only [List.length_append, List.length_singleton] at h2
    push_cast at h2
    show Mem.zeroWords (pre ++ x :: xs ++ post) (pre.length : Int) (xs.length + 1) = _
    unfold Mem.zeroWords
    rw [hwr]
    simp only [h2]
    simp [List.replicate_succ]

/-- Where a pointer is one word wide, growing the list on the words of the block is
growing it on the `HTable`; the content of the added words does not matter. -/
theorem grow_agree (t : HTable) (junk : List Int) :
    Mem.grow 1 (Mem.encode t) t.len t.len (some junk) =
      some (some (Mem.encode ⟨t.used + 1, t.slots ++ List.replicate H_INCR 0⟩), t.len) := by
  have hsize : (((t.len + (H_INCR : Int)) + H_OFFSET) * ((1 : Nat) : Int)).toNat =
      (Mem.encode t).length + 16 := by
    simp only [HTable.len, H_INCR, H_OFFSET, Mem.encode, List.length_cons]
    omega
  have hJ : ((List.range 16).map (fun i => junk.getD i 0)).length = 16 := by simp
  have hlt0 : (0 : Int) <
      ((Mem.encode t ++ (List.range 16).map (fun i => junk.getD i 0)).length : Int) := by
    simp only [List.length_append, Mem.encode, List.length_cons]
    push_cast
    omega
  have hwr : Mem.wr (Mem.encode t ++ (List.range 16).map (fun i => junk.getD i 0)) H_LEN
      (t.len + (H_INCR : Int)) =
      some (((t.len + (H_INCR : Int)) :: t.used :: t.slots) ++
        (List.range 16).map (fun i => junk.getD i 0) ++ []) := by
    unfold Mem.wr H_LEN
    rw [if_pos ⟨le_refl _, hlt0⟩]
    simp [Mem.encode]
  have hidx : H_OFFSET + (t.len + (H_INCR : Int)) - (H_INCR : Int) =
      ((((t.len + (H_INCR : Int)) :: t.used :: t.slots).length : Nat) : Int) := by
    simp only [HTable.len, H_OFFSET, List.length_cons]
    push_cast
    omega
  have hz := zeroWords_middle ((List.range 16).map (fun i => junk.getD i 0))
    ((t.len + (H_INCR : Int)) :: t.used :: t.slots) []
  rw [hJ] at hz
  have hcnt : (1 : Nat) * H_INCR = 16 := rfl
  have hrd : Mem.rd (((t.len + (H_INCR : Int)) :: t.used :: t.slots) ++
      List.replicate 16 0 ++ []) H_USED = some t.used := by
    simp [Mem.rd, H_USED]
  have hlt1 : (1 : Int) < (((((t.len + (H_INCR : Int)) :: t.used :: t.slots) ++
      List.replicate 16 0 ++ []).length : Nat) : Int) := by
    simp only [List.length_append, List.length_cons, List.length_replicate, List.length_nil]
    push_cast
    omega
  have hone : (1 : Int).toNat = 1 := rfl
  have hwr2 : Mem.wr (((t.len + (H_INCR : Int)) :: t.used :: t.slots) ++
      List.replicate 16 0 ++ []) H_USED (t.used + 1) =
      some (Mem.encode ⟨t.used + 1, t.slots ++ List.replicate H_INCR 0⟩) := by
    unfold Mem.wr H_USED Mem.encode
    rw [if_pos ⟨by omega, hlt1⟩, hone]
    simp [HTable.len, H_INCR]
  unfold Mem.grow
  simp only [Option.bind_eq_bind, hsize, resize_add, hwr, Option.some_bind, hidx, hcnt, hz,
    hrd, hwr2]

/-- Where a pointer is one word wide, the part of `hAlloc` from line 50 on is the same
on the words of the block and on the `HTable`. -/
theorem hAllocFrom_agree (t : HTable) (mem : Option (List Int)) :
    Mem.hAllocFrom 1 (Mem.encode t) mem =
      some ((hAllocFrom t mem.isSome).1.map Mem.encode, (hAllocFrom t mem.isSome).2) := by
  have hfind : Mem.findNull (Mem.encode t) t.len.toNat 0 =
      some ((findNull t.slots 0).map (fun i : Nat => (i : Int))) := by
    have := findNull_agree t.len t.used t.slots []
    simpa [Mem.encode, HTable.len] using this
  have hgrow : Mem.grow 1 (Mem.encode t) t.len t.len mem =
      some ((if mem.isSome then
          (some ⟨t.used + 1, t.slots ++ List.replicate H_INCR 0⟩, t.len)
        else ((some t, -1) : Option HTable × Int)).1.map Mem.encode,
        (if mem.isSome then
          ((some ⟨t.used + 1, t.slots ++ List.replicate H_INCR 0⟩, t.len) : Option HTable × Int)
        else (some t, -1)).2) := by
    cases mem with
    | none => rfl
    | some junk => rw [grow_agree]; rfl
  unfold Mem.hAllocFrom hAllocFrom
  simp only [Option.bind_eq_bind, rd_encode_len, rd_encode_used, Option.some_bind]
  by_cases hu : t.used < t.len
  · simp only [hu, if_true, hfind, Option.some_bind]
    cases hf : findNull t.slots 0 with
    | some i =>
      simp only [Option.map_some', wr_encode_used, Option.some_bind]
    | none =>
      simp only [Option.map_none', hgrow]
  · simp only [hu, if_false, hgrow]

/-- Where a pointer is one word wide, `hAlloc` on the words of the block is `hAlloc` on
the `HTable`. -/
theorem hAlloc_agree (map : Option HTable) (mem : Option (List Int)) :
    Mem.hAlloc 1 (map.map Mem.encode) mem =
      some ((hAlloc map mem.isSome).1.map Mem.encode, (hAlloc map mem.isSome).2) := by
  cases map with
  | none =>
    cases mem with
    | none => rfl
    | some junk =>
      have h1 : Mem.wr (List.replicate (((H_INCR : Int) + H_OFFSET) * ((1 : Nat) : Int)).toNat
          (0 : Int)) H_LEN H_INCR = some (16 :: List.replicate 17 0) := by decide
      have h2 : Mem.wr (16 :: List.replicate 17 0) H_USED 0 = some (Mem.encode firstChunk) := by
        decide
      show Mem.hAlloc 1 none (some junk) = _
      unfold Mem.hAlloc
      simp only [Option.bind_eq_bind, h1, Option.some_bind, h2, hAllocFrom_agree]
      rfl
  | some t => exact hAllocFrom_agree t mem

/-- Where a pointer is one word wide, the store of a pointer in a slot of the block is
the write of the slot word. -/
theorem store_agree (t : HTable) (n : Nat) (cp : Int) (hn : n < t.slots.length) :
    Mem.store 1 (Mem.encode t) (n : Int) cp = some (Mem.encode ⟨t.used, t.slots.set n cp⟩) := by
  have hidx : H_OFFSET + (n : Int) * ((1 : Nat) : Int) = (n : Int) + H_OFFSET := by
    push_cast; omega
  unfold Mem.store
  rw [hidx]
  show Mem.wrWords (Mem.encode t) ((n : Int) + H_OFFSET) [cp] = _
  unfold Mem.wrWords
  rw [wr_encode_slot t n cp hn]
  rfl

/-- Where a pointer is one word wide, `hAllocEntry` on the words of the block is
`hAllocEntry` on the `HTable`. -/
theorem hAllocEntry_agree (list : Option HTable) (max size : Int) (mem : Option (List Int))
    (cp : Int) :
    Mem.hAllocEntry 1 (list.map Mem.encode) max size mem cp =
      (hAllocEntry list max size mem.isSome cp).map Mem.encodeEntry := by
  unfold Mem.hAllocEntry hAllocEntry
  simp only [Option.bind_eq_bind, hAlloc_agree, Option.some_bind]
  rcases hAlloc_cases list mem.isSome with ⟨hA, _⟩ | ⟨t1, n, hA, hz, _⟩
  · rw [hA]
    simp [Mem.encodeEntry]
  · have hn : n < t1.slots.length := (List.getElem?_eq_some_iff.mp hz).1
    have hr : (0 : Int) ≤ (n : Int) ∧ (n : Int) < t1.len := by
      unfold HTable.len; omega
    have hnn : ¬ (n : Int) < 0 := by omega
    rw [hA]
    simp only [hnn, if_false, Option.map_some']
    by_cases hs : 0 < size
    · by_cases hc : cp = 0
      · simp only [hs, hc, and_self, if_true, hFree_agree t1 n hn]
        cases hFree (some t1) (n : Int) with
        | none => rfl
        | some r => rfl
      · simp only [hs, hc, and_false, if_false, if_true, Option.some_bind, store_agree t1 n cp hn,
          setSlot, hr, and_self, Int.toNat_ofNat]
        rfl
    · simp only [hs, false_and, if_false]
      rfl

/-- Where a pointer is one word wide, the caller's step on the words of the block is
the caller's step on the `HTable`. -/
theorem hAllocStore_agree (map : Option HTable) (junk : List Int) (v : Int) :
    Mem.hAllocStore 1 (map.map Mem.encode) junk v =
      (hAllocStore map v).map (fun x => (x.1.map Mem.encode, x.2)) := by
  unfold Mem.hAllocStore hAllocStore
  simp only [Option.bind_eq_bind, hAlloc_agree, Option.some_bind, Option.isSome_some]
  rcases hAlloc_cases map true with ⟨_, h⟩ | ⟨t1, n, hA, hz, _⟩
  · cases h
  · have hn : n < t1.slots.length := (List.getElem?_eq_some_iff.mp hz).1
    have hr : (0 : Int) ≤ (n : Int) ∧ (n : Int) < t1.len := by
      unfold HTable.len; omega
    rw [hA]
    simp only [Option.map_some', Option.some_bind, store_agree t1 n v hn, setSlot, hr, and_self,
      if_true, Int.toNat_ofNat]

/-- Where a pointer is one word wide, a run of filled allocations on the words of the
block is the run on the `HTable`. -/
theorem storeRun_agree (vs : List Int) :
    ∀ map : Option HTable, Mem.storeRun 1 (map.map Mem.encode) vs =
      (hAllocStoreRun map vs).map (fun x => (x.1.map Mem.encode, x.2)) := by
  induction vs with
  | nil => intro map; rfl
  | cons v vs ih =>
    intro map
    unfold Mem.storeRun hAllocStoreRun
    rw [hAllocStore_agree]
    cases hAllocStore map v with
    | none => rfl
    | some x =>
      obtain ⟨m, id⟩ := x
      simp only [Option.map_some', ih m]
      cases hAllocStoreRun m vs with
      | none => rfl
      | some y => rfl

/-! ## The block at any pointer width

The lemmas of this section follow the code on the words of the block for a
pointer of any width `pw ≥ 1`: on a block that has the size of its length, every
call with a handle below `mp[H_LEN]` has a result, and the head keeps the
properties of `Mem.ApiInv`. -/
theorem mem_wr_spec {mp : List Int} {i : Int} (v : Int) (h0 : 0 ≤ i)
    (h1 : i < (mp.length : Int)) :
    ∃ mp1, Mem.wr mp i v = some mp1 ∧ mp1.length = mp.length ∧ Mem.rd mp1 i = some v ∧
      ∀ j, j ≠ i → Mem.rd mp1 j = Mem.rd mp j := by
  refine ⟨mp.set i.toNat v, ?_, List.length_set _ _ _, ?_, ?_⟩
  · unfold Mem.wr
    rw [if_pos ⟨h0, h1⟩]
  · unfold Mem.rd
    rw [if_pos h0]
    have hlt : i.toNat < mp.length := by omega
    simp [List.getElem?_set, hlt]
  · intro j hj
    unfold Mem.rd
    by_cases hj0 : 0 ≤ j
    · rw [if_pos hj0, if_pos hj0, List.getElem?_set_ne (by omega)]
    · rw [if_neg hj0, if_neg hj0]

theorem mem_rd_some {mp : List Int} {i : Int} (h0 : 0 ≤ i) (h1 : i < (mp.length : Int)) :
    ∃ w, Mem.rd mp i = some w := by
  unfold Mem.rd
  rw [if_pos h0]
  have hlt : i.toNat < mp.length := by omega
  exact ⟨mp[i.toNat], List.getElem?_eq_getElem hlt⟩

theorem mem_zeroWords_spec : ∀ (n : Nat) (mp : List Int) (i : Int), 0 ≤ i →
    i + (n : Int) ≤ (mp.length : Int) →
    ∃ mp1, Mem.zeroWords mp i n = some mp1 ∧ mp1.length = mp.length ∧
      ∀ j, j < i → Mem.rd mp1 j = Mem.rd mp j := by
  intro n
  induction n with
  | zero => intro mp i _ _; exact ⟨mp, rfl, rfl, fun _ _ => rfl⟩
  | succ n ih =>
    intro mp i h0 h1
    obtain ⟨mp1, hwr, hlen, -, hrd⟩ := @mem_wr_spec mp i 0 h0 (by push_cast at h1; omega)
    obtain ⟨mp2, hz, hlen2, hrd2⟩ := ih mp1 (i + 1) (by omega) (by rw [hlen]; push_cast at h1; omega)
    refine ⟨mp2, ?_, by rw [hlen2, hlen], ?_⟩
    · unfold Mem.zeroWords
      rw [hwr]
      exact hz
    · intro j hj
      rw [hrd2 j (by omega), hrd j (by omega)]

theorem mem_wrWords_spec : ∀ (ws : List Int) (mp : List Int) (i : Int), 0 ≤ i →
    i + (ws.length : Int) ≤ (mp.length : Int) →
    ∃ mp1, Mem.wrWords mp i ws = some mp1 ∧ mp1.length = mp.length ∧
      ∀ j, j < i → Mem.rd mp1 j = Mem.rd mp j := by
  intro ws
  induction ws with
  | nil => intro mp i _ _; exact ⟨mp, rfl, rfl, fun _ _ => rfl⟩
  | cons w ws ih =>
    intro mp i h0 h1
    have h1b : i + ((ws.length : Int) + 1) ≤ (mp.length : Int) := by
      simpa using h1
    obtain ⟨mp1, hwr, hlen, -, hrd⟩ := @mem_wr_spec mp i w h0 (by omega)
    obtain ⟨mp2, hz, hlen2, hrd2⟩ := ih mp1 (i + 1) (by omega) (by rw [hlen]; omega)
    refine ⟨mp2, ?_, by rw [hlen2, hlen], ?_⟩
    · unfold Mem.wrWords
      rw [hwr]
      exact hz
    · intro j hj
      rw [hrd2 j (by omega), hrd j (by omega)]

theorem mem_length_ptrWords : ∀ (pw : Nat) (cp : Int), (Mem.ptrWords pw cp).length = pw := by
  intro pw
  induction pw using Nat.strong_induction_on with
  | _ pw ih =>
    intro cp
    match pw with
    | 0 => rfl
    | 1 => rfl
    | n + 2 =>
      unfold Mem.ptrWords
      rw [List.length_cons, ih (n + 1) (by omega)]

theorem mem_resize_spec (mp : List Int) (n : Nat) (junk : List Int) :
    (Mem.resize mp n junk).length = n ∧
      ∀ j : Int, j < (mp.length : Int) → j < (n : Int) →
        Mem.rd (Mem.resize mp n junk) j = Mem.rd mp j := by
  refine ⟨by simp [Mem.resize], ?_⟩
  intro j h1 h2
  unfold Mem.rd
  by_cases hj0 : 0 ≤ j
  · rw [if_pos hj0, if_pos hj0]
    have ha : j.toNat < mp.length := by omega
    have hb : j.toNat < n := by omega
    unfold Mem.resize
    rw [List.getElem?_map, List.getElem?_range hb]
    simp only [Option.map_some', if_pos ha]
    rw [List.getElem?_eq_getElem ha]
    exact congrArg some (getD_of_getElem? (List.getElem?_eq_getElem ha))
  · rw [if_neg hj0, if_neg hj0]

theorem mem_findNull_spec (mp : List Int) : ∀ (n : Nat) (handle : Int), 0 ≤ handle →
    handle + H_OFFSET + (n : Int) ≤ (mp.length : Int) →
    ∃ r, Mem.findNull mp n handle = some r ∧
      (∀ h, r = some h → handle ≤ h ∧ h < handle + (n : Int)) ∧
      (r = none → ∀ h, handle ≤ h → h < handle + (n : Int) →
        ∃ w, Mem.rd mp (h + H_OFFSET) = some w ∧ w ≠ 0) := by
  intro n
  induction n with
  | zero =>
    intro handle _ _
    refine ⟨none, rfl, (fun h hh => by cases hh), ?_⟩
    intro _ h h1 h2
    have h3 : h < handle + 0 := h2
    omega
  | succ n ih =>
    intro handle h0 h1
    have hO : H_OFFSET = 2 := rfl
    obtain ⟨w, hw⟩ := @mem_rd_some mp (handle + H_OFFSET) (by omega)
      (by push_cast at h1; omega)
    unfold Mem.findNull
    rw [hw]
    by_cases hz : w = 0
    · refine ⟨some handle, by simp [hz], ?_, (fun hh => by cases hh)⟩
      intro h hh
      cases hh
      push_cast
      omega
    · obtain ⟨r, hr, hb, hnone⟩ := ih (handle + 1) (by omega) (by push_cast at h1; omega)
      refine ⟨r, by simp [hz, hr], ?_, ?_⟩
      · intro h hh
        have := hb h hh
        push_cast
        omega
      · intro hrn h h2 h3
        by_cases he : h = handle
        · subst he
          exact ⟨w, hw, hz⟩
        · exact hnone hrn h (by omega) (by push_cast at h3; omega)

theorem mem_scanDown_defined (mp : List Int) : ∀ (n : Nat) (handle : Int),
    handle + H_OFFSET < (mp.length : Int) → ∃ r, Mem.scanDown mp n handle = some r := by
  intro n
  induction n with
  | zero => intro handle _; exact ⟨handle, rfl⟩
  | succ n ih =>
    intro handle h1
    have hO : H_OFFSET = 2 := rfl
    unfold Mem.scanDown
    by_cases hh : handle ≥ 0
    · rw [if_pos hh]
      obtain ⟨w, hw⟩ := @mem_rd_some mp (handle + H_OFFSET) (by omega) h1
      rw [hw]
      by_cases hz : w ≠ 0
      · exact ⟨handle, by simp [hz]⟩
      · obtain ⟨r, hr⟩ := ih (handle - 1) (by omega)
        exact ⟨r, by simp only [hz, if_false]; exact hr⟩
    · rw [if_neg hh]
      exact ⟨handle, rfl⟩

theorem mem_shaped_bounds {pw : Nat} (hp : 1 ≤ pw) {mp : List Int} {len used : Int}
    (hs : Mem.Shaped pw mp len used) (hlen : 0 ≤ len) :
    len + H_OFFSET ≤ (mp.length : Int) := by
  have hO : H_OFFSET = 2 := rfl
  have hpi : (1 : Int) ≤ (pw : Int) := by exact_mod_cast hp
  have := le_mul_of_one_le_right (show (0 : Int) ≤ len + H_OFFSET by omega) hpi
  rw [hs.2.2]
  exact this

/-- The end of `hAlloc` on a block of the right size. -/
theorem mem_grow_spec {pw : Nat} (hp : 1 ≤ pw) {mp : List Int} {len used : Int}
    (hs : Mem.Shaped pw mp len used) (hlen : 0 ≤ len) (handle : Int) (junk : List Int) :
    ∃ mp1, Mem.grow pw mp len handle (some junk) = some (some mp1, handle) ∧
      Mem.Shaped pw mp1 (len + 16) (used + 1) := by
  have hO : H_OFFSET = 2 := rfl
  have hL : H_LEN = 0 := rfl
  have hU : H_USED = 1 := rfl
  have hI : ((H_INCR : Nat) : Int) = 16 := rfl
  have hpi : (1 : Int) ≤ (pw : Int) := by exact_mod_cast hp
  have hb := mem_shaped_bounds hp hs hlen
  obtain ⟨h0, h1, h2⟩ := hs
  have hmul : (len + (H_INCR : Int) + H_OFFSET) * (pw : Int) =
      (len + H_OFFSET) * (pw : Int) + 16 * (pw : Int) := by rw [hI]; ring
  have hsz : ((((len + (H_INCR : Int) + H_OFFSET) * (pw : Int)).toNat : Nat) : Int) =
      (len + H_OFFSET) * (pw : Int) + 16 * (pw : Int) := by
    rw [Int.toNat_of_nonneg (by rw [hmul]; omega), hmul]
  obtain ⟨hrl, hrr⟩ := mem_resize_spec mp ((len + (H_INCR : Int) + H_OFFSET) * (pw : Int)).toNat junk
  -- mp[H_LEN] = len
  obtain ⟨mp1, hw1, hl1, hr1, hk1⟩ := @mem_wr_spec
    (Mem.resize mp ((len + (H_INCR : Int) + H_OFFSET) * (pw : Int)).toNat junk) H_LEN
    (len + (H_INCR : Int)) (by omega) (by rw [hrl, hsz]; omega)
  -- memset
  obtain ⟨mp2, hw2, hl2, hk2⟩ := mem_zeroWords_spec (pw * H_INCR) mp1
    (H_OFFSET + (len + (H_INCR : Int)) - (H_INCR : Int)) (by omega)
    (by rw [hl1, hrl, hsz]; push_cast; rw [hI]; omega)
  have hused2 : Mem.rd mp2 H_USED = some used := by
    rw [hk2 H_USED (by omega), hk1 H_USED (by omega), hrr H_USED (by omega) (by rw [hsz]; omega)]
    exact h1
  have hlen2 : Mem.rd mp2 H_LEN = some (len + (H_INCR : Int)) := by
    rw [hk2 H_LEN (by omega)]
    exact hr1
  -- mp[H_USED]++
  obtain ⟨mp3, hw3, hl3, hr3, hk3⟩ := @mem_wr_spec mp2 H_USED (used + 1) (by omega)
    (by rw [hl2, hl1, hrl, hsz]; omega)
  refine ⟨mp3, ?_, ?_, hr3, ?_⟩
  · unfold Mem.grow
    simp only [Option.bind_eq_bind, hw1, Option.some_bind, hw2, hused2, hw3]
  · rw [hk3 H_LEN (by omega), hlen2, hI]
  · rw [hl3, hl2, hl1, hrl, hsz]
    ring

/-- The part of `hAlloc` from line 50 on, on a block of the right size: it has a
result; either the request was refused and nothing was written, or a handle
below the new length is returned, `mp[H_USED]` is one more, and the length is
the old one (when `used < len`) or 16 more. -/
theorem mem_hAllocFrom_spec {pw : Nat} (hp : 1 ≤ pw) {mp : List Int} {len used : Int}
    (hs : Mem.Shaped pw mp len used) (hlen : 0 ≤ len) (mem : Option (List Int)) :
    ∃ r, Mem.hAllocFrom pw mp mem = some r ∧
      ((r = (some mp, -1) ∧ mem = none) ∨
       (∃ mp1 len1, r.1 = some mp1 ∧ 0 ≤ r.2 ∧ r.2 < len1 ∧ Mem.Shaped pw mp1 len1 (used + 1) ∧
          ((len1 = len ∧ used < len) ∨
           (len1 = len + 16 ∧ (len ≤ used ∨ ∀ h, 0 ≤ h → h < len →
              ∃ w, Mem.rd mp (h + H_OFFSET) = some w ∧ w ≠ 0))))) := by
  have hO : H_OFFSET = 2 := rfl
  have hL : H_LEN = 0 := rfl
  have hU : H_USED = 1 := rfl
  have hb := mem_shaped_bounds hp hs hlen
  have hgrow : (len ≤ used ∨ ∀ h, 0 ≤ h → h < len →
      ∃ w, Mem.rd mp (h + H_OFFSET) = some w ∧ w ≠ 0) →
      ∃ r, Mem.grow pw mp len len mem = some r ∧
      ((r = (some mp, -1) ∧ mem = none) ∨
       (∃ mp1 len1, r.1 = some mp1 ∧ 0 ≤ r.2 ∧ r.2 < len1 ∧ Mem.Shaped pw mp1 len1 (used + 1) ∧
          ((len1 = len ∧ used < len) ∨
           (len1 = len + 16 ∧ (len ≤ used ∨ ∀ h, 0 ≤ h → h < len →
              ∃ w, Mem.rd mp (h + H_OFFSET) = some w ∧ w ≠ 0))))) := by
    intro hwhy
    cases mem with
    | none => exact ⟨(some mp, -1), rfl, Or.inl ⟨rfl, rfl⟩⟩
    | some junk =>
      obtain ⟨mp1, hg, hs1⟩ := mem_grow_spec hp hs hlen len junk
      exact ⟨_, hg, Or.inr ⟨mp1, len + 16, rfl, hlen, by show len < len + 16; omega, hs1,
        Or.inr ⟨rfl, hwhy⟩⟩⟩
  obtain ⟨h0, h1, h2⟩ := hs
  unfold Mem.hAllocFrom
  simp only [Option.bind_eq_bind, h0, h1, Option.some_bind]
  by_cases hu : used < len
  · rw [if_pos hu]
    obtain ⟨f, hf, hfb, hfn⟩ := mem_findNull_spec mp len.toNat 0 (le_refl _)
      (by rw [Int.toNat_of_nonneg hlen]; omega)
    rw [hf]
    simp only [Option.some_bind]
    cases f with
    | none =>
      refine hgrow (Or.inr ?_)
      intro h hh0 hh1
      exact hfn rfl h hh0 (by rw [Int.toNat_of_nonneg hlen]; omega)
    | some handle =>
      obtain ⟨hh0, hh1⟩ := hfb handle rfl
      rw [Int.toNat_of_nonneg hlen] at hh1
      obtain ⟨mp1, hw, hl, hr, hk⟩ := @mem_wr_spec mp H_USED (used + 1) (by omega) (by omega)
      refine ⟨(some mp1, handle), by simp only [hw, Option.some_bind], Or.inr ⟨mp1, len, rfl, hh0,
        by show handle < len; omega, ⟨?_, hr, ?_⟩, Or.inl ⟨rfl, hu⟩⟩⟩
      · rw [hk H_LEN (by omega)]; exact h0
      · rw [hl]; exact h2
  · rw [if_neg hu]
    exact hgrow (Or.inl (by omega))

/-- The block `hAlloc` sets up for a `NULL` map. -/
theorem mem_firstChunk_shaped {pw : Nat} (hp : 1 ≤ pw) :
    ∃ mp1 mp2, Mem.wr (List.replicate (((H_INCR : Int) + H_OFFSET) * (pw : Int)).toNat (0 : Int))
        H_LEN H_INCR = some mp1 ∧ Mem.wr mp1 H_USED 0 = some mp2 ∧ Mem.Shaped pw mp2 16 0 ∧
      Mem.rd mp2 (0 + H_OFFSET) = some 0 := by
  have hO : H_OFFSET = 2 := rfl
  have hL : H_LEN = 0 := rfl
  have hU : H_USED = 1 := rfl
  have hI : ((H_INCR : Nat) : Int) = 16 := rfl
  have hpi : (1 : Int) ≤ (pw : Int) := by exact_mod_cast hp
  have hsz : (((((H_INCR : Int) + H_OFFSET) * (pw : Int)).toNat : Nat) : Int) = 18 * (pw : Int) := by
    rw [Int.toNat_of_nonneg (by rw [hI, hO]; omega), hI, hO]
    norm_num
  obtain ⟨mp1, hw1, hl1, hr1, hk1⟩ := @mem_wr_spec
    (List.replicate (((H_INCR : Int) + H_OFFSET) * (pw : Int)).toNat (0 : Int)) H_LEN H_INCR
    (by omega) (by rw [List.length_replicate, hsz]; omega)
  obtain ⟨mp2, hw2, hl2, hr2, hk2⟩ := @mem_wr_spec mp1 H_USED 0 (by omega)
    (by rw [hl1, List.length_replicate, hsz]; omega)
  refine ⟨mp1, mp2, hw1, hw2, ⟨?_, hr2, ?_⟩, ?_⟩
  · rw [hk2 H_LEN (by omega), hr1, hI]
  · rw [hl2, hl1, List.length_replicate, hsz, hO]
    norm_num
  · rw [hk2 _ (by omega), hk1 _ (by omega)]
    unfold Mem.rd
    rw [if_pos (by omega), List.getElem?_replicate, if_pos (by omega)]


/-- Membership of the first check in the log of `hFree`. -/
theorem mem_lenCheck_mem (c1 c2 c3 : Bool) :
    Check.lenAtLeastIncr ∈ a_assert c3 Check.usedNonZero
      (a_assert c2 Check.slotInUse (a_assert c1 Check.lenAtLeastIncr [])) ↔ c1 = false := by
  cases c1 <;> cases c2 <;> cases c3 <;> simp [a_assert]

/-- The call `hFree(map, handle)` with a handle below `mp[H_LEN]` on a block of the right
size: it has a result; the check of the length is reported exactly when
`mp[H_LEN] < H_INCR`; the block is released when `mp[H_USED]` was 1 and is kept
otherwise, with the same length and `mp[H_USED]` one less. -/
theorem mem_hFree_spec {pw : Nat} (hp : 1 ≤ pw) {mp : List Int} {len used : Int}
    (hs : Mem.Shaped pw mp len used) {h : Int} (h0 : 0 ≤ h) (h1 : h < len) :
    ∃ r, Mem.hFree (some mp) h = some r ∧
      (Check.lenAtLeastIncr ∈ r.failed ↔ ¬ len ≥ 16) ∧
      ((used - 1 = 0 ∧ r.map = none) ∨
       (used - 1 ≠ 0 ∧ ∃ mp2, r.map = some mp2 ∧ Mem.Shaped pw mp2 len (used - 1))) := by
  have hO : H_OFFSET = 2 := rfl
  have hL : H_LEN = 0 := rfl
  have hU : H_USED = 1 := rfl
  have hI : ((H_INCR : Nat) : Int) = 16 := rfl
  have hb := mem_shaped_bounds hp hs (by omega)
  obtain ⟨e0, e1, e2⟩ := hs
  obtain ⟨w, hw⟩ := @mem_rd_some mp (h + H_OFFSET) (by omega) (by omega)
  obtain ⟨mp1, hw1, hl1, hr1, hk1⟩ := @mem_wr_spec mp (h + H_OFFSET) 0 (by omega) (by omega)
  have hu1 : Mem.rd mp1 H_USED = some used := by rw [hk1 H_USED (by omega)]; exact e1
  obtain ⟨mp2, hw2, hl2, hr2, hk2⟩ := @mem_wr_spec mp1 H_USED (used - 1) (by omega) (by omega)
  have hlen2 : Mem.rd mp2 H_LEN = some len := by
    rw [hk2 H_LEN (by omega), hk1 H_LEN (by omega)]; exact e0
  have hlog := mem_lenCheck_mem (decide (len ≥ (H_INCR : Int))) (decide (w ≠ 0))
    (decide (used ≠ 0))
  have hlog2 : Check.lenAtLeastIncr ∈ a_assert (decide (used ≠ 0)) Check.usedNonZero
      (a_assert (decide (w ≠ 0)) Check.slotInUse
        (a_assert (decide (len ≥ (H_INCR : Int))) Check.lenAtLeastIncr [])) ↔ ¬ len ≥ 16 := by
    rw [hlog, hI]
    simp
  unfold Mem.hFree
  simp only [Option.bind_eq_bind, Option.some_bind, e0, hw, e1, hw1, hu1, hw2]
  by_cases hz : used - 1 = 0
  · rw [if_pos hz]
    exact ⟨_, rfl, hlog2, Or.inl ⟨hz, rfl⟩⟩
  · rw [if_neg hz]
    simp only [hlen2, hr2, Option.some_bind]
    have hshape : Mem.Shaped pw mp2 len (used - 1) := ⟨hlen2, hr2, by rw [hl2, hl1]; exact e2⟩
    by_cases hlt : used - 1 < len
    · rw [if_pos hlt]
      obtain ⟨r, hr⟩ := mem_scanDown_defined mp2 len.toNat (len - 1) (by rw [hl2, hl1]; omega)
      rw [hr]
      exact ⟨_, rfl, hlog2, Or.inr ⟨hz, mp2, rfl, hshape⟩⟩
    · rw [if_neg hlt]
      exact ⟨_, rfl, hlog2, Or.inr ⟨hz, mp2, rfl, hshape⟩⟩

/-- The store `(*list)[id] = cp` with `id` below `mp[H_LEN]` on a block of the right size:
it has a result, which leaves the head and the size of the block alone. -/
theorem mem_store_spec {pw : Nat} (hp : 1 ≤ pw) {mp : List Int} {len used : Int}
    (hs : Mem.Shaped pw mp len used) {id : Int} (h0 : 0 ≤ id) (h1 : id < len) (cp : Int) :
    ∃ mp1, Mem.store pw mp id cp = some mp1 ∧ Mem.Shaped pw mp1 len used := by
  have hO : H_OFFSET = 2 := rfl
  have hL : H_LEN = 0 := rfl
  have hU : H_USED = 1 := rfl
  have hpi : (1 : Int) ≤ (pw : Int) := by exact_mod_cast hp
  obtain ⟨e0, e1, e2⟩ := hs
  have hm1 : 0 ≤ id * (pw : Int) := mul_nonneg h0 (by omega)
  have hm2 : (id + 1) * (pw : Int) ≤ len * (pw : Int) :=
    mul_le_mul_of_nonneg_right (by omega) (by omega)
  have hm3 : (id + 1) * (pw : Int) = id * (pw : Int) + (pw : Int) := by ring
  have hm4 : (len + H_OFFSET) * (pw : Int) = len * (pw : Int) + 2 * (pw : Int) := by
    rw [hO]; ring
  obtain ⟨mp1, hw, hl, hk⟩ := mem_wrWords_spec (Mem.ptrWords pw cp) mp
    (H_OFFSET + id * (pw : Int)) (by omega)
    (by rw [mem_length_ptrWords, e2, hm4]; omega)
  refine ⟨mp1, hw, ?_, ?_, ?_⟩
  · rw [hk H_LEN (by omega)]; exact e0
  · rw [hk H_USED (by omega)]; exact e1
  · rw [hl]; exact e2


theorem mem_capacity_of_shaped {pw : Nat} {mp : List Int} {len used : Int}
    (hs : Mem.Shaped pw mp len used) : Mem.capacity (some mp) = len := by
  unfold Mem.capacity
  simp only [hs.1, Option.getD_some]

/-- The call `hAlloc(map)` on a reachable block, or on the `NULL` map: it has a result;
either the request was refused, -1 is returned and the map is as before, or a
handle below the new length is returned and the block has the properties of
`ApiInv`, its length being the old capacity or 16 more. -/
theorem mem_hAlloc_spec {pw : Nat} (hp : 1 ≤ pw) {m : Option (List Int)} (hinv : Mem.ApiInv pw m)
    (mem : Option (List Int)) :
    ∃ r, Mem.hAlloc pw m mem = some r ∧
      ((r = (m, -1) ∧ mem = none) ∨
       (∃ mp1 len1 used1, r.1 = some mp1 ∧ 0 ≤ r.2 ∧ r.2 < len1 ∧ Mem.Shaped pw mp1 len1 used1 ∧
          1 ≤ used1 ∧ used1 ≤ len1 ∧ (∃ k : Int, 1 ≤ k ∧ len1 = 16 * k) ∧
          (len1 = Mem.capacity m ∨ len1 = Mem.capacity m + 16))) := by
  cases m with
  | none =>
    cases mem with
    | none => exact ⟨(none, -1), rfl, Or.inl ⟨rfl, rfl⟩⟩
    | some junk =>
      obtain ⟨mp1, mp2, hw1, hw2, hs, hzero⟩ := mem_firstChunk_shaped hp
      obtain ⟨r, hr, hcase⟩ := mem_hAllocFrom_spec hp hs (by decide) (some junk)
      refine ⟨r, ?_, ?_⟩
      · unfold Mem.hAlloc
        simp only [Option.bind_eq_bind, hw1, Option.some_bind, hw2]
        exact hr
      · rcases hcase with ⟨_, hmem⟩ | ⟨mp3, len1, h1, h2, h3, hs3, hlen⟩
        · cases hmem
        · rcases hlen with ⟨hl, _⟩ | ⟨_, hfull | hall⟩
          · subst hl
            exact Or.inr ⟨mp3, 16, 0 + 1, h1, h2, h3, hs3, by decide, by decide, ⟨1, by decide, rfl⟩,
              Or.inr rfl⟩
          · exact absurd hfull (by decide)
          · obtain ⟨w, hw, hne⟩ := hall 0 (le_refl _) (by decide)
            rw [hzero] at hw
            exact absurd (Option.some.inj hw).symm hne
  | some mp =>
    obtain ⟨len, used, hs, hu1, hu2, k, hk, hlen⟩ := hinv mp rfl
    have hcap := mem_capacity_of_shaped hs
    obtain ⟨r, hr, hcase⟩ := mem_hAllocFrom_spec hp hs (by omega) mem
    refine ⟨r, hr, ?_⟩
    rcases hcase with hfail | ⟨mp3, len1, h1, h2, h3, hs3, hl⟩
    · exact Or.inl hfail
    · rcases hl with ⟨hl, hlt⟩ | ⟨hl, _⟩
      · exact Or.inr ⟨mp3, len1, used + 1, h1, h2, h3, hs3, by omega, by omega,
          ⟨k, hk, by omega⟩, Or.inl (by rw [hcap]; exact hl)⟩
      · exact Or.inr ⟨mp3, len1, used + 1, h1, h2, h3, hs3, by omega, by omega,
          ⟨k + 1, by omega, by omega⟩, Or.inr (by rw [hcap]; exact hl)⟩

theorem mem_post_refl {pw : Nat} {m : Option (List Int)} (hinv : Mem.ApiInv pw m) :
    Mem.Post pw m m :=
  ⟨hinv, fun _ _ => Or.inl rfl⟩

theorem mem_post_of_shaped {pw : Nat} {m : Option (List Int)} {mp1 : List Int} {len1 used1 : Int}
    (hs : Mem.Shaped pw mp1 len1 used1) (h1 : 1 ≤ used1) (h2 : used1 ≤ len1)
    (hk : ∃ k : Int, 1 ≤ k ∧ len1 = 16 * k)
    (hc : len1 = Mem.capacity m ∨ len1 = Mem.capacity m + 16) : Mem.Post pw m (some mp1) := by
  refine ⟨?_, ?_⟩
  · intro mp hmp
    cases hmp
    exact ⟨len1, used1, hs, h1, h2, hk⟩
  · intro _ _
    rw [mem_capacity_of_shaped hs]
    exact hc

theorem mem_post_none {pw : Nat} {m : Option (List Int)} : Mem.Post pw m none :=
  ⟨(fun mp h => by cases h), (fun mp h => by cases h)⟩

/-- The call `hFree(map, h)` with `h` below `mp[H_LEN]` on a reachable block: it has a
result, does not report the check of the length, and leaves a map with the
properties of `ApiInv` and the same capacity, or `NULL`. -/
theorem mem_hFree_post {pw : Nat} (hp : 1 ≤ pw) {mp : List Int} (hinv : Mem.ApiInv pw (some mp))
    {h : Int} (h0 : 0 ≤ h) (h1 : h < Mem.capacity (some mp)) :
    ∃ r, Mem.hFree (some mp) h = some r ∧ Check.lenAtLeastIncr ∉ r.failed ∧
      Mem.ApiInv pw r.map ∧ (∀ mp1, r.map = some mp1 → Mem.capacity r.map = Mem.capacity (some mp)) := by
  obtain ⟨len, used, hs, hu1, hu2, k, hk, hlen⟩ := hinv mp rfl
  have hcap := mem_capacity_of_shaped hs
  rw [hcap] at h1
  obtain ⟨r, hr, hlog, hcase⟩ := mem_hFree_spec hp hs h0 h1
  refine ⟨r, hr, fun hmem => hlog.mp hmem (by omega), ?_, ?_⟩
  · rcases hcase with ⟨_, hnone⟩ | ⟨hz, mp2, hmap, hs2⟩
    · rw [hnone]
      intro mp3 hmp3
      cases hmp3
    · rw [hmap]
      intro mp3 hmp3
      cases hmp3
      exact ⟨len, used - 1, hs2, by omega, by omega, k, hk, hlen⟩
  · intro mp1 hmp1
    rcases hcase with ⟨_, hnone⟩ | ⟨hz, mp2, hmap, hs2⟩
    · rw [hnone] at hmp1; cases hmp1
    · rw [hmap, mem_capacity_of_shaped hs2, hcap]

/-- The call `hAllocEntry(list, max, size)` on a reachable block, or on the `NULL` map:
it has a result, and leaves a map with the properties of `ApiInv` whose
capacity, if it is not `NULL`, is the old one or 16 more. -/
theorem mem_hAllocEntry_post {pw : Nat} (hp : 1 ≤ pw) {m : Option (List Int)}
    (hinv : Mem.ApiInv pw m) (max size : Int) (mem : Option (List Int)) (cp : Int) :
    ∃ r, Mem.hAllocEntry pw m max size mem cp = some r ∧ Mem.Post pw m r.list := by
  obtain ⟨a, ha, hcase⟩ := mem_hAlloc_spec hp hinv mem
  unfold Mem.hAllocEntry
  simp only [Option.bind_eq_bind, ha, Option.some_bind]
  rcases hcase with ⟨hfail, _⟩ | ⟨mp1, len1, used1, h1, h2, h3, hs, hu1, hu2, hk, hc⟩
  · rw [hfail]
    simp only [show ((-1 : Int) < 0) from by decide, if_true]
    exact ⟨_, rfl, mem_post_refl hinv⟩
  · have hpost : Mem.Post pw m (some mp1) := mem_post_of_shaped hs hu1 hu2 hk hc
    rw [if_neg (by omega)]
    by_cases hsz : 0 < size
    · rw [if_pos hsz]
      by_cases hcp : cp = 0
      · rw [if_pos hcp, h1]
        have hcap : Mem.capacity (some mp1) = len1 := mem_capacity_of_shaped hs
        obtain ⟨r, hr, -, hinv2, hcap2⟩ := @mem_hFree_post pw hp mp1 hpost.1 a.2 h2
          (by rw [hcap]; exact h3)
        rw [hr]
        simp only [Option.some_bind]
        refine ⟨_, rfl, hinv2, ?_⟩
        intro mp2 hmp2
        have hmp3 : r.map = some mp2 := hmp2
        have h4 := hcap2 mp2 hmp3
        show Mem.capacity r.map = _ ∨ Mem.capacity r.map = _
        rw [h4, hcap]
        exact hc
      · rw [if_neg hcp, h1]
        simp only [Option.some_bind]
        obtain ⟨mp2, hst, hs2⟩ := mem_store_spec hp hs h2 h3 cp
        rw [hst]
        simp only [Option.some_bind]
        exact ⟨_, rfl, mem_post_of_shaped hs2 hu1 hu2 hk hc⟩
    · rw [if_neg hsz, h1]
      exact ⟨_, rfl, hpost⟩

/-- Every step from a block with the properties of `ApiInv` leaves one, whose capacity
is the old one or 16 more. -/
theorem mem_apiStep_post {pw : Nat} (hp : 1 ≤ pw) {m m1 : Option (List Int)}
    (hstep : Mem.ApiStep pw m m1) (hinv : Mem.ApiInv pw m) : Mem.Post pw m m1 := by
  cases hstep with
  | @alloc _ mem r halloc =>
    obtain ⟨r2, hr2, hcase⟩ := mem_hAlloc_spec hp hinv mem
    rw [halloc] at hr2
    cases hr2
    rcases hcase with ⟨hfail, _⟩ | ⟨mp1, len1, used1, h1, _, _, hs, hu1, hu2, hk, hc⟩
    · rw [hfail]
      exact mem_post_refl hinv
    · rw [h1]
      exact mem_post_of_shaped hs hu1 hu2 hk hc
  | @free mp h len r hlen h0 h1 hfree =>
    have hcap : Mem.capacity (some mp) = len := by
      unfold Mem.capacity
      simp only [hlen, Option.getD_some]
    obtain ⟨r2, hr2, -, hinv2, hcap2⟩ := @mem_hFree_post pw hp mp hinv h h0 (by rw [hcap]; exact h1)
    rw [hfree] at hr2
    cases hr2
    exact ⟨hinv2, fun mp1 hmp1 => Or.inl (hcap2 mp1 hmp1)⟩
  | @entry _ mem max size cp r hent =>
    obtain ⟨r2, hr2, hpost⟩ := mem_hAllocEntry_post hp hinv max size mem cp
    rw [hent] at hr2
    cases hr2
    exact hpost
  | @store mp mp1 len id v hlen h0 h1 hst =>
    obtain ⟨len2, used, hs, hu1, hu2, hk⟩ := hinv mp rfl
    have hl : len2 = len := by
      have := hs.1
      rw [hlen] at this
      exact (Option.some.inj this).symm
    subst hl
    obtain ⟨mp2, hst2, hs2⟩ := mem_store_spec hp hs h0 h1 v
    rw [hst] at hst2
    cases hst2
    exact mem_post_of_shaped hs2 hu1 hu2 hk (Or.inl (mem_capacity_of_shaped hs).symm)

theorem mem_reachable_inv {pw : Nat} (hp : 1 ≤ pw) {m : Option (List Int)}
    (hm : Mem.ApiReachable pw m) : Mem.ApiInv pw m := by
  induction hm with
  | absent => intro mp h; cases h
  | step _ hstep ih => exact (mem_apiStep_post hp hstep ih).1

/-! ## The claims -/

/-- C1 (lowest free index): on a present table with `used < capacity` and at least one
empty slot, `hAlloc` succeeds whatever the allocator answers, does not grow the
list, returns the smallest index whose slot is empty, adds exactly 1 to `used`
and leaves the capacity (and every slot) as it was. -/
theorem hAlloc_lowest_free (t : HTable) (ok : Bool) (hused : t.used < t.len)
    (hfree : ∃ i, slotAt (some t) i = some 0) :
    ∃ (i : Int) (t1 : HTable), hAlloc (some t) ok = (some t1, i) ∧
      0 ≤ i ∧ i < t.len ∧ slotAt (some t) i = some 0 ∧
      (∀ j, slotAt (some t) j = some 0 → i ≤ j) ∧
      t1.used = t.used + 1 ∧ t1.len = t.len ∧ t1.slots = t.slots := by
  obtain ⟨i0, hi0⟩ := hfree
  obtain ⟨n0, -, hn0⟩ := slotAt_some_iff.mp hi0
  obtain ⟨i, hfind⟩ := findNull_isSome_of_zero (k := 0) hn0
  obtain ⟨j, hj, hz, hlow⟩ := findNull_some hfind
  have hij : i = j := by omega
  subst hij
  have hlt : i < t.slots.length := (List.getElem?_eq_some_iff.mp hz).1
  refine ⟨(i : Int), ⟨t.used + 1, t.slots⟩, ?_, by omega, ?_, ?_, ?_, rfl, rfl, rfl⟩
  · simp [hAlloc, hAllocFrom, hused, hfind]
  · unfold HTable.len; omega
  · exact slotAt_some_iff.mpr ⟨i, rfl, hz⟩
  · intro j hj0
    obtain ⟨m, rfl, hm⟩ := slotAt_some_iff.mp hj0
    by_contra hlt2
    exact hlow m (by omega) 0 hm rfl

/-- Witness for C1: the block `[7, 0, 5, 0]` with two handles in use. -/
theorem hAlloc_lowest_free_witness :
    ∃ (i : Int) (t1 : HTable), hAlloc (some ⟨2, [7, 0, 5, 0]⟩) false = (some t1, i) ∧
      0 ≤ i ∧ i < (HTable.mk 2 [7, 0, 5, 0]).len ∧
      slotAt (some ⟨2, [7, 0, 5, 0]⟩) i = some 0 ∧
      (∀ j, slotAt (some ⟨2, [7, 0, 5, 0]⟩) j = some 0 → i ≤ j) ∧
      t1.used = (HTable.mk 2 [7, 0, 5, 0]).used + 1 ∧
      t1.len = (HTable.mk 2 [7, 0, 5, 0]).len ∧ t1.slots = (HTable.mk 2 [7, 0, 5, 0]).slots :=
  hAlloc_lowest_free ⟨2, [7, 0, 5, 0]⟩ false (by decide) ⟨1, by decide⟩

/-- C3 (P6, high-water mark): on a present table whose `used` equals the number of
occupied slots, `hFree` of an in-range occupied handle returns 0 when no slot is
occupied afterwards, and one more than the greatest occupied index otherwise.
The block is given up only when no other slot was occupied. -/
theorem hFree_high_water_mark (t : HTable) (h : Int)
    (hinv : t.used = (occupiedCount t.slots : Int)) (hocc : Occupied (some t) h) :
    ∃ r, hFree (some t) h = some r ∧
      ((∀ i, ¬ Occupied r.map i) → r.ret = 0) ∧
      (∀ g, Occupied r.map g → (∀ j, g < j → ¬ Occupied r.map j) → r.ret = g + 1) ∧
      (r.map = none → ∀ i, i ≠ h → ¬ Occupied (some t) i) := by
  obtain ⟨n, w, rfl, hw, hne⟩ := occupied_iff.mp hocc
  have hn : n < t.slots.length := (List.getElem?_eq_some_iff.mp hw).1
  have hcnt := occupiedCount_set_zero hw hne
  have hzero : (t.slots.set n 0)[n]? = some 0 := by
    simp [List.getElem?_set, hn]
  have hlt := occupiedCount_lt_length_of_zero hzero
  rw [List.length_set] at hlt
  obtain ⟨log, hfree⟩ := hFree_in_range t n hn
  by_cases h0 : t.used - 1 = 0
  · rw [if_pos h0] at hfree
    refine ⟨_, hfree, fun _ => rfl, ?_, ?_⟩
    · intro g hg
      exact absurd hg (not_occupied_none g)
    · intro _ i hi hocc2
      obtain ⟨m, v, rfl, hv, hvne⟩ := occupied_iff.mp hocc2
      have hmn : m ≠ n := by
        intro hmn; apply hi; rw [hmn]
      have hc0 : occupiedCount (t.slots.set n 0) = 0 := by omega
      have hv2 : (t.slots.set n 0)[m]? = some v := by
        rw [List.getElem?_set_ne (Ne.symm hmn)]; exact hv
      exact hvne (occupiedCount_eq_zero hc0 v (List.mem_iff_getElem?.mpr ⟨m, hv2⟩))
  · rw [if_neg h0] at hfree
    have hlt2 : t.used - 1 < t.len := by unfold HTable.len; omega
    rw [if_pos hlt2] at hfree
    refine ⟨_, hfree, ?_, ?_, fun hnone => by simp at hnone⟩
    · intro hall
      rcases scanDown_spec (t.slots.set n 0) t.slots.length with
        ⟨h1, _⟩ | ⟨g, hg, _, h2, _⟩
      · show scanDown (t.slots.set n 0) t.slots.length + 1 = 0
        rw [h1]; rfl
      · exfalso
        have hgl : g < (t.slots.set n 0).length := by rw [List.length_set]; exact hg
        refine hall g (occupied_iff.mpr ⟨g, (t.slots.set n 0)[g], rfl, ?_, ?_⟩)
        · exact List.getElem?_eq_getElem hgl
        · intro hz
          apply h2
          simp only [List.getD_eq_getElem?_getD, List.getElem?_eq_getElem hgl, Option.getD_some]
          exact hz
    · intro g hg hmax
      obtain ⟨m, v, rfl, hv, hvne⟩ := occupied_iff.mp hg
      have hv : (t.slots.set n 0)[m]? = some v := hv
      have hml : m < t.slots.length := by
        have := (List.getElem?_eq_some_iff.mp hv).1
        rwa [List.length_set] at this
      rcases scanDown_spec (t.slots.set n 0) t.slots.length with
        ⟨_, h2⟩ | ⟨g, hg, h1, h2, h3⟩
      · exfalso
        have := h2 m hml
        rw [getD_of_getElem? hv] at this
        exact hvne this
      · show scanDown (t.slots.set n 0) t.slots.length + 1 = (m : Int) + 1
        rw [h1]
        have hgl : g < (t.slots.set n 0).length := by rw [List.length_set]; exact hg
        have hle1 : m ≤ g := by
          by_contra hcon
          have := h3 m (by omega) hml
          rw [getD_of_getElem? hv] at this
          exact hvne this
        have hle2 : g ≤ m := by
          by_contra hcon
          refine hmax (g : Int) (by omega)
            (occupied_iff.mpr ⟨g, (t.slots.set n 0)[g], rfl, List.getElem?_eq_getElem hgl, ?_⟩)
          intro hz
          apply h2
          simp only [List.getD_eq_getElem?_getD, List.getElem?_eq_getElem hgl, Option.getD_some]
          exact hz
        have : g = m := by omega
        rw [this]

/-- Witness for C3: freeing handle 2 of `[7, 0, 5, 0]` leaves handle 0 as the greatest. -/
theorem hFree_high_water_mark_witness :
    ∃ r, hFree (some ⟨2, [7, 0, 5, 0]⟩) 2 = some r ∧
      ((∀ i, ¬ Occupied r.map i) → r.ret = 0) ∧
      (∀ g, Occupied r.map g → (∀ j, g < j → ¬ Occupied r.map j) → r.ret = g + 1) ∧
      (r.map = none → ∀ i, i ≠ 2 → ¬ Occupied (some ⟨2, [7, 0, 5, 0]⟩) i) :=
  hFree_high_water_mark ⟨2, [7, 0, 5, 0]⟩ 2 (by decide) ⟨5, by decide, by decide⟩

/-- C4 (growth): on a present table with `used == capacity`, a successful `hAlloc`
returns the old capacity as the handle, the new capacity is the old one plus 16
(`H_INCR`), `used` grows by exactly 1, every slot below the old capacity keeps its
value and every slot in `[old capacity + 1, old capacity + 16)` is empty. -/
theorem hAlloc_growth (t : HTable) (hfull : t.used = t.len) :
    ∃ t1 : HTable, hAlloc (some t) true = (some t1, t.len) ∧
      t1.len = t.len + 16 ∧ t1.used = t.used + 1 ∧
      (∀ i, 0 ≤ i → i < t.len → slotAt (some t1) i = slotAt (some t) i) ∧
      (∀ i, t.len + 1 ≤ i → i < t.len + 16 → slotAt (some t1) i = some 0) := by
  have hnlt : ¬ t.used < t.len := by omega
  refine ⟨⟨t.used + 1, t.slots ++ List.replicate H_INCR 0⟩, ?_, ?_, rfl, ?_, ?_⟩
  · simp [hAlloc, hAllocFrom, hnlt]
  · simp [HTable.len, H_INCR]
  · intro i h0 h1
    unfold HTable.len at h1
    rw [slotAt_some, slotAt_some]
    have hi : i.toNat < t.slots.length := by omega
    rw [if_pos ⟨h0, by simp [HTable.len, H_INCR]; omega⟩, if_pos ⟨h0, h1⟩]
    exact List.getElem?_append_left hi
  · intro i h0 h1
    unfold HTable.len at h0 h1
    rw [slotAt_some]
    rw [if_pos ⟨by omega, by simp [HTable.len, H_INCR]; omega⟩]
    have hi : t.slots.length ≤ i.toNat := by omega
    rw [List.getElem?_append_right hi, List.getElem?_replicate]
    rw [if_pos (by simp only [H_INCR]; omega)]

/-- Witness for C4: a full block of four slots. -/
theorem hAlloc_growth_witness :
    ∃ t1 : HTable, hAlloc (some ⟨4, [7, 8, 5, 6]⟩) true = (some t1, (HTable.mk 4 [7, 8, 5, 6]).len) ∧
      t1.len = (HTable.mk 4 [7, 8, 5, 6]).len + 16 ∧ t1.used = (HTable.mk 4 [7, 8, 5, 6]).used + 1 ∧
      (∀ i, 0 ≤ i → i < (HTable.mk 4 [7, 8, 5, 6]).len →
        slotAt (some t1) i = slotAt (some ⟨4, [7, 8, 5, 6]⟩) i) ∧
      (∀ i, (HTable.mk 4 [7, 8, 5, 6]).len + 1 ≤ i → i < (HTable.mk 4 [7, 8, 5, 6]).len + 16 →
        slotAt (some t1) i = some 0) :=
  hAlloc_growth ⟨4, [7, 8, 5, 6]⟩ (by decide)

/-- C5 (P3, teardown): on a present table with `used == 1`, `hFree` of an in-range
occupied handle makes the table absent and returns 0; a following successful
`hAlloc` gives what the very first allocation gives: handle 0 and a block of 16
slots, all empty, with `used == 1`. -/
theorem hFree_teardown (t : HTable) (h : Int) (hused : t.used = 1)
    (hocc : Occupied (some t) h) :
    ∃ r, hFree (some t) h = some r ∧ r.map = none ∧ r.ret = 0 ∧
      hAlloc r.map true = hAlloc none true ∧
      hAlloc r.map true = (some ⟨1, List.replicate 16 0⟩, 0) := by
  obtain ⟨n, w, rfl, hw, -⟩ := occupied_iff.mp hocc
  have hn : n < t.slots.length := (List.getElem?_eq_some_iff.mp hw).1
  obtain ⟨log, hfree⟩ := hFree_in_range t n hn
  rw [if_pos (by omega)] at hfree
  exact ⟨_, hfree, rfl, rfl, rfl, rfl⟩

/-- Witness for C5: the only handle in use is handle 1. -/
theorem hFree_teardown_witness :
    ∃ r, hFree (some ⟨1, [0, 9, 0, 0]⟩) 1 = some r ∧ r.map = none ∧ r.ret = 0 ∧
      hAlloc r.map true = hAlloc none true ∧
      hAlloc r.map true = (some ⟨1, List.replicate 16 0⟩, 0) :=
  hFree_teardown ⟨1, [0, 9, 0, 0]⟩ 1 rfl ⟨9, by decide, by decide⟩

/-- C6 (P2, reuse lowest): on a present table whose `used` equals the number of
occupied slots, when handle `h` is in range and occupied and every lower slot is
occupied, `hFree(h)` followed by a successful `hAlloc` returns `h` again, also
when the free gives the block up. -/
theorem hFree_hAlloc_reuse (t : HTable) (h : Int)
    (hinv : t.used = (occupiedCount t.slots : Int)) (hocc : Occupied (some t) h)
    (hlow : ∀ j, 0 ≤ j → j < h → Occupied (some t) j) :
    ∃ r, hFree (some t) h = some r ∧ (hAlloc r.map true).2 = h := by
  obtain ⟨n, w, rfl, hw, hne⟩ := occupied_iff.mp hocc
  have hn : n < t.slots.length := (List.getElem?_eq_some_iff.mp hw).1
  have hcnt := occupiedCount_set_zero hw hne
  have hzero : (t.slots.set n 0)[n]? = some 0 := by
    simp [List.getElem?_set, hn]
  have hlt := occupiedCount_lt_length_of_zero hzero
  rw [List.length_set] at hlt
  have hbelow : ∀ m, m < n → ∀ v, (t.slots.set n 0)[m]? = some v → v ≠ 0 := by
    intro m hm v hv
    rw [List.getElem?_set_ne (by omega)] at hv
    obtain ⟨m2, v2, hm2, hv2, hne2⟩ := occupied_iff.mp (hlow (m : Int) (by omega) (by omega))
    have : m = m2 := by omega
    subst this
    rw [hv] at hv2
    rw [Option.some.inj hv2]; exact hne2
  obtain ⟨log, hfree⟩ := hFree_in_range t n hn
  by_cases h0 : t.used - 1 = 0
  · rw [if_pos h0] at hfree
    refine ⟨_, hfree, ?_⟩
    have hc0 : occupiedCount (t.slots.set n 0) = 0 := by omega
    have hn0 : n = 0 := by
      by_contra hpos
      have hl0 : 0 < (t.slots.set n 0).length := by rw [List.length_set]; omega
      have hget : (t.slots.set n 0)[0]? = some (t.slots.set n 0)[0] :=
        List.getElem?_eq_getElem hl0
      exact hbelow 0 (by omega) _ hget
        (occupiedCount_eq_zero hc0 _ (List.mem_iff_getElem?.mpr ⟨0, hget⟩))
    subst hn0
    rfl
  · rw [if_neg h0] at hfree
    refine ⟨_, hfree, ?_⟩
    obtain ⟨i, hfind⟩ := findNull_isSome_of_zero (k := 0) hzero
    obtain ⟨j, hj, hz, hlowj⟩ := findNull_some hfind
    have hin : i = n := by
      have h1 : ¬ n < j := fun hcon => hlowj n hcon 0 hzero rfl
      have h2 : ¬ j < n := fun hcon => hbelow j hcon 0 hz rfl
      omega
    have hlt2 : t.used - 1 < (HTable.mk (t.used - 1) (t.slots.set n 0)).len := by
      simp only [HTable.len, List.length_set]; omega
    simp [hAlloc, hAllocFrom, hlt2, hfind, hin]

/-- Witness for C6: handle 1 of `[7, 3, 0, 5]` is freed and handed out again. -/
theorem hFree_hAlloc_reuse_witness :
    ∃ r, hFree (some ⟨3, [7, 3, 0, 5]⟩) 1 = some r ∧ (hAlloc r.map true).2 = 1 :=
  hFree_hAlloc_reuse ⟨3, [7, 3, 0, 5]⟩ 1 (by decide) ⟨3, by decide, by decide⟩
    (fun j h0 h1 => by
      have hj : j = 0 := by omega
      subst hj
      exact ⟨7, by decide, by decide⟩)

/-- C7, as stated, fails on a full table: the 16 slots of the block are all in use,
the handle allocation grows the list to 32 slots, the payload allocation fails,
and after the roll-back `used` is 16 again but the capacity is 32, not 16.  It
also fails on a present block with no handle in use: the roll-back brings `used`
back to 0 and `hFree` releases the block. -/
theorem hAllocEntry_rollback_keeps_growth :
    hAllocEntry (some ⟨16, List.replicate 16 1⟩) 0 1 true 0 =
      some ⟨some ⟨16, List.replicate 16 1 ++ List.replicate 16 0⟩, 0, -1, [Check.slotInUse]⟩ ∧
    (HTable.mk 16 (List.replicate 16 1)).len = 16 ∧
    (HTable.mk 16 (List.replicate 16 1 ++ List.replicate 16 0)).len = 32 ∧
    hAllocEntry (some ⟨0, List.replicate 16 0⟩) 0 1 true 0 =
      some ⟨none, 0, -1, [Check.slotInUse]⟩ := by
  decide

/-- C7, amended (P5, roll-back): for a table that is absent, or present with
`used ≥ 1`, and every `size > 0`, when the handle allocation succeeds and the
payload allocation fails, `hAllocEntry` returns -1 and leaves `*max` alone; an
absent table is absent again; every present table is present afterwards with the
`used` it had and with its old slots, or its old slots followed by 16 empty ones;
a present table with `used < capacity` and an empty slot is exactly as it was; a
present table with `used == capacity` has its old `used` and its old slot values,
and 16 more slots, all empty. -/
theorem hAllocEntry_rollback (list : Option HTable) (max size : Int) (ok : Bool)
    (hsize : 0 < size) (hused : ∀ t, list = some t → 1 ≤ t.used)
    (halloc : 0 ≤ (hAlloc list ok).2) :
    ∃ r, hAllocEntry list max size ok 0 = some r ∧ r.ret = -1 ∧ r.max = max ∧
      (list = none → r.list = none) ∧
      (∀ t, list = some t → ∃ t1, r.list = some t1 ∧ t1.used = t.used ∧
        (t1.slots = t.slots ∨ t1.slots = t.slots ++ List.replicate H_INCR 0)) ∧
      (∀ t, list = some t → t.used < t.len → (∃ i, slotAt (some t) i = some 0) →
        r.list = some t) ∧
      (∀ t, list = some t → t.used = t.len →
        r.list = some ⟨t.used, t.slots ++ List.replicate H_INCR 0⟩) := by
  cases list with
  | none =>
    cases ok with
    | false => exact absurd halloc (by decide)
    | true =>
      refine ⟨⟨none, max, -1, [Check.slotInUse]⟩, ?_, rfl, rfl, fun _ => rfl, ?_, ?_, ?_⟩
      · have hA : hAlloc none true = (some ⟨1, List.replicate 16 0⟩, 0) := rfl
        have hF : hFree (some ⟨1, List.replicate 16 0⟩) 0 =
            some ⟨none, 0, [Check.slotInUse]⟩ := by decide
        unfold hAllocEntry
        simp only [hA]
        rw [if_neg (by decide), if_pos ⟨hsize, trivial⟩, hF]
      · intro t ht; cases ht
      · intro t ht; cases ht
      · intro t ht; cases ht
  | some t =>
    have hu : t.used ≠ 0 := by have := hused t rfl; omega
    have hA : hAlloc (some t) ok = hAllocFrom t ok := rfl
    rcases hAllocFrom_cases t ok with ⟨h1, _⟩ | ⟨n, h1, hz, _, hlt⟩ | ⟨h1, _, hall⟩
    · rw [hA, h1] at halloc
      have hneg : (0 : Int) ≤ -1 := halloc
      omega
    · obtain ⟨r, hfree, hmap⟩ := hFree_empty_slot t.used t.slots n hz hu
      refine ⟨⟨r.map, max, -1, r.failed⟩, ?_, rfl, rfl, ?_, ?_, ?_, ?_⟩
      · simp [hAllocEntry, hA, h1, hsize, hfree]
      · intro h; cases h
      · intro t2 ht
        cases ht
        exact ⟨t, hmap, rfl, Or.inl rfl⟩
      · intro t2 ht _ _
        cases ht
        exact hmap
      · intro t2 ht hfull
        cases ht
        omega
    · obtain ⟨r, hfree, hmap⟩ := hFree_empty_slot t.used _ _ (getElem?_append_zeros t.slots) hu
      refine ⟨⟨r.map, max, -1, r.failed⟩, ?_, rfl, rfl, ?_, ?_, ?_, ?_⟩
      · simp [hAllocEntry, hA, h1, hsize, hfree]
      · intro h; cases h
      · intro t2 ht
        cases ht
        exact ⟨_, hmap, rfl, Or.inr rfl⟩
      · intro t2 ht hlt hex
        cases ht
        obtain ⟨i, hi⟩ := hex
        obtain ⟨m, -, hm⟩ := slotAt_some_iff.mp hi
        exact absurd rfl (hall hlt 0 (List.mem_iff_getElem?.mpr ⟨m, hm⟩))
      · intro t2 ht _
        cases ht
        exact hmap

/-- Witness for C7 (amended): the roll-back on the block `[7, 0, 5, 0]`. -/
theorem hAllocEntry_rollback_witness :
    ∃ r, hAllocEntry (some ⟨2, [7, 0, 5, 0]⟩) 3 8 false 0 = some r ∧ r.ret = -1 ∧ r.max = 3 ∧
      ((some (HTable.mk 2 [7, 0, 5, 0]) : Option HTable) = none → r.list = none) ∧
      (∀ t, some (HTable.mk 2 [7, 0, 5, 0]) = some t → ∃ t1, r.list = some t1 ∧
        t1.used = t.used ∧
        (t1.slots = t.slots ∨ t1.slots = t.slots ++ List.replicate H_INCR 0)) ∧
      (∀ t, some (HTable.mk 2 [7, 0, 5, 0]) = some t → t.used < t.len →
        (∃ i, slotAt (some t) i = some 0) → r.list = some t) ∧
      (∀ t, some (HTable.mk 2 [7, 0, 5, 0]) = some t → t.used = t.len →
        r.list = some ⟨t.used, t.slots ++ List.replicate H_INCR 0⟩) :=
  hAllocEntry_rollback (some ⟨2, [7, 0, 5, 0]⟩) 3 8 false (by decide)
    (fun t ht => by cases ht; decide) (by decide)

/-- C8 (failure atomicity of `hAlloc`): when the memory request fails, for an absent
table or for growing a full one, `hAlloc` returns -1 and the table is exactly as
before; whenever `hAlloc` returns a negative value it is -1, the request was
refused and the table is as before; every other return is a handle `≥ 0`, and
`hAlloc` always succeeds when the request is granted. -/
theorem hAlloc_failure_atomic (map : Option HTable) (ok : Bool) :
    ((map = none ∨ ∃ t, map = some t ∧ t.used = t.len) → hAlloc map false = (map, -1)) ∧
    ((hAlloc map ok).2 < 0 → hAlloc map ok = (map, -1) ∧ ok = false) ∧
    ((hAlloc map ok).2 ≠ -1 → 0 ≤ (hAlloc map ok).2) ∧
    0 ≤ (hAlloc map true).2 := by
  have key : ∀ (t : HTable) (b : Bool),
      (hAllocFrom t b = (some t, -1) ∧ b = false) ∨ 0 ≤ (hAllocFrom t b).2 := by
    intro t b
    rcases hAllocFrom_cases t b with h | ⟨n, h1, _⟩ | ⟨h1, _⟩
    · exact Or.inl h
    · right; rw [h1]; exact Int.ofNat_nonneg n
    · right; rw [h1]; exact Int.ofNat_nonneg _
  have key2 : ∀ (m : Option HTable) (b : Bool),
      (hAlloc m b = (m, -1) ∧ b = false) ∨ 0 ≤ (hAlloc m b).2 := by
    intro m b
    cases m with
    | none =>
      cases b with
      | false => left; exact ⟨rfl, rfl⟩
      | true => right; decide
    | some t => exact key t b
  refine ⟨?_, ?_, ?_, ?_⟩
  · rintro (rfl | ⟨t, rfl, hfull⟩)
    · rfl
    · have hnlt : ¬ t.used < t.len := by omega
      simp [hAlloc, hAllocFrom, hnlt]
  · intro hneg
    rcases key2 map ok with h | h
    · exact h
    · omega
  · intro hne
    rcases key2 map ok with ⟨h, _⟩ | h
    · rw [h] at hne; exact absurd rfl hne
    · exact h
  · rcases key2 map true with ⟨_, h⟩ | h
    · cases h
    · exact h

/-- Witness for C8: growing the full block `[7, 8]` is refused. -/
theorem hAlloc_failure_atomic_witness :
    hAlloc (some ⟨2, [7, 8]⟩) false = (some ⟨2, [7, 8]⟩, -1) :=
  (hAlloc_failure_atomic (some ⟨2, [7, 8]⟩) false).1 (Or.inr ⟨_, rfl, by decide⟩)

/-- C9 (update of `*max`): `hAllocEntry` always returns; it returns -1 or a handle
`id ≥ 0`; when it returns a handle, the new `*max` is the maximum of the old
`*max` and `id + 1`, so `id` is below it; when it returns -1, `*max` is unchanged. -/
theorem hAllocEntry_max (list : Option HTable) (max size : Int) (ok : Bool) (cp : Int) :
    ∃ r, hAllocEntry list max size ok cp = some r ∧
      (r.ret = -1 ∨ 0 ≤ r.ret) ∧
      (0 ≤ r.ret → r.max = Max.max max (r.ret + 1) ∧ r.ret < r.max) ∧
      (r.ret = -1 → r.max = max) := by
  rcases hAlloc_cases list ok with ⟨hA, _⟩ | ⟨t1, n, hA, hz, _, _, _⟩
  · refine ⟨⟨list, max, -1, []⟩, ?_, Or.inl rfl, ?_, fun _ => rfl⟩
    · simp [hAllocEntry, hA]
    · intro h
      have : (0 : Int) ≤ -1 := h
      omega
  · have hn : n < t1.slots.length := (List.getElem?_eq_some_iff.mp hz).1
    have hr : (0 : Int) ≤ (n : Int) ∧ (n : Int) < t1.len := by
      unfold HTable.len; omega
    have hnn : ¬ (n : Int) < 0 := by omega
    by_cases hfail : 0 < size ∧ cp = 0
    · obtain ⟨log, hfree0⟩ := hFree_in_range t1 n hn
      obtain ⟨r, hfree⟩ : ∃ r, hFree (some t1) (n : Int) = some r := ⟨_, hfree0⟩
      refine ⟨⟨r.map, max, -1, r.failed⟩, ?_, Or.inl rfl, ?_, fun _ => rfl⟩
      · unfold hAllocEntry
        simp only [hA, hnn, if_false, hfail, and_self, if_true, hfree]
      · intro h
        have : (0 : Int) ≤ -1 := h
        omega
    · have hset : (if 0 < size then setSlot (some t1) (n : Int) cp else some (some t1)) =
          some (if 0 < size then some ⟨t1.used, t1.slots.set n cp⟩ else some t1) := by
        by_cases hs : 0 < size
        · simp only [hs, if_true, setSlot, hr, and_self, Int.toNat_ofNat]
        · simp only [hs, if_false]
      refine ⟨⟨if 0 < size then some ⟨t1.used, t1.slots.set n cp⟩ else some t1,
        if (n : Int) ≥ max then (n : Int) + 1 else max, (n : Int), []⟩, ?_, Or.inr ?_, ?_, ?_⟩
      · unfold hAllocEntry
        simp only [hA, hnn, if_false, hfail, hset]
      · exact Int.ofNat_nonneg n
      · intro _
        show (if (n : Int) ≥ max then (n : Int) + 1 else max) = Max.max max ((n : Int) + 1) ∧
          (n : Int) < (if (n : Int) ≥ max then (n : Int) + 1 else max)
        by_cases hm : (n : Int) ≥ max
        · rw [if_pos hm]
          exact ⟨(max_eq_right (by omega)).symm, by omega⟩
        · rw [if_neg hm]
          exact ⟨(max_eq_left (by omega)).symm, by omega⟩
      · intro h
        have : (n : Int) = -1 := h
        omega

/-- C2, as stated, fails: `hAlloc` leaves the slot of the handle it returns empty, so
two consecutive successful calls from the absent table both return handle 0,
on the `HTable` and on the words of the block alike.  And where a pointer is two
`int` words wide (`pw = 2`), the caller's store does not reach the word `hAlloc`
scans: three filled allocations from the absent table return 0, 1, 1. -/
theorem hAlloc_twice_same_handle :
    hAlloc none true = (some ⟨1, List.replicate 16 0⟩, 0) ∧
    hAlloc (some ⟨1, List.replicate 16 0⟩) true = (some ⟨2, List.replicate 16 0⟩, 0) ∧
    Mem.hAlloc 2 none (some []) = some (some (16 :: 1 :: List.replicate 34 0), 0) ∧
    Mem.hAlloc 2 (some (16 :: 1 :: List.replicate 34 0)) (some []) =
      some (some (16 :: 2 :: List.replicate 34 0), 0) ∧
    Mem.storeRun 2 none [7, 8, 9] =
      some (some (16 :: 3 :: 7 :: 0 :: 9 :: 0 :: List.replicate 30 0), [0, 1, 1]) := by
  decide

/-- C2, amended (P1, uniqueness): where `int` and `void*` have the same width
(`pw = 1`), starting from the absent table, `n` consecutive successful `hAlloc`
calls with no `hFree` in between, where the caller stores a non-empty value in
the slot of each returned handle before the next call, all return, and the `n`
handles are pairwise distinct. -/
theorem hAlloc_unique_when_filled (vs : List Int) (hvs : ∀ v ∈ vs, v ≠ 0) :
    ∃ (m : Option (List Int)) (ids : List Int), Mem.storeRun 1 none vs = some (m, ids) ∧
      ids.length = vs.length ∧ ids.Nodup := by
  obtain ⟨m, ids, hrun, hlen, hnd, -⟩ := hAllocStoreRun_spec vs hvs none
  have h := storeRun_agree vs none
  rw [hrun] at h
  exact ⟨m.map Mem.encode, ids, h, hlen, hnd⟩

/-- Witness for C2 (amended): three allocations filled with 7, 8 and 9. -/
theorem hAlloc_unique_when_filled_witness :
    ∃ (m : Option (List Int)) (ids : List Int), Mem.storeRun 1 none [7, 8, 9] = some (m, ids) ∧
      ids.length = [(7 : Int), 8, 9].length ∧ ids.Nodup :=
  hAlloc_unique_when_filled [7, 8, 9] (by decide)

/-- C10, as stated, fails: after the first `hAlloc` from the absent table `used` is 1
and no slot is occupied.  And where a pointer is two `int` words wide
(`pw = 2`), three allocations whose slot the caller fills leave `mp[H_USED] = 3`
with two slots set: the third store goes to the slot of the second. -/
theorem hAlloc_used_exceeds_occupied :
    hAlloc none true = (some ⟨1, List.replicate 16 0⟩, 0) ∧
    (HTable.mk 1 (List.replicate 16 0)).used = 1 ∧
    occupiedCount (HTable.mk 1 (List.replicate 16 0)).slots = 0 ∧
    Mem.storeRun 2 none [7, 8, 9] =
      some (some (16 :: 3 :: 7 :: 0 :: 9 :: 0 :: List.replicate 30 0), [0, 1, 1]) ∧
    occupiedCount (7 :: 0 :: 9 :: 0 :: List.replicate 30 0) = 2 := by
  decide

/-- On the `HTable`: in every map of `Reachable`, a present table has `used` equal to
the number of occupied slots. -/
theorem reachable_used_is_occupied (m : Option HTable) (hm : Reachable m) (t : HTable)
    (ht : m = some t) : t.used = (occupiedCount t.slots : Int) := by
  induction hm generalizing t with
  | absent => cases ht
  | @alloc m0 m1 v id _ hv hstore ih =>
    obtain ⟨t2, n, hstore2, -, -, -, hnone, hsome⟩ := hAllocStore_spec m0 v hv
    rw [hstore2] at hstore
    have h1 : some t2 = m1 := congrArg Prod.fst (Option.some.inj hstore)
    rw [ht] at h1
    cases h1
    cases m0 with
    | none =>
      obtain ⟨h1, h2⟩ := hnone rfl
      rw [h1, h2]; rfl
    | some t0 =>
      obtain ⟨h1, h2⟩ := hsome t0 rfl
      rw [h1, h2, ih t0 rfl]
      push_cast; rfl
  | @allocFailed m0 _ hfail ih =>
    rcases hAlloc_cases m0 false with ⟨hA, _⟩ | ⟨t1, n, hA, _⟩
    · rw [hA] at ht
      exact ih t ht
    · rw [hA] at hfail
      have : (n : Int) = -1 := hfail
      omega
  | @free m0 h r _ hocc hfree ih =>
    cases m0 with
    | none => exact absurd hocc (not_occupied_none h)
    | some t0 =>
      obtain ⟨n, w, rfl, hw, hne⟩ := occupied_iff.mp hocc
      have hn : n < t0.slots.length := (List.getElem?_eq_some_iff.mp hw).1
      have hcnt := occupiedCount_set_zero hw hne
      have hinv := ih t0 rfl
      obtain ⟨log, hfree2⟩ := hFree_in_range t0 n hn
      rw [hfree2] at hfree
      by_cases h0 : t0.used - 1 = 0
      · rw [if_pos h0] at hfree
        rw [← Option.some.inj hfree] at ht
        cases ht
      · rw [if_neg h0] at hfree
        rw [← Option.some.inj hfree] at ht
        have ht2 : (⟨t0.used - 1, t0.slots.set n 0⟩ : HTable) = t := Option.some.inj ht
        rw [← ht2]
        show t0.used - 1 = (occupiedCount (t0.slots.set n 0) : Int)
        omega

/-- Where a pointer is one word wide, every block reachable on the words of the block
is the block of a map reachable on the `HTable`. -/
theorem mem_reachable_encode {m : Option (List Int)} (hm : Mem.Reachable 1 m) :
    ∃ m0 : Option HTable, Reachable m0 ∧ m = m0.map Mem.encode := by
  induction hm with
  | absent => exact ⟨none, Reachable.absent, rfl⟩
  | @alloc m m1 junk v id _ hv hstore ih =>
    obtain ⟨m0, hreach, rfl⟩ := ih
    rw [hAllocStore_agree] at hstore
    obtain ⟨x, hx, hpair⟩ := Option.map_eq_some'.mp hstore
    have h1 : x.1.map Mem.encode = m1 := congrArg Prod.fst hpair
    refine ⟨x.1, Reachable.alloc hreach hv (show hAllocStore m0 v = some (x.1, x.2) from hx),
      h1.symm⟩
  | @allocFailed m r _ halloc hret ih =>
    obtain ⟨m0, hreach, rfl⟩ := ih
    rw [hAlloc_agree] at halloc
    have hr := Option.some.inj halloc
    rw [← hr] at hret ⊢
    exact ⟨_, Reachable.allocFailed hreach hret, rfl⟩
  | @free m mp h len w r _ hmp hlen h0 h1 hw hne hfree ih =>
    obtain ⟨m0, hreach, rfl⟩ := ih
    cases m0 with
    | none => cases hmp
    | some t =>
      have hmp2 : Mem.encode t = mp := Option.some.inj hmp
      subst hmp2
      rw [rd_encode_len] at hlen
      have hlen2 : t.len = len := Option.some.inj hlen
      subst hlen2
      obtain ⟨n, rfl⟩ : ∃ n : Nat, h = (n : Int) := ⟨h.toNat, (Int.toNat_of_nonneg h0).symm⟩
      have hn : n < t.slots.length := by unfold HTable.len at h1; omega
      rw [rd_encode_slot] at hw
      have hocc : Occupied (some t) (n : Int) := occupied_iff.mpr ⟨n, w, rfl, hw, hne⟩
      have hfree2 : Mem.hFree (some (Mem.encode t)) (n : Int) = some r := hfree
      rw [hFree_agree t n hn] at hfree2
      obtain ⟨r0, hr0, hr⟩ := Option.map_eq_some'.mp hfree2
      refine ⟨r0.map, Reachable.free hreach hocc hr0, ?_⟩
      rw [← hr]
      rfl

/-- C10, amended (`used` equals occupied): where `int` and `void*` have the same width
(`pw = 1`), starting from the absent table, after every step that is a
successful `hAlloc` followed by the caller storing a non-empty value in the
returned slot, a failed `hAlloc`, or `hFree` of an in-range handle whose slot is
occupied, a present table has `used` equal to the number of occupied slots: its
block is the head `mp[H_LEN]`, `mp[H_USED]` and the slot words of a table `t` with
`t.used` equal to the number of non-zero slot words. -/
theorem used_eq_occupied (m : Option (List Int)) (hm : Mem.Reachable 1 m) (mp : List Int)
    (hmp : m = some mp) :
    ∃ t : HTable, mp = Mem.encode t ∧ t.used = (occupiedCount t.slots : Int) := by
  obtain ⟨m0, hreach, hm0⟩ := mem_reachable_encode hm
  cases m0 with
  | none => rw [hm0] at hmp; cases hmp
  | some t =>
    rw [hm0] at hmp
    exact ⟨t, (Option.some.inj hmp).symm, reachable_used_is_occupied (some t) hreach t rfl⟩

/-- Witness for C10 (amended): the block after the first handle is allocated and filled. -/
theorem used_eq_occupied_witness :
    ∃ t : HTable, (16 :: 1 :: 5 :: List.replicate 15 0) = Mem.encode t ∧
      t.used = (occupiedCount t.slots : Int) :=
  used_eq_occupied (some (16 :: 1 :: 5 :: List.replicate 15 0))
    (@Mem.Reachable.alloc 1 none (some (16 :: 1 :: 5 :: List.replicate 15 0)) [] 5 0
      Mem.Reachable.absent (by decide) (by decide))
    (16 :: 1 :: 5 :: List.replicate 15 0) rfl

/-- C18 (frame of `hFree`): on a present table with `used ≥ 2`, after `hFree` of an
in-range occupied handle `h` the table is still present, slot `h` is empty, every
other slot holds the value it held before, the capacity is unchanged and `used`
is exactly one less. -/
theorem hFree_frame (t : HTable) (h : Int) (hused : 2 ≤ t.used)
    (hocc : Occupied (some t) h) :
    ∃ (r : FreeResult) (t1 : HTable), hFree (some t) h = some r ∧ r.map = some t1 ∧
      slotAt (some t1) h = some 0 ∧
      (∀ i, i ≠ h → slotAt (some t1) i = slotAt (some t) i) ∧
      t1.len = t.len ∧ t1.used = t.used - 1 := by
  obtain ⟨n, w, rfl, hw, -⟩ := occupied_iff.mp hocc
  have hn : n < t.slots.length := (List.getElem?_eq_some_iff.mp hw).1
  obtain ⟨log, hfree⟩ := hFree_in_range t n hn
  rw [if_neg (by omega)] at hfree
  refine ⟨_, ⟨t.used - 1, t.slots.set n 0⟩, hfree, rfl, slotAt_set_same hn, ?_, ?_, rfl⟩
  · intro i hi
    exact slotAt_set_ne hi
  · simp [HTable.len]

/-- Witness for C18: handle 2 of `[7, 0, 5, 0]` is freed. -/
theorem hFree_frame_witness :
    ∃ (r : FreeResult) (t1 : HTable), hFree (some ⟨2, [7, 0, 5, 0]⟩) 2 = some r ∧
      r.map = some t1 ∧ slotAt (some t1) 2 = some 0 ∧
      (∀ i, i ≠ 2 → slotAt (some t1) i = slotAt (some ⟨2, [7, 0, 5, 0]⟩) i) ∧
      t1.len = (HTable.mk 2 [7, 0, 5, 0]).len ∧ t1.used = (HTable.mk 2 [7, 0, 5, 0]).used - 1 :=
  hFree_frame ⟨2, [7, 0, 5, 0]⟩ 2 (by decide) ⟨5, by decide, by decide⟩

/-- C19 (slot frame of `hAlloc`): a successful `hAlloc` writes no slot that existed
before the call: every slot below the old capacity has the value it had, and the
slot of the returned handle is empty in the resulting table; `used` grows by one,
and the slots are the old ones, or the old ones followed by 16 empty ones. -/
theorem hAlloc_slot_frame (map : Option HTable) (ok : Bool)
    (hsucc : 0 ≤ (hAlloc map ok).2) :
    ∃ t1 : HTable, (hAlloc map ok).1 = some t1 ∧
      slotAt (some t1) (hAlloc map ok).2 = some 0 ∧
      (map = none → t1.used = 1 ∧ t1.slots = List.replicate 16 0) ∧
      (∀ t, map = some t →
        (∀ i, 0 ≤ i → i < t.len → slotAt (some t1) i = slotAt (some t) i) ∧
        t1.used = t.used + 1 ∧
        (t1.slots = t.slots ∨ t1.slots = t.slots ++ List.replicate 16 0)) := by
  cases map with
  | none =>
    cases ok with
    | false =>
      have : (0 : Int) ≤ -1 := hsucc
      omega
    | true =>
      exact ⟨⟨1, List.replicate 16 0⟩, rfl, rfl, fun _ => ⟨rfl, rfl⟩, fun t ht => by cases ht⟩
  | some t =>
    have hA : hAlloc (some t) ok = hAllocFrom t ok := rfl
    rw [hA] at hsucc ⊢
    rcases hAllocFrom_cases t ok with ⟨h1, _⟩ | ⟨n, h1, hz, _, _⟩ | ⟨h1, _, _⟩
    · rw [h1] at hsucc
      have : (0 : Int) ≤ -1 := hsucc
      omega
    · rw [h1]
      refine ⟨_, rfl, slotAt_some_iff.mpr ⟨n, rfl, hz⟩, (fun h => by cases h), ?_⟩
      intro t2 ht
      cases ht
      exact ⟨fun i _ _ => rfl, rfl, Or.inl rfl⟩
    · rw [h1]
      refine ⟨_, rfl, slotAt_some_iff.mpr ⟨t.slots.length, rfl, getElem?_append_zeros t.slots⟩,
        (fun h => by cases h), ?_⟩
      intro t2 ht
      cases ht
      exact ⟨fun i h0 h1 => slotAt_append_left h0 h1, rfl, Or.inr rfl⟩

/-- Witness for C19: `hAlloc` on the block `[7, 0, 5, 0]`. -/
theorem hAlloc_slot_frame_witness :
    ∃ t1 : HTable, (hAlloc (some ⟨2, [7, 0, 5, 0]⟩) true).1 = some t1 ∧
      slotAt (some t1) (hAlloc (some ⟨2, [7, 0, 5, 0]⟩) true).2 = some 0 ∧
      ((some (HTable.mk 2 [7, 0, 5, 0]) : Option HTable) = none →
        t1.used = 1 ∧ t1.slots = List.replicate 16 0) ∧
      (∀ t, some (HTable.mk 2 [7, 0, 5, 0]) = some t →
        (∀ i, 0 ≤ i → i < t.len → slotAt (some t1) i = slotAt (some t) i) ∧
        t1.used = t.used + 1 ∧
        (t1.slots = t.slots ∨ t1.slots = t.slots ++ List.replicate 16 0)) :=
  hAlloc_slot_frame (some ⟨2, [7, 0, 5, 0]⟩) true (by decide)

/-- C17 (shortcut equivalence): on a present table with `1 ≤ used ≤ capacity` and an
in-range occupied handle, `hFree` returns the same value and leaves the same
table as the reference that always runs the reverse scan; the branch of line 113
is not taken, and the returned mark lies in `[0, capacity]`.  Only the upper
bound `used ≤ capacity` is needed. -/
theorem hFree_eq_hFreeRef (t : HTable) (h : Int) (hhi : t.used ≤ t.len)
    (hocc : Occupied (some t) h) :
    ∃ r, hFree (some t) h = some r ∧ hFreeRef (some t) h = some r ∧
      hFreeTakesShortcut t = false ∧ 0 ≤ r.ret ∧ r.ret ≤ t.len := by
  obtain ⟨n, w, rfl, hw, -⟩ := occupied_iff.mp hocc
  have hn : n < t.slots.length := (List.getElem?_eq_some_iff.mp hw).1
  have hr : (0 : Int) ≤ (n : Int) ∧ (n : Int) < t.len := by
    unfold HTable.len; omega
  have hshort : hFreeTakesShortcut t = false := by
    unfold hFreeTakesShortcut
    exact decide_eq_false (fun hc => hc.2 (by omega))
  obtain ⟨log, hfree⟩ := hFree_in_range t n hn
  have href : hFreeRef (some t) (n : Int) = hFree (some t) (n : Int) := by
    unfold hFreeRef hFree
    simp only [hr, and_self, if_true, Int.toNat_ofNat]
    by_cases h0 : t.used - 1 = 0
    · simp [h0]
    · have hlt : t.used - 1 < (t.slots.length : Int) := by unfold HTable.len at hhi; omega
      simp [h0, HTable.len, hlt]
  rw [href]
  by_cases h0 : t.used - 1 = 0
  · rw [if_pos h0] at hfree
    refine ⟨_, hfree, hfree, hshort, le_refl _, ?_⟩
    show (0 : Int) ≤ t.len
    unfold HTable.len; omega
  · rw [if_neg h0, if_pos (by omega)] at hfree
    have hb := scanDown_bounds (t.slots.set n 0) t.slots.length
    refine ⟨_, hfree, hfree, hshort, ?_, ?_⟩
    · show 0 ≤ scanDown (t.slots.set n 0) t.slots.length + 1
      omega
    · show scanDown (t.slots.set n 0) t.slots.length + 1 ≤ t.len
      unfold HTable.len; omega

/-- Witness for C17: freeing handle 0 of a full block of four slots. -/
theorem hFree_eq_hFreeRef_witness :
    ∃ r, hFree (some ⟨4, [7, 8, 5, 6]⟩) 0 = some r ∧ hFreeRef (some ⟨4, [7, 8, 5, 6]⟩) 0 = some r ∧
      hFreeTakesShortcut ⟨4, [7, 8, 5, 6]⟩ = false ∧ 0 ≤ r.ret ∧
      r.ret ≤ (HTable.mk 4 [7, 8, 5, 6]).len :=
  hFree_eq_hFreeRef ⟨4, [7, 8, 5, 6]⟩ 0 (by decide) ⟨7, by decide, by decide⟩

/-- C14, as stated, fails for a handle outside `[0, capacity)`: `hFree` has no check
of `handle` against `mp[H_LEN]`.  On the block of capacity 16 with handle 0 in use
(`used = 1`, slot 0 holding 7), `hFree(map, -1)` takes `mp[H_USED]` for the slot:
all three checks pass, nothing is reported, the word is zeroed and decremented,
and the call returns 1 with the block kept and `used = -1`. -/
theorem hFree_no_range_check :
    Mem.hFree (some (Mem.encode ⟨1, 7 :: List.replicate 15 0⟩)) (-1) =
      some ⟨some (16 :: -1 :: 7 :: List.replicate 15 0), 1, []⟩ ∧
    Mem.rd (Mem.encode ⟨1, 7 :: List.replicate 15 0⟩) H_LEN = some 16 ∧
    Mem.rd (Mem.encode ⟨1, 7 :: List.replicate 15 0⟩) H_USED = some 1 := by
  decide

/-- C14, amended (precondition errors of `hFree`): on a present table and a handle in
`[0, capacity)`, `hFree` has a result; it reports the slot check exactly when the
slot is already empty, and the `used` check exactly when `used == 0`; it is no
no-op: the slot is zeroed and `used` decremented all the same, the block being
released when `used` reaches 0. -/
theorem hFree_reports_violation (t : HTable) (h : Int) (hr : 0 ≤ h ∧ h < t.len) :
    ∃ r, hFree (some t) h = some r ∧
      (Check.slotInUse ∈ r.failed ↔ slotAt (some t) h = some 0) ∧
      (Check.usedNonZero ∈ r.failed ↔ t.used = 0) ∧
      (t.used - 1 = 0 → r.map = none) ∧
      (t.used - 1 ≠ 0 → r.map = some ⟨t.used - 1, t.slots.set h.toNat 0⟩) := by
  obtain ⟨h0, h1⟩ := hr
  obtain ⟨n, rfl⟩ : ∃ n : Nat, h = (n : Int) := ⟨h.toNat, (Int.toNat_of_nonneg h0).symm⟩
  have hn : n < t.slots.length := by unfold HTable.len at h1; omega
  have hr : (0 : Int) ≤ (n : Int) ∧ (n : Int) < t.len := ⟨h0, h1⟩
  have hget : t.slots[n]? = some t.slots[n] := List.getElem?_eq_getElem hn
  have hslot : slotAt (some t) (n : Int) = some t.slots[n] :=
    slotAt_some_iff.mpr ⟨n, rfl, hget⟩
  have hgetD : t.slots.getD n 0 = t.slots[n] := getD_of_getElem? hget
  have hfree : hFree (some t) (n : Int) = some
      (if t.used - 1 = 0 then
        ⟨none, 0, a_assert (decide (t.used ≠ 0)) Check.usedNonZero
          (a_assert (decide (t.slots.getD n 0 ≠ 0)) Check.slotInUse
            (a_assert (decide (t.len ≥ (H_INCR : Int))) Check.lenAtLeastIncr []))⟩
       else
        ⟨some ⟨t.used - 1, t.slots.set n 0⟩,
          (if t.used - 1 < t.len then scanDown (t.slots.set n 0) t.slots.length else t.len) + 1,
          a_assert (decide (t.used ≠ 0)) Check.usedNonZero
          (a_assert (decide (t.slots.getD n 0 ≠ 0)) Check.slotInUse
            (a_assert (decide (t.len ≥ (H_INCR : Int))) Check.lenAtLeastIncr []))⟩) := by
    unfold hFree
    simp only [hr, and_self, if_true, Int.toNat_ofNat]
    by_cases hz : t.used - 1 = 0
    · simp [hz]
    · simp [hz, HTable.len]
  have hlog1 : Check.slotInUse ∈ a_assert (decide (t.used ≠ 0)) Check.usedNonZero
          (a_assert (decide (t.slots.getD n 0 ≠ 0)) Check.slotInUse
            (a_assert (decide (t.len ≥ (H_INCR : Int))) Check.lenAtLeastIncr [])) ↔
      t.slots[n] = 0 := by
    rw [hgetD]
    unfold a_assert
    by_cases c1 : t.len ≥ (H_INCR : Int) <;> by_cases c2 : t.slots[n] = 0 <;>
      by_cases c3 : t.used = 0 <;> simp [c1, c2, c3]
  have hlog2 : Check.usedNonZero ∈ a_assert (decide (t.used ≠ 0)) Check.usedNonZero
          (a_assert (decide (t.slots.getD n 0 ≠ 0)) Check.slotInUse
            (a_assert (decide (t.len ≥ (H_INCR : Int))) Check.lenAtLeastIncr [])) ↔
      t.used = 0 := by
    rw [hgetD]
    unfold a_assert
    by_cases c1 : t.len ≥ (H_INCR : Int) <;> by_cases c2 : t.slots[n] = 0 <;>
      by_cases c3 : t.used = 0 <;> simp [c1, c2, c3]
  have hs : slotAt (some t) (n : Int) = some 0 ↔ t.slots[n] = 0 := by
    rw [hslot]
    exact ⟨fun hh => Option.some.inj hh, fun hh => by rw [hh]⟩
  by_cases hz : t.used - 1 = 0
  · rw [if_pos hz] at hfree
    exact ⟨_, hfree, hlog1.trans hs.symm, hlog2, fun _ => rfl, fun hne => absurd hz hne⟩
  · rw [if_neg hz] at hfree
    refine ⟨_, hfree, hlog1.trans hs.symm, hlog2, fun he => absurd he hz, fun _ => ?_⟩
    simp only [Int.toNat_ofNat]

/-- Witness for C14 (amended): `hFree` of the empty slot 1 of `[7, 0, 5, 0]`. -/
theorem hFree_reports_violation_witness :
    ∃ r, hFree (some ⟨2, [7, 0, 5, 0]⟩) 1 = some r ∧
      (Check.slotInUse ∈ r.failed ↔ slotAt (some ⟨2, [7, 0, 5, 0]⟩) 1 = some 0) ∧
      (Check.usedNonZero ∈ r.failed ↔ (HTable.mk 2 [7, 0, 5, 0]).used = 0) ∧
      ((HTable.mk 2 [7, 0, 5, 0]).used - 1 = 0 → r.map = none) ∧
      ((HTable.mk 2 [7, 0, 5, 0]).used - 1 ≠ 0 →
        r.map = some ⟨(HTable.mk 2 [7, 0, 5, 0]).used - 1,
          (HTable.mk 2 [7, 0, 5, 0]).slots.set (1 : Int).toNat 0⟩) :=
  hFree_reports_violation ⟨2, [7, 0, 5, 0]⟩ 1 (by decide)

/-- C11, as stated, fails for a handle below the slots: `hFree` has no check of
`handle` against `mp[H_LEN]`.  The table `hAlloc` creates from the absent state
has `used = 1`; `hFree(map, -1)` on it reads `mp[H_USED]` as the slot, zeroes it
and decrements it, and the table stays present with `used = -1`. -/
theorem hFree_minus_one_breaks_bounds :
    Mem.hAlloc 1 none (some []) = some (some (Mem.encode ⟨1, List.replicate 16 0⟩), 0) ∧
    Mem.hFree (some (Mem.encode ⟨1, List.replicate 16 0⟩)) (-1) =
      some ⟨some (16 :: -1 :: List.replicate 16 0), 0, []⟩ ∧
    Mem.hAlloc 2 none (some []) = some (some (16 :: 1 :: List.replicate 34 0), 0) ∧
    Mem.hFree (some (16 :: 1 :: List.replicate 34 0)) (-1) =
      some ⟨some (16 :: -1 :: List.replicate 34 0), 0, []⟩ := by
  decide

/-- C11, amended (bounds invariant): `0 ≤ used ≤ capacity` on a present table is kept
by every successful `hAlloc`, and by every `hFree` called with a handle in
`[0, capacity)` and `used ≥ 1` (such a call always has a result); it holds for the
table `hAlloc` creates from the absent state; and it holds in every state
reachable from the absent table by calls of `hAlloc`, of `hFree` with a handle in
`[0, capacity)`, of `hAllocEntry`, and by stores into slots.  The last part is
proved on the `HTable` and, for a pointer of any width `pw ≥ 1`, on the words of
the block, where every such call on a reachable state has a result. -/
theorem used_bounds_invariant :
    (∀ (t : HTable) (ok : Bool), 0 ≤ t.used → t.used ≤ t.len →
      0 ≤ (hAlloc (some t) ok).2 →
      ∃ t1, (hAlloc (some t) ok).1 = some t1 ∧ 0 ≤ t1.used ∧ t1.used ≤ t1.len) ∧
    (∀ (t : HTable) (h : Int), 0 ≤ t.used → t.used ≤ t.len → 1 ≤ t.used →
      0 ≤ h → h < t.len →
      ∃ r, hFree (some t) h = some r ∧
        ∀ t1, r.map = some t1 → 0 ≤ t1.used ∧ t1.used ≤ t1.len) ∧
    (∃ t1, (hAlloc none true).1 = some t1 ∧ 0 ≤ t1.used ∧ t1.used ≤ t1.len) ∧
    (∀ m, ApiReachable m → ∀ t, m = some t → 0 ≤ t.used ∧ t.used ≤ t.len) ∧
    (∀ (pw : Nat) (m : Option (List Int)), 1 ≤ pw → Mem.ApiReachable pw m →
      (∀ mp, m = some mp → ∃ len used : Int, Mem.rd mp H_LEN = some len ∧
        Mem.rd mp H_USED = some used ∧ 0 ≤ used ∧ used ≤ len) ∧
      (∀ mem, ∃ r, Mem.hAlloc pw m mem = some r) ∧
      (∀ h, 0 ≤ h → h < Mem.capacity m → ∃ r, Mem.hFree m h = some r) ∧
      (∀ max size mem cp, ∃ r, Mem.hAllocEntry pw m max size mem cp = some r)) := by
  refine ⟨?_, ?_, ?_, ?_, ?_⟩
  · intro t ok h0 h1 hsucc
    rcases hAlloc_shape (some t) ok with ⟨_, h2⟩ | ⟨t2, ht, h2, hlt, _⟩ | ⟨t2, ht, h2, _⟩ |
      ⟨ht, _⟩
    · rw [h2] at hsucc
      have : (0 : Int) ≤ -1 := hsucc
      omega
    · cases ht
      refine ⟨_, h2, ?_, ?_⟩
      · show 0 ≤ t.used + 1
        omega
      · show t.used + 1 ≤ t.len
        omega
    · cases ht
      refine ⟨_, h2, ?_, ?_⟩
      · show 0 ≤ t.used + 1
        omega
      · show t.used + 1 ≤ (HTable.mk (t.used + 1) (t.slots ++ List.replicate H_INCR 0)).len
        simp only [HTable.len, List.length_append, List.length_replicate, H_INCR]
        unfold HTable.len at h1
        push_cast
        omega
    · cases ht
  · intro t h h0 h1 h2 hlo hhi
    obtain ⟨n, rfl⟩ : ∃ n : Nat, h = (n : Int) := ⟨h.toNat, (Int.toNat_of_nonneg hlo).symm⟩
    have hn : n < t.slots.length := by unfold HTable.len at hhi; omega
    obtain ⟨log, hfree⟩ := hFree_in_range t n hn
    refine ⟨_, hfree, ?_⟩
    intro t1 ht1
    by_cases hz : t.used - 1 = 0
    · rw [if_pos hz] at ht1; cases ht1
    · rw [if_neg hz] at ht1
      rw [← Option.some.inj ht1]
      refine ⟨?_, ?_⟩
      · show 0 ≤ t.used - 1
        omega
      · show t.used - 1 ≤ (HTable.mk (t.used - 1) (t.slots.set n 0)).len
        simp only [HTable.len, List.length_set]
        unfold HTable.len at h1
        omega
  · exact ⟨⟨1, List.replicate 16 0⟩, rfl, by decide, by decide⟩
  · intro m hm t ht
    obtain ⟨hlo, hhi, -⟩ := apiReachable_apiInv hm t ht
    exact ⟨by omega, hhi⟩
  · intro pw m hp hm
    have hinv := mem_reachable_inv hp hm
    refine ⟨?_, ?_, ?_, ?_⟩
    · intro mp hmp
      obtain ⟨len, used, hs, hu1, hu2, -⟩ := hinv mp hmp
      exact ⟨len, used, hs.1, hs.2.1, by omega, hu2⟩
    · intro mem
      obtain ⟨r, hr, -⟩ := mem_hAlloc_spec hp hinv mem
      exact ⟨r, hr⟩
    · intro h h0 h1
      cases m with
      | none =>
        have : h < 0 := h1
        omega
      | some mp =>
        obtain ⟨r, hr, -⟩ := mem_hFree_post hp hinv h0 h1
        exact ⟨r, hr⟩
    · intro max size mem cp
      obtain ⟨r, hr, -⟩ := mem_hAllocEntry_post hp hinv max size mem cp
      exact ⟨r, hr⟩

/-- Witness for C11 (amended): the table after one `hAlloc` from the absent table is
reachable, on the `HTable` and, with a pointer of two words, on the words of the
block. -/
theorem used_bounds_invariant_witness :
    (0 ≤ (HTable.mk 1 (List.replicate 16 0)).used ∧
      (HTable.mk 1 (List.replicate 16 0)).used ≤ (HTable.mk 1 (List.replicate 16 0)).len) ∧
    ∃ len used : Int, Mem.rd (16 :: 1 :: List.replicate 34 0) H_LEN = some len ∧
      Mem.rd (16 :: 1 :: List.replicate 34 0) H_USED = some used ∧ 0 ≤ used ∧ used ≤ len :=
  ⟨used_bounds_invariant.2.2.2.1 (some ⟨1, List.replicate 16 0⟩)
    (ApiReachable.step ApiReachable.absent (ApiStep.alloc none true)) _ rfl,
   (used_bounds_invariant.2.2.2.2 2 (some (16 :: 1 :: List.replicate 34 0)) (by decide)
    (Mem.ApiReachable.step Mem.ApiReachable.absent
      (@Mem.ApiStep.alloc 2 none (some []) (some (16 :: 1 :: List.replicate 34 0), 0)
        (by decide)))).1 _ rfl⟩

/-- C13, as stated, fails for a handle below the slots.  Two filled allocations from
the absent table give a block with `mp[H_LEN] = 16`, `mp[H_USED] = 2`;
`hFree(map, -2)` on it reads `mp[H_LEN]` as the slot, passes all three checks,
zeroes `mp[H_LEN]` and keeps the block: `hFree` has changed the capacity of a
table that stays present, to `0`; and the next `hFree` reports the check
`mp[H_LEN] >= H_INCR`. -/
theorem hFree_minus_two_zeroes_len :
    Mem.storeRun 1 none [7, 8] =
      some (some (Mem.encode ⟨2, 7 :: 8 :: List.replicate 14 0⟩), [0, 1]) ∧
    Mem.hFree (some (Mem.encode ⟨2, 7 :: 8 :: List.replicate 14 0⟩)) (-2) =
      some ⟨some (0 :: 1 :: 7 :: 8 :: List.replicate 14 0), 1, []⟩ ∧
    Mem.hFree (some (0 :: 1 :: 7 :: 8 :: List.replicate 14 0)) 0 =
      some ⟨none, 0, [Check.lenAtLeastIncr]⟩ := by
  decide

/-- C13, amended (capacity evolution): every step by `hAlloc`, by `hFree` with a handle
in `[0, capacity)`, by `hAllocEntry` or by a store that leaves the table present
leaves the capacity unchanged or adds exactly 16 to it (the absent table
counting as capacity 0); `hFree` with a handle in `[0, capacity)` never changes
the capacity of a table that stays present; in every state reachable by such
steps a present table has a capacity that is a positive multiple of 16, and
`hFree` with a handle in `[0, capacity)` never reports its check
`mp[H_LEN] >= H_INCR` there.  All of it is proved on the `HTable` and, for a
pointer of any width `pw ≥ 1`, on the words of the block. -/
theorem capacity_evolution :
    (∀ (m m1 : Option HTable), ApiStep m m1 → ∀ t1, m1 = some t1 →
      t1.len = capacity m ∨ t1.len = capacity m + 16) ∧
    (∀ (t : HTable) (h : Int), 0 ≤ h → h < t.len →
      ∃ r, hFree (some t) h = some r ∧ ∀ t1, r.map = some t1 → t1.len = t.len) ∧
    (∀ m, ApiReachable m → ∀ t, m = some t → ∃ k : Int, 1 ≤ k ∧ t.len = 16 * k) ∧
    (∀ (m : Option HTable) (h : Int), ApiReachable m → 0 ≤ h → h < capacity m →
      ∃ r, hFree m h = some r ∧ Check.lenAtLeastIncr ∉ r.failed) ∧
    (∀ (pw : Nat) (m m1 : Option (List Int)), 1 ≤ pw → Mem.ApiReachable pw m →
      Mem.ApiStep pw m m1 → ∀ mp1, m1 = some mp1 →
      Mem.capacity m1 = Mem.capacity m ∨ Mem.capacity m1 = Mem.capacity m + 16) ∧
    (∀ (pw : Nat) (m : Option (List Int)), 1 ≤ pw → Mem.ApiReachable pw m →
      ∀ mp, m = some mp → ∃ k : Int, 1 ≤ k ∧ Mem.capacity m = 16 * k) ∧
    (∀ (pw : Nat) (m : Option (List Int)) (h : Int), 1 ≤ pw → Mem.ApiReachable pw m →
      0 ≤ h → h < Mem.capacity m →
      ∃ r, Mem.hFree m h = some r ∧ Check.lenAtLeastIncr ∉ r.failed ∧
        ∀ mp1, r.map = some mp1 → Mem.capacity r.map = Mem.capacity m) := by
  have hdef : ∀ (t : HTable) (h : Int), 0 ≤ h → h < t.len → ∃ r, hFree (some t) h = some r := by
    intro t h h0 h1
    obtain ⟨n, rfl⟩ : ∃ n : Nat, h = (n : Int) := ⟨h.toNat, (Int.toNat_of_nonneg h0).symm⟩
    have hn : n < t.slots.length := by unfold HTable.len at h1; omega
    obtain ⟨log, hfree⟩ := hFree_in_range t n hn
    exact ⟨_, hfree⟩
  refine ⟨?_, ?_, ?_, ?_, ?_, ?_, ?_⟩
  · intro m m1 hstep t1 ht1
    exact apiStep_capacity hstep ht1
  · intro t h h0 h1
    obtain ⟨r, hfree⟩ := hdef t h h0 h1
    exact ⟨r, hfree, fun t1 hmap => hFree_capacity hfree hmap⟩
  · intro m hm t ht
    exact (apiReachable_apiInv hm t ht).2.2
  · intro m h hm h0 h1
    cases m with
    | none =>
      have : h < 0 := h1
      omega
    | some t =>
      obtain ⟨r, hfree⟩ := hdef t h h0 h1
      refine ⟨r, hfree, ?_⟩
      intro hmem
      obtain ⟨t2, n, ht, -, -, -, hlog⟩ := hFree_shape hfree
      cases ht
      obtain ⟨-, -, k, hk, hlen⟩ := apiReachable_apiInv hm t rfl
      exact hlog.mp hmem (by omega)
  · intro pw m m1 hp hm hstep mp1 hmp1
    exact (mem_apiStep_post hp hstep (mem_reachable_inv hp hm)).2 mp1 hmp1
  · intro pw m hp hm mp hmp
    obtain ⟨len, used, hs, -, -, k, hk, hlen⟩ := mem_reachable_inv hp hm mp hmp
    rw [hmp, mem_capacity_of_shaped hs]
    exact ⟨k, hk, hlen⟩
  · intro pw m h hp hm h0 h1
    cases m with
    | none =>
      have : h < 0 := h1
      omega
    | some mp =>
      obtain ⟨r, hr, hlog, -, hcap⟩ := mem_hFree_post hp (mem_reachable_inv hp hm) h0 h1
      exact ⟨r, hr, hlog, hcap⟩

/-- Witness for C13 (amended): the table after one `hAlloc` from the absent table has
capacity `16 * 1`, on the `HTable` and, with a pointer of two words, on the words
of the block. -/
theorem capacity_evolution_witness :
    (∃ k : Int, 1 ≤ k ∧ (HTable.mk 1 (List.replicate 16 0)).len = 16 * k) ∧
    ∃ k : Int, 1 ≤ k ∧ Mem.capacity (some (16 :: 1 :: List.replicate 34 0)) = 16 * k :=
  ⟨capacity_evolution.2.2.1 (some ⟨1, List.replicate 16 0⟩)
    (ApiReachable.step ApiReachable.absent (ApiStep.alloc none true)) _ rfl,
   capacity_evolution.2.2.2.2.2.1 2 (some (16 :: 1 :: List.replicate 34 0)) (by decide)
    (Mem.ApiReachable.step Mem.ApiReachable.absent
      (@Mem.ApiStep.alloc 2 none (some []) (some (16 :: 1 :: List.replicate 34 0), 0)
        (by decide))) _ rfl⟩

/-- C20 (invariant under the entry layer), at the failing input: where a pointer is
two `int` words wide (`pw = 2`), three successful `hAllocEntry` calls with
`size = 8` from the absent table, with the payload pointers `0x5555555552a0`,
`0x5555555552c0` and `0x5555555552e0`, return 0, 2, 2.  The third call returns a
handle whose pointer (words 6 and 7) the second call had filled, and overwrites
it; `mp[H_USED]` is 3 while two pointers are stored. -/
theorem entry_layer_two_words :
    Mem.hAllocEntry 2 none 0 8 (some []) 93824992236192 =
      some ⟨some (16 :: 1 :: 1431655072 :: 21845 :: List.replicate 32 0), 1, 0⟩ ∧
    Mem.hAllocEntry 2 (some (16 :: 1 :: 1431655072 :: 21845 :: List.replicate 32 0)) 1 8
        (some []) 93824992236224 =
      some ⟨some (16 :: 2 :: 1431655072 :: 21845 :: 0 :: 0 :: 1431655104 :: 21845 ::
        List.replicate 28 0), 3, 2⟩ ∧
    Mem.hAllocEntry 2 (some (16 :: 2 :: 1431655072 :: 21845 :: 0 :: 0 :: 1431655104 :: 21845 ::
        List.replicate 28 0)) 3 8 (some []) 93824992236256 =
      some ⟨some (16 :: 3 :: 1431655072 :: 21845 :: 0 :: 0 :: 1431655136 :: 21845 ::
        List.replicate 28 0), 3, 2⟩ := by
  decide

/-- On the `HTable` (`int` and `void*` of the same width): every state reachable from
the absent table by successful `hAllocEntry` calls with `size > 0` and by `hFree`
of in-range occupied handles is absent or has `used` equal to the number of
occupied slots with `1 ≤ used ≤ capacity`; and the handle a successful
`hAllocEntry` with `size > 0` returns was not occupied before the call and is
occupied after it, while every other slot keeps its value and no other slot
becomes occupied. -/
theorem entry_layer_invariant :
    (∀ m, EntryReachable m → ∀ t, m = some t →
      t.used = (occupiedCount t.slots : Int) ∧ 1 ≤ t.used ∧ t.used ≤ t.len) ∧
    (∀ (m : Option HTable) (max size : Int) (ok : Bool) (cp : Int) (r : EntryResult),
      0 < size → hAllocEntry m max size ok cp = some r → 0 ≤ r.ret →
      ¬ Occupied m r.ret ∧ Occupied r.list r.ret ∧
      (∀ i w, i ≠ r.ret → slotAt m i = some w → slotAt r.list i = some w) ∧
      (∀ i, i ≠ r.ret → Occupied r.list i → Occupied m i)) := by
  refine ⟨?_, ?_⟩
  · intro m hm
    have hinv : EntryInv m := by
      induction hm with
      | absent => intro t ht; cases ht
      | entry _ hsize hent hret ih =>
        obtain ⟨hcp, hstore⟩ := hAllocEntry_success hsize hent hret
        exact hAllocStore_entryInv hcp ih hstore
      | free _ hocc hfree ih => exact hFree_entryInv ih hocc hfree
    exact hinv
  · intro m max size ok cp r hsize hent hret
    obtain ⟨hcp, hstore⟩ := hAllocEntry_success hsize hent hret
    obtain ⟨t2, n, hstore2, hnot, hocc, -, -, -⟩ := hAllocStore_spec m cp hcp
    have hframe := hAllocStore_frame hstore
    rw [hstore2] at hstore
    have hpair := Option.some.inj hstore
    have h1 : some t2 = r.list := congrArg Prod.fst hpair
    have h2 : (n : Int) = r.ret := congrArg Prod.snd hpair
    rw [← h1, ← h2]
    rw [← h1, ← h2] at hframe
    exact ⟨hnot, hocc, hframe.1, hframe.2⟩

/-- An instance of `entry_layer_invariant`: the table after the first entry is
allocated is reachable. -/
theorem entry_layer_invariant_witness :
    (HTable.mk 1 (5 :: List.replicate 15 0)).used =
        (occupiedCount (HTable.mk 1 (5 :: List.replicate 15 0)).slots : Int) ∧
      1 ≤ (HTable.mk 1 (5 :: List.replicate 15 0)).used ∧
      (HTable.mk 1 (5 :: List.replicate 15 0)).used ≤
        (HTable.mk 1 (5 :: List.replicate 15 0)).len :=
  entry_layer_invariant.1 (some ⟨1, 5 :: List.replicate 15 0⟩)
    (@EntryReachable.entry none 0 8 true 5 ⟨some ⟨1, 5 :: List.replicate 15 0⟩, 1, 0, []⟩
      EntryReachable.absent (by decide) (by decide) (by decide)) _ rfl

/-- Every slot among the first `vs.length` of a block that starts with the non-zero
words `vs` is occupied. -/
theorem occupied_of_nonzero_head {u : Int} {vs rest : List Int} (hvs : ∀ w ∈ vs, w ≠ 0) {n : Nat}
    (hn : n < vs.length) : Occupied (some ⟨u, vs ++ rest⟩) (n : Int) := by
  refine occupied_iff.mpr ⟨n, vs[n], rfl, ?_, hvs _ (List.getElem_mem hn)⟩
  show (vs ++ rest)[n]? = some vs[n]
  rw [List.getElem?_append_left hn]
  exact List.getElem?_eq_getElem hn

/-- C12 (P4, capacity growth), at the failing input: where a pointer is two `int`
words wide (`pw = 2`), 17 successful `hAllocEntry` calls with `size = 8` from the
absent table, with the payload pointers `0x5555555552a0 + 32 * k`, return
0, 2, 2, ..., 2, 16: the handles are not pairwise distinct.  The capacity is 16
after 16 calls and 32 after the 17th, and `mp[H_USED]` is 17. -/
theorem hAllocEntry_chunk_plus_one_two_words :
    (Mem.entryRun 2 none 0
        ((List.range 16).map (fun k : Nat => 93824992236192 + 32 * (k : Int)))).map
      (fun x => (x.1.bind (fun mp => Mem.rd mp H_LEN), x.1.bind (fun mp => Mem.rd mp H_USED), x.2)) =
      some (some 16, some 16, [0, 2, 2, 2, 2, 2, 2, 2, 2, 2, 2, 2, 2, 2, 2, 2]) ∧
    (Mem.entryRun 2 none 0
        ((List.range 17).map (fun k : Nat => 93824992236192 + 32 * (k : Int)))).map
      (fun x => (x.1.bind (fun mp => Mem.rd mp H_LEN), x.1.bind (fun mp => Mem.rd mp H_USED), x.2)) =
      some (some 32, some 17, [0, 2, 2, 2, 2, 2, 2, 2, 2, 2, 2, 2, 2, 2, 2, 2, 16]) := by
  decide

/-- On the `HTable` (`int` and `void*` of the same width): 17 consecutive successful
`hAllocEntry` calls with positive payload size from the absent table, with no
frees, return the handles 0, 1, ..., 16 in order; the capacity is 16 after each of
the first 16 calls and 32 after the 17th, so the list grows exactly once; the
handles are pairwise distinct, each is below the capacity and its slot is
occupied, and `used` is 17. -/
theorem hAllocEntry_chunk_plus_one (ps : List (Int × Int)) (max : Int)
    (hlen : ps.length = 17) (hpos : ∀ q ∈ ps, 0 < q.1 ∧ q.2 ≠ 0) :
    ∃ (t : HTable) (mx : Int) (out : List (Int × Int)),
      hAllocEntryRun none max ps = some (some t, mx, out) ∧
      out = [(0, 16), (1, 16), (2, 16), (3, 16), (4, 16), (5, 16), (6, 16), (7, 16), (8, 16),
        (9, 16), (10, 16), (11, 16), (12, 16), (13, 16), (14, 16), (15, 16), (16, 32)] ∧
      (out.map Prod.fst).Nodup ∧
      t.used = 17 ∧ t.len = 32 ∧
      (∀ id ∈ out.map Prod.fst, 0 ≤ id ∧ id < t.len ∧ Occupied (some t) id) := by
  cases ps with
  | nil => simp at hlen
  | cons q rest =>
    have hrl : rest.length = 16 := by simpa using hlen
    obtain ⟨mx, hrun⟩ := hAllocEntryRun_absent q rest max (hpos q (List.mem_cons_self q rest))
      (fun w hw => hpos w (List.mem_cons_of_mem q hw))
    have hcps : ∀ w ∈ (q :: rest).map Prod.snd, w ≠ 0 := by
      intro w hw
      obtain ⟨x, hx, rfl⟩ := List.mem_map.mp hw
      exact (hpos x hx).2
    have hcl : ((q :: rest).map Prod.snd).length = 17 := by simp [hrl]
    rw [hrl] at hrun
    have hfree : packedFree 15 16 = 15 := by decide
    have hout : ((0, 16) :: packedOut 1 15 16 : List (Int × Int)) =
        [(0, 16), (1, 16), (2, 16), (3, 16), (4, 16), (5, 16), (6, 16), (7, 16), (8, 16),
        (9, 16), (10, 16), (11, 16), (12, 16), (13, 16), (14, 16), (15, 16), (16, 32)] := by
      decide
    rw [hfree, hout, List.length_cons, hrl] at hrun
    refine ⟨_, mx, _, hrun, rfl, by decide, rfl, ?_, ?_⟩
    · simp [HTable.len, hrl]
    · intro id hid
      have hids : List.map Prod.fst
          ([(0, 16), (1, 16), (2, 16), (3, 16), (4, 16), (5, 16), (6, 16), (7, 16), (8, 16),
        (9, 16), (10, 16), (11, 16), (12, 16), (13, 16), (14, 16), (15, 16), (16, 32)] : List (Int × Int)) = (List.range 17).map (fun n : Nat => (n : Int)) := by
        decide
      rw [hids] at hid
      obtain ⟨n, hn, rfl⟩ := List.mem_map.mp hid
      have hn17 : n < 17 := List.mem_range.mp hn
      refine ⟨Int.ofNat_nonneg n, ?_, occupied_of_nonzero_head hcps (by omega)⟩
      simp only [HTable.len, List.length_append, List.length_replicate, hcl]
      omega

/-- An instance of `hAllocEntry_chunk_plus_one`: seventeen calls with payload size 4
and payload pointers 100 to 116. -/
theorem hAllocEntry_chunk_plus_one_witness :
    ∃ (t : HTable) (mx : Int) (out : List (Int × Int)),
      hAllocEntryRun none 0 ((List.range 17).map (fun n : Nat => ((4 : Int), (100 + n : Int)))) =
        some (some t, mx, out) ∧
      out = [(0, 16), (1, 16), (2, 16), (3, 16), (4, 16), (5, 16), (6, 16), (7, 16), (8, 16),
        (9, 16), (10, 16), (11, 16), (12, 16), (13, 16), (14, 16), (15, 16), (16, 32)] ∧
      (out.map Prod.fst).Nodup ∧
      t.used = 17 ∧ t.len = 32 ∧
      (∀ id ∈ out.map Prod.fst, 0 ≤ id ∧ id < t.len ∧ Occupied (some t) id) :=
  hAllocEntry_chunk_plus_one _ 0 (by decide) (by decide)

/-- The word written by `set` is the word at that index. -/
theorem getElem?_set_same {ws : List Int} {n : Nat} (v : Int) (hn : n < ws.length) :
    (ws.set n v)[n]? = some v := by
  simp [List.getElem?_set, hn]

/-- A word of a packed block beyond the prefix is zero. -/
theorem getElem?_packed_zero (vs : List Int) {k j : Nat} (h1 : vs.length ≤ j)
    (h2 : j < vs.length + k) : (vs ++ List.replicate k 0)[j]? = some 0 := by
  rw [List.getElem?_append_right h1, List.getElem?_replicate, if_pos (by omega)]

/-- A word of the prefix of a packed block. -/
theorem getElem?_packed_head (vs rest : List Int) {j : Nat} (h : j < vs.length) :
    (vs ++ rest)[j]? = some vs[j] := by
  rw [List.getElem?_append_left h]
  exact List.getElem?_eq_getElem h

/-- C16 (end-to-end scenario at chunk size 16), at the failing input: where a pointer
is two `int` words wide (`pw = 2`), the 17 allocations whose slots the caller
fills with the values 100, ..., 116 return 0, 1, 1, ..., 1, 16; `hFree(2)` then
returns 1, `hFree(16)` reports the check of the slot and returns 1, and the next
allocation returns 1.  Where a pointer is one word wide the same run gives the
handles 0, ..., 16, then 17, 16 and 2, with no check reported. -/
theorem scenario_chunk_sixteen_two_words :
    Mem.scenario 2 ((List.range 17).map (fun n : Nat => (100 + n : Int))) 55 =
      some ⟨[0, 1, 1, 1, 1, 1, 1, 1, 1, 1, 1, 1, 1, 1, 1, 1, 16],
        1, [], 1, [Check.slotInUse], 1⟩ ∧
    Mem.scenario 1 ((List.range 17).map (fun n : Nat => (100 + n : Int))) 55 =
      some ⟨[0, 1, 2, 3, 4, 5, 6, 7, 8, 9, 10, 11, 12, 13, 14, 15, 16],
        17, [], 16, [], 2⟩ := by
  decide

/-- On the `HTable` (`int` and `void*` of the same width), every allocation being a
successful `hAlloc` after which the caller stores a non-empty value: from the
absent table 16 allocations return 0..15 and the table is full at capacity 16;
with one more allocation the handles are 0..16 and the capacity is 32;
`hFree(2)` then returns 17, `hFree(16)` returns 16, and the next allocation
returns 2. -/
theorem scenario_chunk_sixteen (vs : List Int) (v : Int) (hlen : vs.length = 17)
    (hvs : ∀ w ∈ vs, w ≠ 0) :
    hAllocStoreRun none (vs.take 16) =
      some (some ⟨16, vs.take 16⟩, [0, 1, 2, 3, 4, 5, 6, 7, 8, 9, 10, 11, 12, 13, 14, 15]) ∧
    (HTable.mk 16 (vs.take 16)).len = 16 ∧
    hAllocStoreRun none vs =
      some (some ⟨17, vs ++ List.replicate 15 0⟩,
        [0, 1, 2, 3, 4, 5, 6, 7, 8, 9, 10, 11, 12, 13, 14, 15, 16]) ∧
    (HTable.mk 17 (vs ++ List.replicate 15 0)).len = 32 ∧
    ∃ (r1 r2 : FreeResult) (m : Option HTable),
      hFree (some ⟨17, vs ++ List.replicate 15 0⟩) 2 = some r1 ∧ r1.ret = 17 ∧
      hFree r1.map 16 = some r2 ∧ r2.ret = 16 ∧
      hAllocStore r2.map v = some (m, 2) := by
  have hL : (vs ++ List.replicate 15 0).length = 32 := by simp [hlen]
  refine ⟨?_, ?_, ?_, ?_, ?_⟩
  · cases vs with
    | nil => simp at hlen
    | cons q rest =>
      have hrl : rest.length = 16 := by simpa using hlen
      have htl : (rest.take 15).length = 15 := by simp [hrl]
      have h := hAllocStoreRun_absent q (rest.take 15) (hvs q (List.mem_cons_self q rest))
        (fun w hw => hvs w (List.mem_cons_of_mem q (List.mem_of_mem_take hw)))
      have hfree : packedFree 15 15 = 0 := by decide
      have hout : ((0 : Int) :: (packedOut 1 15 15).map Prod.fst) =
          [0, 1, 2, 3, 4, 5, 6, 7, 8, 9, 10, 11, 12, 13, 14, 15] := by decide
      rw [htl, hfree, hout, List.length_cons, htl] at h
      simpa using h
  · simp [HTable.len, hlen]
  · cases vs with
    | nil => simp at hlen
    | cons q rest =>
      have hrl : rest.length = 16 := by simpa using hlen
      have h := hAllocStoreRun_absent q rest (hvs q (List.mem_cons_self q rest))
        (fun w hw => hvs w (List.mem_cons_of_mem q hw))
      have hfree : packedFree 15 16 = 15 := by decide
      have hout : ((0 : Int) :: (packedOut 1 15 16).map Prod.fst) =
          [0, 1, 2, 3, 4, 5, 6, 7, 8, 9, 10, 11, 12, 13, 14, 15, 16] := by decide
      rw [hrl, hfree, hout, List.length_cons, hrl] at h
      simpa using h
  · simp [HTable.len, hlen]
  · -- the two frees and the allocation that follows
    have hget : ∀ j, j < 17 → ∃ w, (vs ++ List.replicate 15 0)[j]? = some w ∧ w ≠ 0 := by
      intro j hj
      have hj2 : j < vs.length := by omega
      exact ⟨vs[j], getElem?_packed_head vs _ hj2, hvs _ (List.getElem_mem hj2)⟩
    have hzero : ∀ j, 17 ≤ j → j < 32 → (vs ++ List.replicate 15 0)[j]? = some 0 := by
      intro j h1 h2
      exact getElem?_packed_zero vs (by omega) (by omega)
    -- hFree(2)
    obtain ⟨log1, hf1⟩ := hFree_in_range ⟨17, vs ++ List.replicate 15 0⟩ 2 (by rw [hL]; omega)
    have hs1 : scanDown ((vs ++ List.replicate 15 0).set 2 0) (vs ++ List.replicate 15 0).length
        = ((16 : Nat) : Int) := by
      rw [hL]
      refine scanDown_eq (by omega) ?_ ?_
      · obtain ⟨w, hw, hne⟩ := hget 16 (by omega)
        have : ((vs ++ List.replicate 15 0).set 2 0)[16]? = some w := by
          rw [List.getElem?_set_ne (by omega)]; exact hw
        rw [getD_of_getElem? this]; exact hne
      · intro j h1 h2
        have : ((vs ++ List.replicate 15 0).set 2 0)[j]? = some 0 := by
          rw [List.getElem?_set_ne (by omega)]; exact hzero j (by omega) h2
        exact getD_of_getElem? this
    have hlen1 : (HTable.mk 17 (vs ++ List.replicate 15 0)).len = 32 := by
      simp [HTable.len, hlen]
    have hu1 : (HTable.mk 17 (vs ++ List.replicate 15 0)).used - 1 = 16 := rfl
    rw [hu1, hlen1, if_neg (by decide), if_pos (by decide), hs1] at hf1
    -- hFree(16)
    obtain ⟨log2, hf2⟩ := hFree_in_range ⟨16, (vs ++ List.replicate 15 0).set 2 0⟩ 16
      (by rw [List.length_set, hL]; omega)
    have hs2 : scanDown (((vs ++ List.replicate 15 0).set 2 0).set 16 0)
        ((vs ++ List.replicate 15 0).set 2 0).length = ((15 : Nat) : Int) := by
      rw [List.length_set, hL]
      refine scanDown_eq (by omega) ?_ ?_
      · obtain ⟨w, hw, hne⟩ := hget 15 (by omega)
        have : (((vs ++ List.replicate 15 0).set 2 0).set 16 0)[15]? = some w := by
          rw [List.getElem?_set_ne (by omega), List.getElem?_set_ne (by omega)]; exact hw
        rw [getD_of_getElem? this]; exact hne
      · intro j h1 h2
        have : (((vs ++ List.replicate 15 0).set 2 0).set 16 0)[j]? = some 0 := by
          by_cases hj : j = 16
          · subst hj
            exact getElem?_set_same 0 (by rw [List.length_set, hL]; omega)
          · rw [List.getElem?_set_ne (by omega), List.getElem?_set_ne (by omega)]
            exact hzero j (by omega) h2
        exact getD_of_getElem? this
    have hlen2 : (HTable.mk 16 ((vs ++ List.replicate 15 0).set 2 0)).len = 32 := by
      simp [HTable.len, hlen]
    have hu2 : (HTable.mk 16 ((vs ++ List.replicate 15 0).set 2 0)).used - 1 = 15 := rfl
    rw [hu2, hlen2, if_neg (by decide), if_pos (by decide), hs2] at hf2
    -- the next allocation
    have hst := @hAllocStore_lowest 15 (((vs ++ List.replicate 15 0).set 2 0).set 16 0) 2 v
      (by simp only [List.length_set, hL]; decide)
      (by
        rw [List.getElem?_set_ne (by omega)]
        exact getElem?_set_same 0 (by rw [hL]; omega))
      (by
        intro j hj w hw
        rw [List.getElem?_set_ne (by omega), List.getElem?_set_ne (by omega)] at hw
        obtain ⟨w2, hw2, hne⟩ := hget j (by omega)
        rw [hw] at hw2
        rw [Option.some.inj hw2]; exact hne)
    exact ⟨_, _, _, hf1, rfl, hf2, rfl, hst⟩

/-- An instance of `scenario_chunk_sixteen`: the values stored are 100 to 116, and 55
for the last allocation. -/
theorem scenario_chunk_sixteen_witness :
    ∃ (r1 r2 : FreeResult) (m : Option HTable),
      hFree (some ⟨17, (List.range 17).map (fun n : Nat => (100 + n : Int)) ++
        List.replicate 15 0⟩) 2 = some r1 ∧ r1.ret = 17 ∧
      hFree r1.map 16 = some r2 ∧ r2.ret = 16 ∧
      hAllocStore r2.map 55 = some (m, 2) :=
  (scenario_chunk_sixteen ((List.range 17).map (fun n : Nat => (100 + n : Int))) 55
    (by decide) (by decide)).2.2.2.2

end GoAhead
